import Mathlib

/-! Verification development for the topic-hierarchy builder of
`src/database/topicmap_bertopic.py`.

Modelling conventions.
* Python scalar values crossing the input boundary are modelled by `PyVal`:
  `None`, integral numbers, floats and strings.  A Python float is modelled by
  `PyFloat`: not-a-number, the two infinities, or a finite value idealized as an
  exact rational (float rounding is not modelled; none of the verified
  properties depend on rounding).
* Fallible Python code is modelled with `Except PyExn`: the only uncaught
  exception reachable inside the modelled core is the `OverflowError` that
  `int()` raises on an infinite float (`_to_int` has no handler around
  `int(val)` in its float branch).
* Python dicts are modelled as insertion-ordered association lists with unique
  keys (`alGet` / `alSet` / `alUpdate`), matching CPython's insertion-ordered
  dict semantics.  `set(parent_children.keys())` iteration is modelled by key
  insertion order.
* Python's stable `list.sort` / `sorted` is modelled by a stable insertion
  sort (`stableSort`); every comparison key used by the source is a total
  preorder on the modelled values, for which the stable sort is unique.
* String helpers (`strip`, `re` digit runs, `split`, `startswith`, `lower`,
  `join`) are implemented structurally over the character list, restricted to
  ASCII digits/whitespace (the source's inputs are JSON/pandas scalars).
-/

namespace TB

/-- A Python float: not-a-number, one of the two infinities, or a finite value
idealized as an exact rational. -/
inductive PyFloat where
  | nan
  | inf
  | neginf
  | finite (q : ℚ)
deriving DecidableEq

/-- A Python scalar value as it crosses the input boundary of the builder. -/
inductive PyVal where
  | none
  | int (n : ℤ)
  | float (f : PyFloat)
  | str (s : String)
deriving DecidableEq

/-- The only exception that escapes the modelled core: `int()` applied to an
infinite float raises `OverflowError`. -/
inductive PyExn where
  | overflowError
deriving DecidableEq

deriving instance DecidableEq for Except

/-! ### String helpers (structural, ASCII) -/

/-- Numeric value of a list of decimal digit characters. -/
def natOfDigits (ds : List Char) : ℕ :=
  ds.foldl (fun a c => a * 10 + (c.toNat - ('0').toNat)) 0

/-- Python `str.strip()` on the character list (ASCII whitespace). -/
def trimChars (cs : List Char) : List Char :=
  ((cs.dropWhile Char.isWhitespace).reverse.dropWhile Char.isWhitespace).reverse

/-- Python `str.strip()`, structurally. -/
def pyStrip (s : String) : String := String.mk (trimChars s.data)

/-- Model of `re.search(r"(-?\d+)$", t)` on an already-stripped string `t`:
the maximal run of decimal digits at the end of the string, together with a
directly preceding minus sign when present. -/
def trailingIntOf (t : String) : Option ℤ :=
  let rs := t.data.reverse
  let ds := rs.takeWhile Char.isDigit
  if ds.isEmpty then Option.none
  else
    let mag : ℤ := natOfDigits ds.reverse
    match rs.drop ds.length with
    | '-' :: _ => some (-mag)
    | _ => some mag

/-- Model of `re.search(r"(-?\d+)", s)`: the leftmost run of decimal digits,
with an optional directly preceding minus sign. -/
def firstIntIn : List Char → Option ℤ
  | [] => Option.none
  | '-' :: c :: rest =>
      if c.isDigit then some (-(natOfDigits ((c :: rest).takeWhile Char.isDigit) : ℤ))
      else firstIntIn (c :: rest)
  | c :: rest =>
      if c.isDigit then some ((natOfDigits ((c :: rest).takeWhile Char.isDigit) : ℤ))
      else firstIntIn rest

/-- Tail of a Python `int()` literal after the first digit: digits with single
interior underscores. -/
def intTailOk : List Char → Bool
  | [] => true
  | '_' :: c :: rest => c.isDigit && intTailOk rest
  | '_' :: [] => false
  | c :: rest => c.isDigit && intTailOk rest

/-- Body of a Python `int()` literal: nonempty digits with single interior
underscores. -/
def intBodyOk : List Char → Bool
  | [] => false
  | c :: rest => c.isDigit && intTailOk rest

/-- Model of Python `int(s)` for a string: optional surrounding whitespace and
sign, then decimal digits (with single interior underscores); `Option.none`
models the `ValueError` that the source catches. -/
def pyIntOfStr (s : String) : Option ℤ :=
  let t := trimChars s.data
  let core : Bool × List Char :=
    match t with
    | '-' :: rest => (true, rest)
    | '+' :: rest => (false, rest)
    | cs => (false, cs)
  if intBodyOk core.2 then
    let mag : ℤ := natOfDigits (core.2.filter (fun c => c ≠ '_'))
    some (if core.1 then -mag else mag)
  else Option.none

/-- Truncation of a rational toward zero, the behaviour of Python `int()` on a
finite float. -/
def truncQ (q : ℚ) : ℤ := Int.tdiv q.num q.den

/-! ### The identifier normalizer `_to_int` -/

/-- Model of `_to_int` (src/database/topicmap_bertopic.py:43-68).  `Except`
carries the `OverflowError` raised by `int(val)` on an infinite float, which
no handler in `_to_int` catches.  The two `except ValueError` handlers around
`int(m.group(1))` are dead (a matched `-?\d+` always parses) and are elided. -/
def toInt : PyVal → Except PyExn (Option ℤ)
  | PyVal.none => Except.ok Option.none
  | PyVal.int n => Except.ok (some n)
  | PyVal.float PyFloat.nan => Except.ok Option.none
  | PyVal.float PyFloat.inf => Except.error PyExn.overflowError
  | PyVal.float PyFloat.neginf => Except.error PyExn.overflowError
  | PyVal.float (PyFloat.finite q) => Except.ok (some (truncQ q))
  | PyVal.str s =>
      match trailingIntOf (pyStrip s) with
      | some n => Except.ok (some n)
      | Option.none =>
          match firstIntIn s.data with
          | some n => Except.ok (some n)
          | Option.none => Except.ok (pyIntOfStr s)

/-! ### Float coercions and comparisons -/

/-- Lower-case a character list (ASCII). -/
def lowerChars (cs : List Char) : List Char := cs.map Char.toLower

/-- Parse the decimal part of a Python float literal (after sign):
`digits[.digits][e[sign]digits]` or `.digits[...]`. -/
def parseDecimal (cs : List Char) : Option ℚ :=
  let ip := cs.takeWhile Char.isDigit
  let r1 := cs.dropWhile Char.isDigit
  let fpr : List Char × List Char :=
    match r1 with
    | '.' :: rest => (rest.takeWhile Char.isDigit, rest.dropWhile Char.isDigit)
    | _ => ([], r1)
  let fp := fpr.1
  if ip.isEmpty && fp.isEmpty then Option.none
  else
    let mant : ℚ := (natOfDigits ip : ℚ) + (natOfDigits fp : ℚ) / ((10 : ℚ) ^ fp.length)
    match fpr.2 with
    | [] => some mant
    | e :: rest =>
        if e = 'e' ∨ e = 'E' then
          let sgnRest : Bool × List Char :=
            match rest with
            | '-' :: rr => (true, rr)
            | '+' :: rr => (false, rr)
            | rr => (false, rr)
          if sgnRest.2.isEmpty = false ∧ sgnRest.2.all Char.isDigit then
            let ex : ℤ := if sgnRest.1 then -(natOfDigits sgnRest.2 : ℤ) else (natOfDigits sgnRest.2 : ℤ)
            some (mant * (10 : ℚ) ^ ex)
          else Option.none
        else Option.none

/-- Model of Python `float(s)` for a string: optional whitespace and sign, a
decimal literal or `inf`/`infinity`/`nan` (case-insensitive); `Option.none`
models the `ValueError` that every call site catches. -/
def parsePyFloat (s : String) : Option PyFloat :=
  let t := trimChars s.data
  let core : Bool × List Char :=
    match t with
    | '-' :: rest => (true, rest)
    | '+' :: rest => (false, rest)
    | cs => (false, cs)
  let low := lowerChars core.2
  if low = ['i', 'n', 'f'] ∨ low = ['i', 'n', 'f', 'i', 'n', 'i', 't', 'y'] then
    some (if core.1 then PyFloat.neginf else PyFloat.inf)
  else if low = ['n', 'a', 'n'] then some PyFloat.nan
  else
    match parseDecimal core.2 with
    | some q => some (PyFloat.finite (if core.1 then -q else q))
    | Option.none => Option.none

/-- Model of Python `float(x)` on a scalar; `Option.none` models the exception
that every call site wraps in `try/except`. -/
def pyFloatCoerce : PyVal → Option PyFloat
  | PyVal.none => Option.none
  | PyVal.int n => some (PyFloat.finite n)
  | PyVal.float f => some f
  | PyVal.str s => parsePyFloat s

/-- Model of Python `int(x)` where the call site catches every exception
(`top_count = int(top_terms)`): the overflow on infinities becomes a failure. -/
def pyIntCoerce : PyVal → Option ℤ
  | PyVal.none => Option.none
  | PyVal.int n => some n
  | PyVal.float PyFloat.nan => Option.none
  | PyVal.float PyFloat.inf => Option.none
  | PyVal.float PyFloat.neginf => Option.none
  | PyVal.float (PyFloat.finite q) => some (truncQ q)
  | PyVal.str s => pyIntOfStr s

/-- IEEE `>` on modelled floats: any comparison involving NaN is false. -/
def pyGt : PyFloat → PyFloat → Bool
  | PyFloat.nan, _ => false
  | _, PyFloat.nan => false
  | PyFloat.inf, PyFloat.inf => false
  | PyFloat.inf, _ => true
  | PyFloat.neginf, _ => false
  | PyFloat.finite _, PyFloat.inf => false
  | PyFloat.finite _, PyFloat.neginf => true
  | PyFloat.finite a, PyFloat.finite b => decide (b < a)

/-- `np.maximum`-style max of two floats: NaN propagates. -/
def pyFloatMax2 : PyFloat → PyFloat → PyFloat
  | PyFloat.nan, _ => PyFloat.nan
  | _, PyFloat.nan => PyFloat.nan
  | PyFloat.inf, _ => PyFloat.inf
  | _, PyFloat.inf => PyFloat.inf
  | PyFloat.neginf, b => b
  | a, PyFloat.neginf => a
  | PyFloat.finite a, PyFloat.finite b => PyFloat.finite (max a b)

/-! ### Association lists (Python dicts, insertion-ordered) -/

/-- Dict lookup. -/
def alGet {κ α : Type} [DecidableEq κ] : List (κ × α) → κ → Option α
  | [], _ => Option.none
  | (k, v) :: rest, key => if k = key then some v else alGet rest key

/-- Dict store: replace in place when the key is present, else append. -/
def alSet {κ α : Type} [DecidableEq κ] : List (κ × α) → κ → α → List (κ × α)
  | [], key, v => [(key, v)]
  | (k, w) :: rest, key, v =>
      if k = key then (k, v) :: rest else (k, w) :: alSet rest key v

/-- In-place update of an existing entry (Python `d[k]` mutation). -/
def alUpdate {κ α : Type} [DecidableEq κ] (m : List (κ × α)) (key : κ) (f : α → α) :
    List (κ × α) :=
  m.map fun kv => if kv.1 = key then (kv.1, f kv.2) else kv

/-- `defaultdict(float)` accumulation: `d[k] += v`. -/
def alAddQ (m : List (String × ℚ)) (key : String) (v : ℚ) : List (String × ℚ) :=
  match alGet m key with
  | some _ => alUpdate m key (fun w => w + v)
  | Option.none => m ++ [(key, v)]

/-! ### Stable sort (Python `sorted` / `list.sort`) -/

/-- Insert an element after every already-placed element that compares
less-or-equal, preserving the order of equals (stability). -/
def insOrdered {α : Type} (le : α → α → Bool) (a : α) : List α → List α
  | [] => [a]
  | b :: bs => if le b a then b :: insOrdered le a bs else a :: b :: bs

/-- Stable sort by a boolean total preorder; on such comparators this is the
unique stable sort, hence the model of Python's sort. -/
def stableSort {α : Type} (le : α → α → Bool) (l : List α) : List α :=
  l.foldl (fun acc a => insOrdered le a acc) []

/-! ### Data model -/

/-- One entry of a node's `terms` list. -/
structure TermEntry where
  term : String
  score : ℚ
  rank : ℕ
deriving DecidableEq

/-- One entry of a node's `docs` list. -/
structure DocEntry where
  id : ℤ
  weight : Option PyFloat
deriving DecidableEq

/-- A topic node of the output tree. -/
structure Node where
  topicId : ℤ
  parentId : Option ℤ
  level : ℕ
  label : String
  size : ℤ
  score : Option PyFloat
  terms : List TermEntry
  docs : List DocEntry
deriving DecidableEq

/-- The diagnostics record returned next to the node list. -/
structure Stats where
  parentsExpected : ℕ
  parentsEmitted : ℕ
  roots : ℕ
  leafCount : ℕ
  maxLevel : ℕ
  hasLinks : Bool
deriving DecidableEq

/-- One row of `topic_info` (`Topic`, `Count`, `Name`, `Probability`). -/
structure SummaryRow where
  topic : PyVal
  count : PyVal
  name : PyVal
  probability : PyVal
deriving DecidableEq

/-- One row of the merge table `hierarchy_df`. -/
structure MergeRow where
  parentId : PyVal
  childLeftId : PyVal
  childRightId : PyVal
  distance : PyVal
  parentName : PyVal
deriving DecidableEq

/-- One entry of a `topic_model.get_topic(...)` result after the source's
envelope normalization (`None`/raise become `[]`, a dict becomes its `Main`
list): either a value that is not a pair of length at least 2 (skipped by the
source), or a term string with a score whose `float()` coercion may fail
(`Option.none`, coerced to `0.0`). -/
inductive TermPair where
  | malformed
  | pair (term : String) (score : Option ℚ)
deriving DecidableEq

/-- The `hierarchy` configuration dict (only `max_distance` reaches the
builder). -/
structure HierConf where
  maxDistance : PyVal
deriving DecidableEq

/-- The inputs of `build_topic_tree`. -/
structure BuildInput where
  getTopic : ℤ → List TermPair
  topicInfo : Option (List SummaryRow)
  hierarchyDf : Option (List MergeRow)
  topics : Option (List PyVal)
  probabilities : Option (List (Option (List PyFloat)))
  docIds : List ℤ
  topTerms : PyVal
  hierarchyConf : Option HierConf

/-- Resolution of `top_terms` (lines 400-405): `int()` failures and
non-positive values fall back to 10. -/
def topCountOf (v : PyVal) : ℕ :=
  match pyIntCoerce v with
  | Option.none => 10
  | some n => if n ≤ 0 then 10 else n.toNat

/-- Resolution of `max_distance` (lines 407-414): absent, `None`, `''` and
unparsable values disable the cutoff. -/
def maxDistanceOf : Option HierConf → Option PyFloat
  | Option.none => Option.none
  | some c =>
      if c.maxDistance = PyVal.none ∨ c.maxDistance = PyVal.str ("") then Option.none
      else pyFloatCoerce c.maxDistance

/-! ### Membership aggregation (lines 416-442) -/

/-- Per-document weight: `float(np.max(probabilities[idx]))` with every
failure (index error, `None` row, empty row) collapsing to `None`. -/
def weightOf (probabilities : Option (List (Option (List PyFloat)))) (idx : ℕ) :
    Option PyFloat :=
  match probabilities with
  | Option.none => Option.none
  | some rows =>
      match rows.get? idx with
      | Option.none => Option.none
      | some Option.none => Option.none
      | some (some probs) =>
          match probs with
          | [] => Option.none
          | p :: ps => some (ps.foldl pyFloatMax2 p)

/-- The membership loop (lines 421-439): fold over the assignment sequence,
skipping unresolvable ids, the outlier `-1`, and positions beyond the
document-id sequence. -/
def docMembersLoop (probabilities : Option (List (Option (List PyFloat))))
    (docIds : List ℤ) :
    List PyVal → ℕ → List (ℤ × List DocEntry) → Except PyExn (List (ℤ × List DocEntry))
  | [], _, acc => Except.ok acc
  | assigned :: rest, idx, acc => do
      let tid? ← toInt assigned
      let acc' :=
        match tid? with
        | Option.none => acc
        | some tid =>
            if tid = -1 then acc
            else
              match docIds.get? idx with
              | Option.none => acc
              | some noteId =>
                  let w := weightOf probabilities idx
                  match alGet acc tid with
                  | Option.none => acc ++ [(tid, [⟨noteId, w⟩])]
                  | some entries => alSet acc tid (entries ++ [⟨noteId, w⟩])
      docMembersLoop probabilities docIds rest (idx + 1) acc'

/-- Membership aggregation: group by topic id, then sort each member list by
document id (lines 441-442). -/
def docMembersOf (topics : Option (List PyVal))
    (probabilities : Option (List (Option (List PyFloat)))) (docIds : List ℤ) :
    Except PyExn (List (ℤ × List DocEntry)) := do
  let raw ← docMembersLoop probabilities docIds (topics.getD []) 0 []
  Except.ok (raw.map fun kv => (kv.1, stableSort (fun a b => decide (a.id ≤ b.id)) kv.2))

/-! ### Summary rows (lines 444-468) -/

/-- The three per-topic maps extracted from `topic_info`. -/
structure SummaryAcc where
  sizeBy : List (ℤ × ℤ)
  probBy : List (ℤ × PyFloat)
  labelBy : List (ℤ × String)
deriving DecidableEq

/-- Member count of a topic id in the aggregation (used by the summary loop's
`len(doc_members.get(topic_id, []))`). -/
def membersCount (members : List (ℤ × List DocEntry)) (tid : ℤ) : ℕ :=
  ((alGet members tid).getD []).length

/-- The `size_by_topic` update of one summary row (lines 457-459). -/
def summarySizeUpd (members : List (ℤ × List DocEntry)) (tid : ℤ) (cnt? : Option ℤ)
    (sizeBy : List (ℤ × ℤ)) : List (ℤ × ℤ) :=
  match cnt? with
  | Option.none => sizeBy
  | some c => alSet sizeBy tid (max c (membersCount members tid : ℤ))

/-- The `label_by_topic` update of one summary row (lines 460-462). -/
def summaryLabelUpd (row : SummaryRow) (tid : ℤ) (labelBy : List (ℤ × String)) :
    List (ℤ × String) :=
  match row.name with
  | PyVal.str s => if pyStrip s = "" then labelBy else alSet labelBy tid (pyStrip s)
  | _ => labelBy

/-- The `prob_by_topic` update of one summary row (lines 463-468). -/
def summaryProbUpd (row : SummaryRow) (tid : ℤ) (probBy : List (ℤ × PyFloat)) :
    List (ℤ × PyFloat) :=
  if row.probability = PyVal.none ∨ row.probability = PyVal.str ("") then probBy
  else
    match pyFloatCoerce row.probability with
    | Option.none => probBy
    | some f => alSet probBy tid f

/-- The summary-row loop (lines 448-468); the three per-row updates touch
disjoint fields, so they are applied as one record update. -/
def summaryLoop (members : List (ℤ × List DocEntry)) :
    List SummaryRow → SummaryAcc → Except PyExn SummaryAcc
  | [], acc => Except.ok acc
  | row :: rest, acc => do
      let tid? ← toInt row.topic
      match tid? with
      | Option.none => summaryLoop members rest acc
      | some tid =>
          if tid = -1 then summaryLoop members rest acc
          else do
            let cnt? ← toInt row.count
            summaryLoop members rest
              ⟨summarySizeUpd members tid cnt? acc.sizeBy,
                summaryProbUpd row tid acc.probBy,
                summaryLabelUpd row tid acc.labelBy⟩

/-- Summary extraction; a `None` `topic_info` yields the empty iterator. -/
def summaryOf (topicInfo : Option (List SummaryRow)) (members : List (ℤ × List DocEntry)) :
    Except PyExn SummaryAcc :=
  match topicInfo with
  | Option.none => Except.ok ⟨[], [], []⟩
  | some rows => summaryLoop members rows ⟨[], [], []⟩

/-! ### Leaf node construction (lines 470-521) -/

/-- The generic placeholder label `Topic <id>`. -/
def topicLabel (n : ℤ) : String := String.mk (['T', 'o', 'p', 'i', 'c', ' '] ++ (toString n).data)

/-- Leaf terms from `get_topic` pairs (lines 495-506): ranks come from
`enumerate` over the raw pair list, so skipped entries leave rank gaps; the
loop stops once `top_count` terms are kept. -/
def leafTermsGo (topCount : ℕ) : List TermPair → ℕ → List TermEntry → List TermEntry
  | [], _, acc => acc.reverse
  | p :: rest, rank, acc =>
      let acc' :=
        match p with
        | TermPair.malformed => acc
        | TermPair.pair t sc =>
            let tt := pyStrip t
            if tt = "" then acc else ⟨tt, sc.getD 0, rank⟩ :: acc
      if topCount ≤ acc'.length then acc'.reverse else leafTermsGo topCount rest (rank + 1) acc'

/-- Model of `re.split(r"[_\s]+", label)` followed by dropping empty tokens. -/
def tokensGo (cs : List Char) (cur : List Char) : List String :=
  match cs with
  | [] => if cur.isEmpty then [] else [String.mk cur.reverse]
  | c :: rest =>
      if c = '_' ∨ c.isWhitespace then
        if cur.isEmpty then tokensGo rest [] else String.mk cur.reverse :: tokensGo rest []
      else tokensGo rest (c :: cur)

/-- Label tokens for the zero-score fallback terms. -/
def splitTokens (s : String) : List String := tokensGo s.data []

/-- Fallback terms derived from the label (lines 507-510). -/
def fallbackTerms (label : String) (topCount : ℕ) : List TermEntry :=
  ((splitTokens label).take topCount).enum.map fun p => ⟨p.2, 0, p.1 + 1⟩

/-- One leaf node (lines 476-521). -/
def leafNodeOf (getTopic : ℤ → List TermPair) (members : List (ℤ × List DocEntry))
    (sacc : SummaryAcc) (topCount : ℕ) (tid : ℤ) : Node :=
  let docs := (alGet members tid).getD []
  let size : ℤ :=
    match alGet sacc.sizeBy tid with
    | Option.none => docs.length
    | some s => max s (docs.length : ℤ)
  let label := (alGet sacc.labelBy tid).getD (topicLabel tid)
  let terms := leafTermsGo topCount (getTopic tid) 1 []
  let terms := if terms.isEmpty then fallbackTerms label topCount else terms
  { topicId := tid, parentId := Option.none, level := 0, label := label,
    size := size, score := alGet sacc.probBy tid, terms := terms, docs := docs }

/-- The sorted set of leaf topic ids (lines 470-472, 476): summary ids union
assigned ids, outlier discarded, ascending. -/
def leafIdsOf (sacc : SummaryAcc) (members : List (ℤ × List DocEntry)) : List ℤ :=
  stableSort (fun a b => decide (a ≤ b))
    ((((sacc.sizeBy.map Prod.fst) ++ (members.map Prod.fst).filter (fun t => t ≠ -1)).dedup).filter
      (fun t => t ≠ -1))

/-- The node registry after the leaf-building stage. -/
def leafNodesOf (getTopic : ℤ → List TermPair) (members : List (ℤ × List DocEntry))
    (sacc : SummaryAcc) (topCount : ℕ) : List (ℤ × Node) :=
  (leafIdsOf sacc members).map fun tid => (tid, leafNodeOf getTopic members sacc topCount tid)

/-! ### Merge graph (lines 523-556) -/

/-- The merge adjacency, the seen-as-child set and the parent display names. -/
structure Adj where
  pc : List (ℤ × List ℤ)
  childrenSeen : List ℤ
  plabels : List (ℤ × String)
deriving DecidableEq

/-- Append-if-absent (line 548-550). -/
def addChild (cs : List ℤ) (c : ℤ) : List ℤ := if cs.contains c then cs else cs ++ [c]

/-- The resolved distance of a merge row (lines 538-544): `Option.none` when
the field is absent (`None`), the empty string, or fails to parse as a
float. -/
def rowDistance (row : MergeRow) : Option PyFloat :=
  if row.distance = PyVal.none ∨ row.distance = PyVal.str ("") then Option.none
  else pyFloatCoerce row.distance

/-- The distance-cutoff test of a row (line 545): skip only when a maximum is
configured and the distance parsed and exceeds it. -/
def rowSkip (maxD : Option PyFloat) (row : MergeRow) : Bool :=
  match maxD, rowDistance row with
  | some md, some d => pyGt d md
  | _, _ => false

/-- The adjacency/seen/label update of one kept merge row (lines 547-556). -/
def mergeStepAdj (row : MergeRow) (p l r : ℤ) (adj : Adj) : Adj :=
  { pc :=
      match alGet adj.pc p with
      | Option.none => adj.pc ++ [(p, [l, r])]
      | some cs => alSet adj.pc p (addChild (addChild cs l) r),
    childrenSeen := adj.childrenSeen ++ [l, r],
    plabels :=
      match row.parentName with
      | PyVal.str s => if pyStrip s = "" then adj.plabels
          else alSet adj.plabels p (pyStrip s)
      | _ => adj.plabels }

/-- The merge-table loop (lines 527-556). -/
def hierLoop (maxD : Option PyFloat) : List MergeRow → Adj → Except PyExn Adj
  | [], adj => Except.ok adj
  | row :: rest, adj => do
      let p? ← toInt row.parentId
      let l? ← toInt row.childLeftId
      let r? ← toInt row.childRightId
      match p?, l?, r? with
      | some p, some l, some r =>
          if rowSkip maxD row then hierLoop maxD rest adj
          else hierLoop maxD rest (mergeStepAdj row p l r adj)
      | _, _, _ => hierLoop maxD rest adj

/-- Merge-graph construction; `None` (or, equivalently here, empty)
`hierarchy_df` yields the empty graph. -/
def adjacencyOf (hierarchyDf : Option (List MergeRow)) (maxD : Option PyFloat) :
    Except PyExn Adj :=
  match hierarchyDf with
  | Option.none => Except.ok ⟨[], [], []⟩
  | some rows => hierLoop maxD rows ⟨[], [], []⟩

/-- Parent stub synthesized before the walk (lines 558-570). -/
def stubParentNode (plabels : List (ℤ × String)) (p : ℤ) : Node :=
  { topicId := p, parentId := Option.none, level := 0,
    label := (alGet plabels p).getD (topicLabel p), size := 0, score := Option.none,
    terms := [], docs := [] }

/-- One step of the parent-ensuring loop (lines 558-575): create a stub for a
missing parent, otherwise override its label when a merge name exists and
clear its docs. -/
def epStep (plabels : List (ℤ × String)) (ns : List (ℤ × Node)) (pr : ℤ × List ℤ) :
    List (ℤ × Node) :=
  match alGet ns pr.1 with
  | Option.none => ns ++ [(pr.1, stubParentNode plabels pr.1)]
  | some _ =>
      alUpdate
        (match alGet plabels pr.1 with
         | Option.none => ns
         | some lbl => alUpdate ns pr.1 (fun nd => { nd with label := lbl }))
        pr.1 (fun nd => if nd.docs.isEmpty then nd else { nd with docs := [] })

/-- Ensure every merge parent has a node, overriding labels and clearing docs
of pre-existing parents (lines 558-575). -/
def ensureParents (nodes : List (ℤ × Node)) (adj : Adj) : List (ℤ × Node) :=
  adj.pc.foldl (epStep adj.plabels) nodes

/-- `sorted(parent_ids)[-1]`: the numerically largest parent id. -/
def maxOfList : List ℤ → ℤ
  | [] => 0
  | x :: xs => xs.foldl max x

/-- Root candidates (lines 577-580): parents never seen as a child; if none
while parents exist, the largest parent id. -/
def rootsOf (adj : Adj) : List ℤ :=
  let parentIds := adj.pc.map Prod.fst
  let rs := parentIds.filter (fun p => !(adj.childrenSeen.contains p))
  if rs.isEmpty ∧ parentIds ≠ [] then [maxOfList parentIds] else rs

/-! ### The depth-first walk (lines 582-670) -/

/-- The node registry keyed by topic id. -/
abbrev NodeMap := List (ℤ × Node)

/-- Walk state: the node registry and the visited set. -/
structure WSt where
  nodes : NodeMap
  visited : List ℤ
deriving DecidableEq

/-- The memoized size of a node (`node.get('size')`, never `None` in the model
because every creation site stores an integer). -/
def sizeAt (st : WSt) (k : ℤ) : ℤ :=
  match alGet st.nodes k with
  | Option.none => 0
  | some nd => nd.size

/-- `parent_children.get(node_id, [])`. -/
def childrenOf (pc : List (ℤ × List ℤ)) (k : ℤ) : List ℤ := (alGet pc k).getD []

/-- The size-weighted term aggregation `aggregate_terms` score map
(lines 582-600). -/
def aggScoreMap (nodes : NodeMap) (childIds : List ℤ) : List (String × ℚ) :=
  childIds.foldl
    (fun m cid =>
      match alGet nodes cid with
      | Option.none => m
      | some child =>
          let w : ℚ := ((max child.size 1 : ℤ) : ℚ)
          child.terms.foldl
            (fun m t =>
              let key := pyStrip t.term
              if key = "" then m else alAddQ m key (t.score * w))
            m)
    []

/-- `aggregate_terms` (lines 582-605): sort the score map by descending score
(stable), keep the top `top_count`, re-rank from 1. -/
def aggregateTerms (nodes : NodeMap) (childIds : List ℤ) (topCount : ℕ) : List TermEntry :=
  let ordered := stableSort (fun a b => decide (b.2 ≤ a.2)) (aggScoreMap nodes childIds)
  (ordered.take topCount).enum.map fun p => ⟨p.2.1, p.2.2, p.1 + 1⟩

/-- Child stub synthesized during the walk (lines 630-639). -/
def stubChildNode (c : ℤ) (parent : ℤ) (level : ℕ) : Node :=
  { topicId := c, parentId := some parent, level := level, label := topicLabel c,
    size := 0, score := Option.none, terms := [], docs := [] }

/-- Lines 629-641: create a stub for an unknown child, otherwise reassign its
`parent_id` (this overwrites the parent of an already-visited child). -/
def ensureChild (st : WSt) (c : ℤ) (n : ℤ) (level : ℕ) : WSt :=
  match alGet st.nodes c with
  | Option.none => ⟨st.nodes ++ [(c, stubChildNode c n (level + 1))], st.visited⟩
  | some _ => ⟨alUpdate st.nodes c (fun nd => { nd with parentId := some n }), st.visited⟩

/-- Label resolution at the end of a parent's visit (lines 650-658). -/
def walkLabel (plabels : List (ℤ × String)) (n : ℤ) (nd : Node) : Node :=
  match alGet plabels n with
  | some lbl => { nd with label := lbl }
  | Option.none =>
      if nd.label = "" ∨ nd.label.data.take 6 = ['T', 'o', 'p', 'i', 'c', ' '] then
        let labelTerms := (nd.terms.take 4).filterMap fun t =>
          if t.term = "" then Option.none else some t.term
        if labelTerms.isEmpty then { nd with label := topicLabel n }
        else { nd with label := joinSpace labelTerms }
      else nd
where
  /-- `' '.join(...)`. -/
  joinSpace : List String → String
    | [] => ""
    | x :: xs => xs.foldl (fun a b => a ++ String.mk [' '] ++ b) x

/-- Whether `node.get('docs')` is falsy for the node `n`. -/
def docsEmptyAt (st : WSt) (n : ℤ) : Bool :=
  match alGet st.nodes n with
  | Option.none => true
  | some nd => nd.docs.isEmpty

/-- Whether `node.get('terms')` is falsy for the node `n`. -/
def termsEmptyAt (st : WSt) (n : ℤ) : Bool :=
  match alGet st.nodes n with
  | Option.none => true
  | some nd => nd.terms.isEmpty

/-- The child loop of `walk` (lines 627-643), abstracted over the recursive
call; returns the updated state and `total_size`. -/
def walkKids (wa : WSt → ℤ → WSt × ℤ) (n : ℤ) (level : ℕ) :
    WSt → List ℤ → WSt × ℤ
  | st, [] => (st, 0)
  | st, c :: rest =>
      match wa (ensureChild st c n level) c with
      | (st2, csize) =>
          match walkKids wa n level st2 rest with
          | (st3, trest) => (st3, max csize 0 + trest)

/-- Mark the node visited and store its level (lines 616-618). -/
def levelStep (n : ℤ) (level : ℕ) (st : WSt) : WSt :=
  ⟨alUpdate st.nodes n (fun nd => { nd with level := level }), n :: st.visited⟩

/-- Store the children's size sum when the node carries no docs
(lines 645-646). -/
def sizeStep (n : ℤ) (total : ℤ) (st : WSt) : WSt :=
  if docsEmptyAt st n then
    ⟨alUpdate st.nodes n (fun nd => { nd with size := total }), st.visited⟩
  else st

/-- Store the aggregated terms when the node has none (lines 647-648). -/
def termsStep (topCount : ℕ) (cs : List ℤ) (n : ℤ) (st : WSt) : WSt :=
  if termsEmptyAt st n then
    ⟨alUpdate st.nodes n (fun nd => { nd with terms := aggregateTerms st.nodes cs topCount }),
      st.visited⟩
  else st

/-- Resolve the node's label (lines 650-658). -/
def labelStep (plabels : List (ℤ × String)) (n : ℤ) (st : WSt) : WSt :=
  ⟨alUpdate st.nodes n (walkLabel plabels n), st.visited⟩

/-- The recursive `walk` (lines 607-660), fueled.  Each visit of an unvisited
node consumes one unit of fuel, so any fuel larger than the number of ids in
the registry and the adjacency makes the fuel guard unreachable. -/
def walkAux (pc : List (ℤ × List ℤ)) (plabels : List (ℤ × String)) (topCount : ℕ) :
    ℕ → WSt → ℤ → ℕ → WSt × ℤ
  | 0, st, _, _ => (st, 0)
  | fuel + 1, st, n, level =>
      if st.visited.contains n then (st, sizeAt st n)
      else
        match childrenOf pc n with
        | [] => (levelStep n level st, sizeAt (levelStep n level st) n)
        | cs =>
            match walkKids (fun s c => walkAux pc plabels topCount fuel s c (level + 1)) n level
                (levelStep n level st) cs with
            | (st2, total) =>
                match labelStep plabels n (termsStep topCount cs n (sizeStep n total st2)) with
                | st5 => (st5, sizeAt st5 n)

/-- The root-driven walk phase (lines 662-666). -/
def runRoots (pc : List (ℤ × List ℤ)) (plabels : List (ℤ × String)) (topCount fuel : ℕ)
    (roots : List ℤ) (st : WSt) : WSt :=
  roots.foldl
    (fun st r =>
      if (alGet st.nodes r).isSome then
        let st' : WSt := ⟨alUpdate st.nodes r (fun nd => { nd with parentId := Option.none }), st.visited⟩
        (walkAux pc plabels topCount fuel st' r 0).1
      else st)
    st

/-- The fallback walk phase over a snapshot of the registry keys
(lines 667-670). -/
def runFallback (pc : List (ℤ × List ℤ)) (plabels : List (ℤ × String)) (topCount fuel : ℕ)
    (st : WSt) : WSt :=
  (st.nodes.map Prod.fst).foldl
    (fun st k => if st.visited.contains k then st else (walkAux pc plabels topCount fuel st k 0).1)
    st

/-! ### Assembly (lines 672-709) -/

/-- All ids mentioned by the adjacency (parents and children). -/
def pcAllIds (pc : List (ℤ × List ℤ)) : List ℤ :=
  pc.foldr (fun pr acc => pr.1 :: pr.2 ++ acc) []

/-- The output ordering key `(level, topic_id)` (line 696). -/
def nodeSortLe (a b : Node) : Bool :=
  decide (a.level < b.level) || (decide (a.level = b.level) && decide (a.topicId ≤ b.topicId))

/-- The diagnostics record (lines 698-707). -/
def statsOf (ordered : List Node) (adj : Adj) (roots : List ℤ) : Stats :=
  let parentIds := adj.pc.map Prod.fst
  { parentsExpected := parentIds.length,
    parentsEmitted := (ordered.filter fun nd => parentIds.contains nd.topicId).length,
    roots := roots.length,
    leafCount := (ordered.filter fun nd => !nd.docs.isEmpty).length,
    maxLevel := if ordered.isEmpty then 0 else (ordered.map Node.level).foldl max 0,
    hasLinks := ordered.any fun nd => nd.parentId.isSome }

/-- Everything `build_topic_tree` computes, with the intermediate stages
exposed for the statements below.  The final normalization loop
(lines 672-694) is the identity on the modelled state (every field it coerces
is already of the coerced type) and is elided. -/
structure BuildOut where
  topics : List Node
  stats : Stats
  topCount : ℕ
  members : List (ℤ × List DocEntry)
  sacc : SummaryAcc
  leafNodes : NodeMap
  adj : Adj
  roots : List ℤ
  finalSt : WSt
deriving DecidableEq

/-- The walk fuel chosen by the model: strictly more than the number of ids
that can ever enter the registry, so the fuel guard is unreachable. -/
def fuelOf (nodes : NodeMap) (pc : List (ℤ × List ℤ)) : ℕ :=
  nodes.length + (pcAllIds pc).length + 1

/-- The body of `build_topic_tree` (lines 390-709). -/
def buildCore (inp : BuildInput) : Except PyExn BuildOut := do
  let topCount := topCountOf inp.topTerms
  let maxD := maxDistanceOf inp.hierarchyConf
  let members ← docMembersOf inp.topics inp.probabilities inp.docIds
  let sacc ← summaryOf inp.topicInfo members
  let leafNs := leafNodesOf inp.getTopic members sacc topCount
  let adj ← adjacencyOf inp.hierarchyDf maxD
  let nodes1 := ensureParents leafNs adj
  let roots := rootsOf adj
  let fuel := fuelOf nodes1 adj.pc
  let st0 : WSt := ⟨nodes1, []⟩
  let stF :=
    if roots.isEmpty then runFallback adj.pc adj.plabels topCount fuel st0
    else runRoots adj.pc adj.plabels topCount fuel roots st0
  let ordered := stableSort nodeSortLe (stF.nodes.map Prod.snd)
  Except.ok ⟨ordered, statsOf ordered adj roots, topCount, members, sacc, leafNs, adj, roots, stF⟩

/-- `build_topic_tree`: the ordered node list and the diagnostics record. -/
def build_topic_tree (inp : BuildInput) : Except PyExn (List Node × Stats) :=
  (buildCore inp).map fun o => (o.topics, o.stats)

/-! ### Derived notions used by the statements -/

/-- Modelled from the spec (amended): the identifier-normalization rules in
order — null is unrepresentable; an integral numeric maps to itself; a float
is unrepresentable when NaN, raises `OverflowError` when infinite, and is
otherwise truncated toward zero; any other value is treated as text, trying a
trailing optionally-signed digit run on the trimmed string, then the first
embedded digit run, then a direct integer parse, with failure giving the
unrepresentable sentinel. -/
def specNormalizeId : PyVal → Except PyExn (Option ℤ)
  | PyVal.none => Except.ok Option.none
  | PyVal.int n => Except.ok (some n)
  | PyVal.float f =>
      match f with
      | PyFloat.nan => Except.ok Option.none
      | PyFloat.inf => Except.error PyExn.overflowError
      | PyFloat.neginf => Except.error PyExn.overflowError
      | PyFloat.finite q => Except.ok (some (truncQ q))
  | PyVal.str s =>
      Except.ok
        (match trailingIntOf (pyStrip s), firstIntIn s.data, pyIntOfStr s with
        | some n, _, _ => some n
        | Option.none, some n, _ => some n
        | Option.none, Option.none, r => r)

/-- Whether a merge row is pruned by the distance cutoff: all three ids
resolve and the parsed distance exceeds the configured maximum. -/
def rowPruned (maxD : Option PyFloat) (row : MergeRow) : Bool :=
  match toInt row.parentId, toInt row.childLeftId, toInt row.childRightId with
  | Except.ok (some _), Except.ok (some _), Except.ok (some _) => rowSkip maxD row
  | _, _, _ => false

/-- The summary-reported counts for a topic id, in row order: the parsed
`Count` of every summary row whose `Topic` resolves to that id. -/
def reportedCounts (rows : List SummaryRow) (tid : ℤ) : List ℤ :=
  rows.filterMap fun row =>
    match toInt row.topic, toInt row.count with
    | Except.ok (some t), Except.ok (some c) =>
        if t = tid then some c else Option.none
    | _, _ => Option.none

/-- The keys of a node registry. -/
def keysOf (m : NodeMap) : List ℤ := m.map Prod.fst

/-- The docs of a node in a registry, `[]` when absent. -/
def docsAtN (m : NodeMap) (k : ℤ) : List DocEntry :=
  ((alGet m k).map Node.docs).getD []

/-- The size/docs/terms core of a node, the fields the walk-frame lemmas
track. -/
def coreOf (nd : Node) : ℤ × List DocEntry × List TermEntry := (nd.size, nd.docs, nd.terms)

/-- Sum of the memoized sizes of a list of ids. -/
def sumSizes (st : WSt) (cs : List ℤ) : ℤ := (cs.map (sizeAt st)).sum

/-- The parent-to-child edge relation of the merge adjacency. -/
def edgeIn (pc : List (ℤ × List ℤ)) (a b : ℤ) : Prop := b ∈ childrenOf pc a

/-- Reachability along the merge adjacency. -/
def Reach (pc : List (ℤ × List ℤ)) : ℤ → ℤ → Prop := Relation.ReflTransGen (edgeIn pc)

/-- Acyclicity of the merge adjacency: no edge closes a cycle. -/
def Acyclic (pc : List (ℤ × List ℤ)) : Prop :=
  ∀ a b, edgeIn pc a b → Reach pc b a → False

/-- The number of ids of `uU` not yet visited: the walk's fuel measure. -/
def unvisitedCount (uU : List ℤ) (st : WSt) : ℕ :=
  (uU.filter fun x => !st.visited.contains x).length

/-- A node is done: its adjacency children are visited and, when it has any,
its size is their size sum. -/
def DoneAt (pc : List (ℤ × List ℤ)) (st : WSt) (v : ℤ) : Prop :=
  (∀ c ∈ childrenOf pc v, c ∈ st.visited) ∧
  (childrenOf pc v ≠ [] → sizeAt st v = sumSizes st (childrenOf pc v))

/-- Well-formed term lists: bounded by `top_count` and with strictly
increasing ranks. -/
def TermsWF (tc : ℕ) (ts : List TermEntry) : Prop :=
  ts.length ≤ tc ∧ ts.Pairwise fun a b => a.rank < b.rank

instance (tc : ℕ) (ts : List TermEntry) : Decidable (TermsWF tc ts) :=
  inferInstanceAs
    (Decidable (ts.length ≤ tc ∧ ts.Pairwise fun a b : TermEntry => a.rank < b.rank))

/-- The walk invariant over states. -/
structure WInv (pc : List (ℤ × List ℤ)) (tc : ℕ) (st : WSt) : Prop where
  visSub : ∀ v ∈ st.visited, v ∈ keysOf st.nodes
  nodup : (keysOf st.nodes).Nodup
  keyed : ∀ kv ∈ st.nodes, Node.topicId kv.2 = kv.1
  sizes : ∀ kv ∈ st.nodes, 0 ≤ Node.size kv.2
  docsCleared : ∀ kv ∈ st.nodes, childrenOf pc kv.1 ≠ [] → Node.docs kv.2 = []
  termsWF : ∀ kv ∈ st.nodes, TermsWF tc (Node.terms kv.2)

/-- The walk's basic postcondition between entry and exit states, for a call
rooted at `n`. -/
def BPost (pc : List (ℤ × List ℤ)) (n : ℤ) (st st' : WSt) : Prop :=
  (∀ v ∈ st.visited, v ∈ st'.visited) ∧
  (∀ k ∈ keysOf st.nodes, k ∈ keysOf st'.nodes) ∧
  (∀ k ∈ keysOf st'.nodes, k ∈ keysOf st.nodes ∨ ∃ q ∈ pc, k ∈ q.2) ∧
  (∀ v ∈ st.visited, (alGet st'.nodes v).map coreOf = (alGet st.nodes v).map coreOf) ∧
  (∀ k, docsAtN st'.nodes k = docsAtN st.nodes k) ∧
  (∀ k, childrenOf pc k = [] → sizeAt st' k = sizeAt st k) ∧
  (∀ v ∈ st'.visited, v ∉ st.visited → Reach pc n v)

/-! ### Concrete inputs for the claims -/

/-- The rational 1/2 (the scenario distance 0.5). -/
def halfQ : ℚ := Rat.mk' 1 2 (by norm_num) (by norm_num)

/-- The rational 3/10 (the scenario cutoff 0.3). -/
def threeTenthsQ : ℚ := Rat.mk' 3 10 (by norm_num) (by norm_num)

/-- C2 scenario input: ids `[1,2,3,4]`, assignments `[-1,0,0,1]`, nothing
else. -/
def c2ExIn : BuildInput :=
  { getTopic := fun _ => [], topicInfo := Option.none, hierarchyDf := Option.none,
    topics := some [PyVal.int (-1), PyVal.int 0, PyVal.int 0, PyVal.int 1],
    probabilities := Option.none, docIds := [1, 2, 3, 4],
    topTerms := PyVal.int 10, hierarchyConf := Option.none }

/-- C5 scenario merge row `{parent:2, left:0, right:1, distance:0.5}`. -/
def c5ExRow : MergeRow :=
  ⟨PyVal.int 2, PyVal.int 0, PyVal.int 1, PyVal.float (PyFloat.finite halfQ), PyVal.none⟩

/-- C5 scenario input: the merge row above with `max_distance = 0.3` and two
assigned leaves. -/
def c5ExIn : BuildInput :=
  { getTopic := fun _ => [], topicInfo := Option.none, hierarchyDf := some [c5ExRow],
    topics := some [PyVal.int 0, PyVal.int 1], probabilities := Option.none,
    docIds := [10, 11], topTerms := PyVal.int 10,
    hierarchyConf := some ⟨PyVal.float (PyFloat.finite threeTenthsQ)⟩ }

/-- C1 counterexample input: topic 0 has one member but a reported count of 5,
and topic 7 has a reported count of 3 with no members and no children. -/
def c1ExIn : BuildInput :=
  { getTopic := fun _ => [],
    topicInfo := some [⟨PyVal.int 0, PyVal.int 5, PyVal.none, PyVal.none⟩,
      ⟨PyVal.int 7, PyVal.int 3, PyVal.none, PyVal.none⟩],
    hierarchyDf := Option.none,
    topics := some [PyVal.int 0], probabilities := Option.none, docIds := [9],
    topTerms := PyVal.int 10, hierarchyConf := Option.none }

/-- C1 witness input: one assigned document, no merge table. -/
def c1WitIn : BuildInput :=
  { getTopic := fun _ => [], topicInfo := Option.none, hierarchyDf := Option.none,
    topics := some [PyVal.int 0], probabilities := Option.none, docIds := [7],
    topTerms := PyVal.int 10, hierarchyConf := Option.none }

/-- The node built by `c1WitIn`. -/
def c1WitNode : Node :=
  { topicId := 0, parentId := Option.none, level := 0, label := topicLabel 0, size := 1,
    score := Option.none,
    terms := [⟨String.mk ['T', 'o', 'p', 'i', 'c'], 0, 1⟩, ⟨String.mk ['0'], 0, 2⟩],
    docs := [⟨7, Option.none⟩] }

/-- The build output of `c1WitIn`. -/
def c1WitOut : BuildOut :=
  { topics := [c1WitNode],
    stats := ⟨0, 0, 0, 1, 0, false⟩,
    topCount := 10,
    members := [(0, [⟨7, Option.none⟩])],
    sacc := ⟨[], [], []⟩,
    leafNodes := [(0, c1WitNode)],
    adj := ⟨[], [], []⟩,
    roots := [],
    finalSt := ⟨[(0, c1WitNode)], [0]⟩ }

/-- C4 counterexample input: `get_topic(0)` holds a malformed entry before a
valid pair, so the kept term's rank is 2. -/
def c4ExIn : BuildInput :=
  { getTopic := fun t => if t = 0 then [TermPair.malformed, TermPair.pair (String.mk ['a']) (some 1)] else [],
    topicInfo := Option.none, hierarchyDf := Option.none,
    topics := some [PyVal.int 0], probabilities := Option.none, docIds := [9],
    topTerms := PyVal.int 10, hierarchyConf := Option.none }

/-- C6 witness input: one summary row `{Topic: 0, Count: 7}` next to two
assigned documents for topic 0. -/
def c6WitIn : BuildInput :=
  { getTopic := fun _ => [],
    topicInfo := some [⟨PyVal.int 0, PyVal.int 7, PyVal.none, PyVal.none⟩],
    hierarchyDf := Option.none,
    topics := some [PyVal.int 0, PyVal.int 0], probabilities := Option.none, docIds := [4, 5],
    topTerms := PyVal.int 10, hierarchyConf := Option.none }

/-- C8 counterexample input: child 0 appears under parent 2 (first) and under
parent 3 (second). -/
def c8ExIn : BuildInput :=
  { getTopic := fun _ => [], topicInfo := Option.none,
    hierarchyDf := some [⟨PyVal.int 2, PyVal.int 0, PyVal.int 1, PyVal.none, PyVal.none⟩,
      ⟨PyVal.int 3, PyVal.int 0, PyVal.int 4, PyVal.none, PyVal.none⟩],
    topics := Option.none, probabilities := Option.none, docIds := [],
    topTerms := PyVal.int 10, hierarchyConf := Option.none }

/-- C9 counterexample input: a merge row naming the outlier `-1` as a child. -/
def c9ExIn : BuildInput :=
  { getTopic := fun _ => [], topicInfo := Option.none,
    hierarchyDf := some [⟨PyVal.int 5, PyVal.int (-1), PyVal.int 3, PyVal.none, PyVal.none⟩],
    topics := Option.none, probabilities := Option.none, docIds := [],
    topTerms := PyVal.int 10, hierarchyConf := Option.none }

/-- C9 witness input: a merge row over ordinary ids only. -/
def c9WitIn : BuildInput :=
  { getTopic := fun _ => [], topicInfo := Option.none,
    hierarchyDf := some [⟨PyVal.int 5, PyVal.int 2, PyVal.int 3, PyVal.none, PyVal.none⟩],
    topics := Option.none, probabilities := Option.none, docIds := [],
    topTerms := PyVal.int 10, hierarchyConf := Option.none }

/-- C10 witness row: distance is an unparsable string. -/
def c10WitRow : MergeRow :=
  ⟨PyVal.int 2, PyVal.int 0, PyVal.int 1, PyVal.str (String.mk ['x']), PyVal.none⟩

/-! ## Lemmas on the dict model -/

theorem alGet_append {κ α : Type} [DecidableEq κ] (m₁ m₂ : List (κ × α)) (k : κ) :
    alGet (m₁ ++ m₂) k =
      match alGet m₁ k with
      | some v => some v
      | Option.none => alGet m₂ k := by
  induction m₁ with
  | nil => simp [alGet]
  | cons kv rest ih =>
      cases kv with
      | mk a b =>
          by_cases h : a = k <;> simp [alGet, h, ih]

theorem alGet_eq_none_iff {κ α : Type} [DecidableEq κ] (m : List (κ × α)) (k : κ) :
    alGet m k = Option.none ↔ k ∉ m.map Prod.fst := by
  induction m with
  | nil => simp [alGet]
  | cons kv rest ih =>
      cases kv with
      | mk a b =>
          have h2 : (k ∈ ((a, b) :: rest).map Prod.fst) ↔ (k = a ∨ k ∈ rest.map Prod.fst) := by
            simp
          by_cases h : a = k
          · subst h
            have h1 : alGet ((a, b) :: rest) a = some b := by simp [alGet]
            rw [h1]
            simp [h2]
          · have h1 : alGet ((a, b) :: rest) k = alGet rest k := by simp [alGet, h]
            rw [h1, ih]
            constructor
            · intro hk hm
              rcases h2.mp hm with he | hm2
              · exact h he.symm
              · exact hk hm2
            · intro hk
              exact fun hm2 => hk (h2.mpr (Or.inr hm2))

theorem alGet_mem_keys {κ α : Type} [DecidableEq κ] {m : List (κ × α)} {k : κ} {v : α}
    (h : alGet m k = some v) : k ∈ m.map Prod.fst := by
  by_contra hk
  rw [← alGet_eq_none_iff m k] at hk
  simp [hk] at h

theorem alGet_alSet_self {κ α : Type} [DecidableEq κ] (m : List (κ × α)) (k : κ) (v : α) :
    alGet (alSet m k v) k = some v := by
  induction m with
  | nil => simp [alSet, alGet]
  | cons kv rest ih =>
      cases kv with
      | mk a b =>
          by_cases h : a = k <;> simp [alSet, alGet, h, ih]

theorem alGet_alSet_ne {κ α : Type} [DecidableEq κ] (m : List (κ × α)) (k k' : κ) (v : α)
    (h : k' ≠ k) : alGet (alSet m k v) k' = alGet m k' := by
  have hkk : k ≠ k' := Ne.symm h
  induction m with
  | nil => simp [alSet, alGet, hkk]
  | cons kv rest ih =>
      cases kv with
      | mk a b =>
          by_cases ha : a = k
          · subst ha
            simp [alSet, alGet, hkk]
          · by_cases ha' : a = k'
            · subst ha'
              simp [alSet, alGet, ha]
            · simp [alSet, alGet, ha, ha', ih]

theorem keys_alUpdate {κ α : Type} [DecidableEq κ] (m : List (κ × α)) (k : κ) (f : α → α) :
    (alUpdate m k f).map Prod.fst = m.map Prod.fst := by
  induction m with
  | nil => rfl
  | cons kv rest ih =>
      simp only [alUpdate, List.map_cons] at ih ⊢
      by_cases h : kv.1 = k <;> simp [h, ih]

theorem alUpdate_cons {κ α : Type} [DecidableEq κ] (a : κ) (b : α) (rest : List (κ × α))
    (k : κ) (f : α → α) :
    alUpdate ((a, b) :: rest) k f =
      (if a = k then (a, f b) else (a, b)) :: alUpdate rest k f := rfl

theorem alGet_alUpdate_self {κ α : Type} [DecidableEq κ] (m : List (κ × α)) (k : κ) (f : α → α) :
    alGet (alUpdate m k f) k = (alGet m k).map f := by
  induction m with
  | nil => simp [alUpdate, alGet]
  | cons kv rest ih =>
      obtain ⟨a, b⟩ := kv
      rw [alUpdate_cons]
      by_cases h : a = k
      · subst h
        rw [if_pos rfl]
        simp [alGet]
      · rw [if_neg h]
        simp [alGet, h, ih]

theorem alGet_alUpdate_ne {κ α : Type} [DecidableEq κ] (m : List (κ × α)) (k k' : κ) (f : α → α)
    (h : k' ≠ k) : alGet (alUpdate m k f) k' = alGet m k' := by
  have hkk : ¬(k = k') := fun he => h he.symm
  induction m with
  | nil => simp [alUpdate, alGet]
  | cons kv rest ih =>
      obtain ⟨a, b⟩ := kv
      rw [alUpdate_cons]
      by_cases ha : a = k
      · subst ha
        rw [if_pos rfl]
        simp [alGet, hkk, ih]
      · rw [if_neg ha]
        by_cases ha' : a = k' <;> simp [alGet, ha', ih]

theorem keys_alSet_of_mem {κ α : Type} [DecidableEq κ] {m : List (κ × α)} {k : κ} (v : α)
    (h : k ∈ m.map Prod.fst) : (alSet m k v).map Prod.fst = m.map Prod.fst := by
  induction m with
  | nil => simp at h
  | cons kv rest ih =>
      obtain ⟨a, b⟩ := kv
      by_cases ha : a = k
      · simp [alSet, ha]
      · have h' := h
        simp only [List.map_cons, List.mem_cons] at h'
        rcases h' with h1 | h1
        · exact absurd h1.symm ha
        · simp [alSet, ha, ih h1]

theorem mem_addChild_self (cs : List ℤ) (c : ℤ) : c ∈ addChild cs c := by
  by_cases h : c ∈ cs <;> simp [addChild, h]

theorem mem_addChild_of_mem {cs : List ℤ} {x : ℤ} (c : ℤ) (h : x ∈ cs) : x ∈ addChild cs c := by
  by_cases hc : c ∈ cs <;> simp [addChild, hc, h]

/-! ## Lemmas on the stable sort -/

theorem mem_insOrdered {α : Type} (le : α → α → Bool) (a x : α) (l : List α) :
    x ∈ insOrdered le a l ↔ x = a ∨ x ∈ l := by
  induction l with
  | nil => simp [insOrdered]
  | cons b bs ih =>
      by_cases h : le b a <;> simp [insOrdered, h, ih] <;> tauto

theorem insOrdered_perm {α : Type} (le : α → α → Bool) (a : α) (l : List α) :
    (insOrdered le a l).Perm (a :: l) := by
  induction l with
  | nil => simp [insOrdered]
  | cons b bs ih =>
      by_cases h : le b a
      · simpa [insOrdered, h] using (ih.cons b).trans (List.Perm.swap a b bs)
      · simp [insOrdered, h]

theorem stableSort_perm {α : Type} (le : α → α → Bool) (l : List α) :
    (stableSort le l).Perm l := by
  suffices h : ∀ (l acc : List α), ((l.foldl (fun acc a => insOrdered le a acc) acc).Perm (acc ++ l)) by
    simpa [stableSort] using h l []
  intro l
  induction l with
  | nil => intro acc; simp
  | cons a rest ih =>
      intro acc
      have h1 : ((a :: rest).foldl (fun acc a => insOrdered le a acc) acc) =
          rest.foldl (fun acc a => insOrdered le a acc) (insOrdered le a acc) := rfl
      rw [h1]
      refine (ih (insOrdered le a acc)).trans ?_
      have h3 : ((insOrdered le a acc) ++ rest).Perm ((a :: acc) ++ rest) :=
        (insOrdered_perm le a acc).append_right rest
      refine h3.trans ?_
      exact List.perm_middle.symm

theorem mem_stableSort {α : Type} (le : α → α → Bool) (l : List α) (x : α) :
    x ∈ stableSort le l ↔ x ∈ l :=
  (stableSort_perm le l).mem_iff

theorem insOrdered_pairwise {α : Type} (le : α → α → Bool)
    (htot : ∀ a b, le a b = true ∨ le b a = true)
    (htrans : ∀ a b c, le a b = true → le b c = true → le a c = true)
    (a : α) (l : List α) (h : l.Pairwise fun x y => le x y = true) :
    (insOrdered le a l).Pairwise fun x y => le x y = true := by
  induction l with
  | nil => simp [insOrdered]
  | cons b bs ih =>
      rcases List.pairwise_cons.mp h with ⟨hb, hbs⟩
      by_cases hba : le b a
      · rw [show insOrdered le a (b :: bs) = b :: insOrdered le a bs from by
          simp [insOrdered, hba]]
        refine List.pairwise_cons.mpr ⟨?_, ih hbs⟩
        intro x hx
        rcases (mem_insOrdered le a x bs).mp hx with rfl | hx
        · exact hba
        · exact hb x hx
      · have hab : le a b = true := (htot a b).resolve_right (by simpa using hba)
        rw [show insOrdered le a (b :: bs) = a :: b :: bs from by simp [insOrdered, hba]]
        refine List.pairwise_cons.mpr ⟨?_, h⟩
        intro x hx
        rcases List.mem_cons.mp hx with rfl | hx2
        · exact hab
        · exact htrans a b x hab (hb x hx2)

/-! ## C2: the flat no-merge-table scenario -/

set_option maxRecDepth 100000 in
/-- C2: on document ids `[1,2,3,4]` with assignments `[-1,0,0,1]`, no
probabilities, no summary rows and no merge table, `build_topic_tree` returns
exactly the two leaf nodes — topic 0 with docs `[2,3]` and size 2, topic 1
with docs `[4]` and size 1 (both carrying docs, so both are leaves) — and the
diagnostics read `roots = 0`, `has_links = false`, `leaf_count = 2`. -/
theorem c2_flat_case :
    ((build_topic_tree c2ExIn).map fun r =>
      (r.1.map fun nd => (nd.topicId, nd.size, nd.docs.map DocEntry.id),
        r.1.countP fun nd => !nd.docs.isEmpty,
        r.2.roots, r.2.hasLinks, r.2.leafCount)) =
    Except.ok ([(0, 2, [2, 3]), (1, 1, [4])], 2, 0, false, 2) := by decide

/-! ## C3: the identifier normalizer -/

/-- C3 counterexample: `_to_int(float('inf'))` reaches `int(val)` in the float
branch, which raises an `OverflowError` that no handler in `_to_int` catches —
so an exception does escape the operation, contradicting the claim. -/
theorem c3_counterexample :
    toInt (PyVal.float PyFloat.inf) = Except.error PyExn.overflowError := rfl

/-- C3 (amended): the normalizer follows the claimed rules in order — null is
unrepresentable, integral numerics map to themselves, NaN floats are
unrepresentable, finite floats truncate toward zero, and text tries a trailing
signed digit run of the trimmed string, then the first embedded digit run,
then a direct integer parse, failing to the unrepresentable sentinel — and the
only exception that escapes is the `OverflowError` on the two infinite
floats. -/
theorem c3_normalizer_amended :
    (∀ v, toInt v = specNormalizeId v) ∧
    (∀ v, (∃ e, toInt v = Except.error e) ↔
      v = PyVal.float PyFloat.inf ∨ v = PyVal.float PyFloat.neginf) := by
  constructor
  · intro v
    cases v with
    | none => rfl
    | int n => rfl
    | float f => cases f <;> rfl
    | str s =>
        simp only [toInt, specNormalizeId]
        cases trailingIntOf (pyStrip s) <;> cases firstIntIn s.data <;> rfl
  · intro v
    constructor
    · rintro ⟨e, he⟩
      cases v with
      | none => exact absurd he (by simp [toInt])
      | int n => exact absurd he (by simp [toInt])
      | float f =>
          cases f with
          | nan => exact absurd he (by simp [toInt])
          | inf => exact Or.inl rfl
          | neginf => exact Or.inr rfl
          | finite q => exact absurd he (by simp [toInt])
      | str s =>
          exfalso
          revert he
          simp only [toInt]
          cases trailingIntOf (pyStrip s) <;> cases firstIntIn s.data <;> simp
    · rintro (rfl | rfl) <;> exact ⟨PyExn.overflowError, rfl⟩

/-! ## Counterexamples for C1, C4, C8, C9 -/

set_option maxRecDepth 100000 in
/-- C1 counterexample: with a summary count of 5 against one observed member
for topic 0 (size 5, docs length 1), and a childless summary-only topic 7 of
size 3 (empty children sum), the claimed size law fails on both branches. -/
theorem c1_counterexample :
    ((buildCore c1ExIn).map fun o => decide (∀ nd ∈ o.topics,
      (nd.docs ≠ [] → nd.size = nd.docs.length) ∧
      (nd.docs = [] → nd.size = sumSizes o.finalSt (childrenOf o.adj.pc nd.topicId)))) =
    Except.ok false := by decide

set_option maxRecDepth 100000 in
/-- C4 counterexample: when `get_topic(0)` returns a malformed entry followed
by a valid pair, the kept term carries rank 2 as the only element, so the
ranks are not `1..len(terms)`. -/
theorem c4_counterexample :
    ((buildCore c4ExIn).map fun o => decide (∀ nd ∈ o.topics,
      nd.terms.map TermEntry.rank = List.range' 1 nd.terms.length)) = Except.ok false := by
  decide

set_option maxRecDepth 100000 in
/-- C8 counterexample: child 0 is first seen under parent 2 (the adjacency
lists it there first), yet the emitted `parent_id` of node 0 is 3 — the walk
overwrites the parent of an already-visited child, so first-seen does not
win. -/
theorem c8_counterexample :
    ((buildCore c8ExIn).map fun o =>
      (o.adj.pc,
        o.topics.filterMap fun nd => if nd.topicId = 0 then some nd.parentId else Option.none)) =
      Except.ok ([(2, [0, 1]), (3, [0, 4])], [some 3]) ∧
    ((buildCore c8ExIn).map fun o => decide (∀ nd ∈ o.topics,
      nd.topicId = 0 → nd.parentId = some 2)) = Except.ok false := by
  constructor <;> decide

set_option maxRecDepth 100000 in
/-- C9 counterexample: a merge row naming the outlier `-1` as a child makes
the walk materialize a stub node with `topic_id = -1` in the output. -/
theorem c9_counterexample :
    ((buildCore c9ExIn).map fun o => decide (∀ nd ∈ o.topics, nd.topicId ≠ -1)) =
      Except.ok false := by decide

theorem stableSort_pairwise {α : Type} (le : α → α → Bool)
    (htot : ∀ a b, le a b = true ∨ le b a = true)
    (htrans : ∀ a b c, le a b = true → le b c = true → le a c = true)
    (l : List α) : (stableSort le l).Pairwise fun x y => le x y = true := by
  suffices h : ∀ (l acc : List α), (acc.Pairwise fun x y => le x y = true) →
      ((l.foldl (fun acc a => insOrdered le a acc) acc).Pairwise fun x y => le x y = true) by
    exact h l [] (by simp)
  intro l
  induction l with
  | nil => intro acc h; simpa using h
  | cons a rest ih =>
      intro acc hacc
      exact ih (insOrdered le a acc) (insOrdered_pairwise le htot htrans a acc hacc)

/-! ## Lemmas on the merge-graph loop -/

theorem exceptBind_err {ε α β : Type} (e : ε) (f : α → Except ε β) :
    (Except.error e : Except ε α) >>= f = Except.error e := rfl

theorem exceptBind_ok {ε α β : Type} (a : α) (f : α → Except ε β) :
    (Except.ok a : Except ε α) >>= f = f a := rfl

theorem hierLoop_nil (maxD : Option PyFloat) (adj : Adj) :
    hierLoop maxD [] adj = Except.ok adj := rfl

theorem hierLoop_mono (maxD : Option PyFloat) :
    ∀ (rows : List MergeRow) (adj adjF : Adj),
      hierLoop maxD rows adj = Except.ok adjF →
      ∀ p c, c ∈ childrenOf adj.pc p → c ∈ childrenOf adjF.pc p := by
  intro rows
  induction rows with
  | nil =>
      intro adj adjF h p c hc
      rw [hierLoop_nil] at h
      cases h
      exact hc
  | cons row rest ih =>
      intro adj adjF h p c hc
      cases h1 : toInt row.parentId with
      | error e =>
          rw [hierLoop, h1, exceptBind_err] at h
          cases h
      | ok po =>
          cases h2 : toInt row.childLeftId with
          | error e =>
              rw [hierLoop, h1, exceptBind_ok, h2, exceptBind_err] at h
              cases h
          | ok lo =>
              cases h3 : toInt row.childRightId with
              | error e =>
                  rw [hierLoop, h1, exceptBind_ok, h2, exceptBind_ok, h3, exceptBind_err] at h
                  cases h
              | ok ro =>
                  rw [hierLoop, h1, exceptBind_ok, h2, exceptBind_ok, h3, exceptBind_ok] at h
                  cases po with
                  | none => exact ih adj adjF h p c hc
                  | some p' =>
                  cases lo with
                  | none => exact ih adj adjF h p c hc
                  | some l' =>
                  cases ro with
                  | none => exact ih adj adjF h p c hc
                  | some r' =>
                  dsimp only at h
                  by_cases hskip : rowSkip maxD row = true
                  · rw [if_pos hskip] at h
                    exact ih adj adjF h p c hc
                  · rw [if_neg hskip] at h
                    refine ih _ adjF h p c ?_
                    show c ∈ childrenOf (mergeStepAdj row p' l' r' adj).pc p
                    unfold mergeStepAdj
                    cases halg : alGet adj.pc p' with
                    | none =>
                        have hcp : alGet adj.pc p = some (childrenOf adj.pc p) := by
                          unfold childrenOf at hc ⊢
                          cases hg : alGet adj.pc p with
                          | none => simp [hg] at hc
                          | some cs => simp [hg]
                        unfold childrenOf
                        simp only [halg]
                        rw [alGet_append, hcp]
                        simpa [childrenOf] using hc
                    | some cs =>
                        by_cases hpp : p = p'
                        · subst hpp
                          unfold childrenOf at hc ⊢
                          rw [halg] at hc
                          simp only [halg]
                          rw [alGet_alSet_self]
                          simp only [Option.getD_some] at hc ⊢
                          exact mem_addChild_of_mem _ (mem_addChild_of_mem _ hc)
                        · unfold childrenOf
                          simp only [halg]
                          rw [alGet_alSet_ne _ _ _ _ hpp]
                          exact hc

theorem hierLoop_cons_ok (maxD : Option PyFloat) (row : MergeRow) (rest : List MergeRow)
    (adj adjF : Adj) (h : hierLoop maxD (row :: rest) adj = Except.ok adjF) :
    ∃ adj₁, hierLoop maxD rest adj₁ = Except.ok adjF := by
  cases h1 : toInt row.parentId with
  | error e =>
      rw [hierLoop, h1, exceptBind_err] at h
      cases h
  | ok po =>
      cases h2 : toInt row.childLeftId with
      | error e =>
          rw [hierLoop, h1, exceptBind_ok, h2, exceptBind_err] at h
          cases h
      | ok lo =>
          cases h3 : toInt row.childRightId with
          | error e =>
              rw [hierLoop, h1, exceptBind_ok, h2, exceptBind_ok, h3, exceptBind_err] at h
              cases h
          | ok ro =>
              rw [hierLoop, h1, exceptBind_ok, h2, exceptBind_ok, h3, exceptBind_ok] at h
              cases po with
              | none => exact ⟨adj, h⟩
              | some p' =>
              cases lo with
              | none => exact ⟨adj, h⟩
              | some l' =>
              cases ro with
              | none => exact ⟨adj, h⟩
              | some r' =>
              dsimp only at h
              by_cases hskip : rowSkip maxD row = true
              · rw [if_pos hskip] at h
                exact ⟨adj, h⟩
              · rw [if_neg hskip] at h
                exact ⟨_, h⟩

theorem mem_children_mergeStep (row : MergeRow) (p l r : ℤ) (adj : Adj) :
    l ∈ childrenOf (mergeStepAdj row p l r adj).pc p ∧
    r ∈ childrenOf (mergeStepAdj row p l r adj).pc p := by
  unfold mergeStepAdj childrenOf
  cases halg : alGet adj.pc p with
  | none =>
      simp only [halg]
      rw [alGet_append, halg]
      simp [alGet]
  | some cs =>
      simp only [halg]
      rw [alGet_alSet_self]
      constructor
      · simpa using mem_addChild_of_mem _ (mem_addChild_self cs l)
      · simpa using mem_addChild_self (addChild cs l) r

/-! ## C10: malformed distances never prune a row -/

/-- C10: a merge row whose distance is absent, empty, or unparsable is never
excluded by the cutoff — if its three ids resolve, its children enter the
final adjacency under its parent, whatever `max_distance` is configured. -/
theorem c10_malformed_distance_kept :
    ∀ (rows : List MergeRow) (maxD : Option PyFloat) (adj0 adjF : Adj) (row : MergeRow)
      (p l r : ℤ),
      row ∈ rows →
      toInt row.parentId = Except.ok (some p) →
      toInt row.childLeftId = Except.ok (some l) →
      toInt row.childRightId = Except.ok (some r) →
      rowDistance row = Option.none →
      hierLoop maxD rows adj0 = Except.ok adjF →
      l ∈ childrenOf adjF.pc p ∧ r ∈ childrenOf adjF.pc p := by
  intro rows
  induction rows with
  | nil =>
      intro maxD adj0 adjF row p l r hmem
      simp at hmem
  | cons row0 rest ih =>
      intro maxD adj0 adjF row p l r hmem h1 h2 h3 hdist h
      rcases List.mem_cons.mp hmem with rfl | hmem2
      · rw [hierLoop, h1, exceptBind_ok, h2, exceptBind_ok, h3, exceptBind_ok] at h
        dsimp only at h
        have hskip : rowSkip maxD row = false := by
          unfold rowSkip
          rw [hdist]
          cases maxD <;> rfl
        rw [hskip] at h
        rw [if_neg (by simp)] at h
        obtain ⟨hl, hr⟩ := mem_children_mergeStep row p l r adj0
        exact ⟨hierLoop_mono maxD rest _ adjF h p l hl, hierLoop_mono maxD rest _ adjF h p r hr⟩
      · obtain ⟨adj₁, h₁⟩ := hierLoop_cons_ok maxD row0 rest adj0 adjF h
        exact ih maxD adj₁ adjF row p l r hmem2 h1 h2 h3 hdist h₁

/-- C10 witness: a row with the unparsable distance `"x"` under a configured
cutoff of 3 still lands both children in the adjacency. -/
theorem c10_witness :
    (c10WitRow ∈ [c10WitRow] ∧
      toInt c10WitRow.parentId = Except.ok (some 2) ∧
      toInt c10WitRow.childLeftId = Except.ok (some 0) ∧
      toInt c10WitRow.childRightId = Except.ok (some 1) ∧
      rowDistance c10WitRow = Option.none ∧
      hierLoop (some (PyFloat.finite 3)) [c10WitRow] ⟨[], [], []⟩ =
        Except.ok ⟨[(2, [0, 1])], [0, 1], []⟩) ∧
    (0 ∈ childrenOf (Adj.pc ⟨[(2, [0, 1])], [0, 1], []⟩) 2 ∧
      1 ∈ childrenOf (Adj.pc ⟨[(2, [0, 1])], [0, 1], []⟩) 2) :=
  ⟨⟨by decide, by decide, by decide, by decide, by decide, by decide⟩,
    c10_malformed_distance_kept [c10WitRow] (some (PyFloat.finite 3)) ⟨[], [], []⟩
      ⟨[(2, [0, 1])], [0, 1], []⟩ c10WitRow 2 0 1 (by decide) (by decide) (by decide) (by decide)
      (by decide) (by decide)⟩

/-! ## C5: the distance cutoff -/

set_option maxRecDepth 100000 in
/-- C5: rows whose distance exceeds a configured `max_distance` are excluded —
dropping every such row from the table leaves the whole merge-graph result
unchanged — and in the concrete scenario (`{parent:2, left:0, right:1,
distance:0.5}` with `max_distance = 0.3`) the merge is pruned: the adjacency
is empty, no node 2 is emitted, and the two leaves are independent roots at
level 0. -/
theorem c5_distance_cutoff :
    (∀ (maxD : Option PyFloat) (rows : List MergeRow) (adj : Adj),
      hierLoop maxD rows adj = hierLoop maxD (rows.filter fun row => !rowPruned maxD row) adj) ∧
    ((buildCore c5ExIn).map fun o =>
      (o.topics.map fun nd => (nd.topicId, nd.parentId, nd.level), o.adj.pc)) =
      Except.ok ([(0, Option.none, 0), (1, Option.none, 0)], []) := by
  constructor
  · intro maxD rows
    induction rows with
    | nil => intro adj; rfl
    | cons row rest ih =>
        intro adj
        rw [List.filter_cons]
        by_cases hp : rowPruned maxD row = true
        · simp only [hp, Bool.not_true]
          rw [if_neg (by simp)]
          unfold rowPruned at hp
          split at hp
          · rename_i p' l' r' heq1 heq2 heq3
            rw [hierLoop, heq1, exceptBind_ok, heq2, exceptBind_ok, heq3, exceptBind_ok]
            dsimp only
            rw [if_pos hp]
            exact ih adj
          · exact absurd hp (by simp)
        · have hp' : rowPruned maxD row = false := by
            cases hfb : rowPruned maxD row
            · rfl
            · exact absurd hfb hp
          simp only [hp', Bool.not_false]
          simp only [if_true]
          cases h1 : toInt row.parentId with
          | error e =>
              rw [hierLoop, h1, exceptBind_err, hierLoop, h1, exceptBind_err]
          | ok po =>
              cases h2 : toInt row.childLeftId with
              | error e =>
                  rw [hierLoop, h1, exceptBind_ok, h2, exceptBind_err,
                    hierLoop, h1, exceptBind_ok, h2, exceptBind_err]
              | ok lo =>
                  cases h3 : toInt row.childRightId with
                  | error e =>
                      rw [hierLoop, h1, exceptBind_ok, h2, exceptBind_ok, h3, exceptBind_err,
                        hierLoop, h1, exceptBind_ok, h2, exceptBind_ok, h3, exceptBind_err]
                  | ok ro =>
                      rw [hierLoop, h1, exceptBind_ok, h2, exceptBind_ok, h3, exceptBind_ok,
                        hierLoop, h1, exceptBind_ok, h2, exceptBind_ok, h3, exceptBind_ok]
                      cases po with
                      | none => exact ih adj
                      | some p' =>
                      cases lo with
                      | none => exact ih adj
                      | some l' =>
                      cases ro with
                      | none => exact ih adj
                      | some r' =>
                      dsimp only
                      by_cases hskip : rowSkip maxD row = true
                      · rw [if_pos hskip, if_pos hskip]
                        exact ih adj
                      · rw [if_neg hskip, if_neg hskip]
                        exact ih (mergeStepAdj row p' l' r' adj)
  · decide

/-! ## C7: root selection -/

theorem foldl_max_le (ys : List ℤ) :
    ∀ acc : ℤ, acc ≤ ys.foldl max acc ∧ ∀ y ∈ ys, y ≤ ys.foldl max acc := by
  induction ys with
  | nil =>
      intro acc
      exact ⟨le_refl acc, by simp⟩
  | cons y ys ih =>
      intro acc
      obtain ⟨h1, h2⟩ := ih (max acc y)
      refine ⟨le_trans (le_max_left acc y) h1, ?_⟩
      intro z hz
      rcases List.mem_cons.mp hz with rfl | hz2
      · exact le_trans (le_max_right acc z) h1
      · exact h2 z hz2

theorem maxOfList_mem (l : List ℤ) (h : l ≠ []) : maxOfList l ∈ l := by
  cases l with
  | nil => exact absurd rfl h
  | cons x xs =>
      clear h
      show xs.foldl max x ∈ x :: xs
      induction xs generalizing x with
      | nil => simp
      | cons y ys ih =>
          have he : (y :: ys).foldl max x = ys.foldl max (max x y) := rfl
          rw [he]
          rcases List.mem_cons.mp (ih (max x y)) with hm | hm
          · rw [hm]
            rcases max_choice x y with h1 | h1 <;> rw [h1] <;> simp
          · simp [hm]

theorem le_maxOfList (l : List ℤ) (x : ℤ) (h : x ∈ l) : x ≤ maxOfList l := by
  cases l with
  | nil => simp at h
  | cons a xs =>
      show x ≤ xs.foldl max a
      rcases List.mem_cons.mp h with rfl | h2
      · exact (foldl_max_le xs x).1
      · exact (foldl_max_le xs a).2 x h2

/-- C7: root candidates are exactly the adjacency parents never seen as a
child; when that set is empty while parents exist, the single root is the
numerically largest parent id. -/
theorem c7_root_selection (adj : Adj) (r : ℤ) :
    r ∈ rootsOf adj ↔
      ((r ∈ adj.pc.map Prod.fst ∧ r ∉ adj.childrenSeen) ∨
        ((∀ p ∈ adj.pc.map Prod.fst, p ∈ adj.childrenSeen) ∧ adj.pc.map Prod.fst ≠ [] ∧
          r ∈ adj.pc.map Prod.fst ∧ ∀ p ∈ adj.pc.map Prod.fst, p ≤ r)) := by
  unfold rootsOf
  by_cases hE : ((adj.pc.map Prod.fst).filter fun p => !(adj.childrenSeen.contains p)).isEmpty
      ∧ adj.pc.map Prod.fst ≠ []
  · rw [if_pos hE]
    obtain ⟨hE1, hE2⟩ := hE
    have hall : ∀ p ∈ adj.pc.map Prod.fst, p ∈ adj.childrenSeen := by
      intro p hp
      by_contra hc
      have hmemf : p ∈ (adj.pc.map Prod.fst).filter fun p => !(adj.childrenSeen.contains p) := by
        rw [List.mem_filter]
        exact ⟨hp, by simpa using hc⟩
      rw [List.isEmpty_iff] at hE1
      rw [hE1] at hmemf
      simp at hmemf
    constructor
    · intro hr
      have hrm : r = maxOfList (adj.pc.map Prod.fst) := by simpa using hr
      subst hrm
      exact Or.inr ⟨hall, hE2, maxOfList_mem _ hE2, fun p hp => le_maxOfList _ p hp⟩
    · rintro (⟨hrp, hrs⟩ | ⟨_, _, hrp, hub⟩)
      · exact absurd (hall r hrp) hrs
      · have hle1 : maxOfList (adj.pc.map Prod.fst) ≤ r := hub _ (maxOfList_mem _ hE2)
        have hle2 : r ≤ maxOfList (adj.pc.map Prod.fst) := le_maxOfList _ r hrp
        simp [le_antisymm hle2 hle1]
  · rw [if_neg hE]
    constructor
    · intro hr
      have hmf := List.mem_filter.mp hr
      exact Or.inl ⟨hmf.1, by simpa using hmf.2⟩
    · rintro (⟨hrp, hrs⟩ | ⟨hall, hne, hrp, _⟩)
      · exact List.mem_filter.mpr ⟨hrp, by simpa using hrs⟩
      · exfalso
        apply hE
        refine ⟨?_, hne⟩
        rw [List.isEmpty_iff]
        rw [List.filter_eq_nil_iff]
        intro p hp
        simp [hall p hp]

/-! ## C6: leaf sizes -/

theorem summaryLoop_nil (members : List (ℤ × List DocEntry)) (acc : SummaryAcc) :
    summaryLoop members [] acc = Except.ok acc := rfl

theorem reportedCounts_nil (tid : ℤ) : reportedCounts [] tid = [] := rfl

theorem summaryLoop_sizeBy (members : List (ℤ × List DocEntry)) :
    ∀ (rows : List SummaryRow) (acc acc' : SummaryAcc),
      summaryLoop members rows acc = Except.ok acc' →
      ∀ tid : ℤ, tid ≠ -1 →
        alGet acc'.sizeBy tid =
          match (reportedCounts rows tid).getLast? with
          | some c => some (max c (membersCount members tid : ℤ))
          | Option.none => alGet acc.sizeBy tid := by
  intro rows
  induction rows with
  | nil =>
      intro acc acc' h tid htid
      rw [summaryLoop_nil] at h
      cases h
      simp [reportedCounts]
  | cons row rest ih =>
      intro acc acc' h tid htid
      cases h1 : toInt row.topic with
      | error e =>
          rw [summaryLoop, h1, exceptBind_err] at h
          cases h
      | ok tpo =>
          rw [summaryLoop, h1, exceptBind_ok] at h
          cases tpo with
          | none =>
              dsimp only at h
              have hrc : reportedCounts (row :: rest) tid = reportedCounts rest tid := by
                unfold reportedCounts
                rw [List.filterMap_cons, h1]
              rw [hrc]
              exact ih acc acc' h tid htid
          | some t =>
              dsimp only at h
              by_cases ht : t = -1
              · rw [if_pos ht] at h
                have hrc : reportedCounts (row :: rest) tid = reportedCounts rest tid := by
                  unfold reportedCounts
                  rw [List.filterMap_cons, h1]
                  cases toInt row.count with
                  | error e => rfl
                  | ok co =>
                      cases co with
                      | none => rfl
                      | some c =>
                          rw [ht]
                          dsimp only
                          rw [if_neg (fun he : (-1 : ℤ) = tid => htid he.symm)]
                rw [hrc]
                exact ih acc acc' h tid htid
              · rw [if_neg ht] at h
                cases h2 : toInt row.count with
                | error e =>
                    rw [h2, exceptBind_err] at h
                    cases h
                | ok co =>
                    rw [h2, exceptBind_ok] at h
                    have hih := ih _ acc' h tid htid
                    cases co with
                    | none =>
                        have hrc : reportedCounts (row :: rest) tid = reportedCounts rest tid := by
                          unfold reportedCounts
                          rw [List.filterMap_cons, h1, h2]
                        rw [hrc, hih]
                        cases hg : (reportedCounts rest tid).getLast? <;> simp [summarySizeUpd]
                    | some c =>
                        by_cases htt : t = tid
                        · subst htt
                          have hrc : reportedCounts (row :: rest) t =
                              c :: reportedCounts rest t := by
                            unfold reportedCounts
                            rw [List.filterMap_cons, h1, h2]
                            dsimp only
                            rw [if_pos rfl]
                          rw [hrc, hih]
                          cases hrest : reportedCounts rest t with
                          | nil =>
                              simp only [hrest]
                              simp [summarySizeUpd, alGet_alSet_self]
                          | cons c0 crest =>
                              rw [List.getLast?_cons_cons]
                              cases hg : (c0 :: crest).getLast? with
                              | none => simp at hg
                              | some cl => simp
                        · have hrc : reportedCounts (row :: rest) tid =
                              reportedCounts rest tid := by
                            unfold reportedCounts
                            rw [List.filterMap_cons, h1, h2]
                            dsimp only
                            rw [if_neg htt]
                          rw [hrc, hih]
                          cases hg : (reportedCounts rest tid).getLast? with
                          | none =>
                              simp only [summarySizeUpd]
                              rw [alGet_alSet_ne]
                              exact fun he => htt he.symm
                          | some cl => simp

theorem alGet_map_self (l : List ℤ) (f : ℤ → Node) (k : ℤ) :
    alGet (l.map fun t => (t, f t)) k = if k ∈ l then some (f k) else Option.none := by
  induction l with
  | nil => simp [alGet]
  | cons a rest ih =>
      by_cases h : a = k
      · subst h
        simp [alGet]
      · have hmemiff : (k ∈ a :: rest) ↔ (k ∈ rest) := by
          rw [List.mem_cons]
          constructor
          · rintro (he | hmr)
            · exact absurd he.symm h
            · exact hmr
          · exact Or.inr
        simp [alGet, h, ih, hmemiff]

theorem mem_leafIdsOf (sacc : SummaryAcc) (members : List (ℤ × List DocEntry)) (tid : ℤ) :
    tid ∈ leafIdsOf sacc members ↔
      (tid ≠ -1 ∧ (tid ∈ sacc.sizeBy.map Prod.fst ∨ tid ∈ members.map Prod.fst)) := by
  unfold leafIdsOf
  rw [mem_stableSort, List.mem_filter, List.mem_dedup, List.mem_append, List.mem_filter]
  constructor
  · rintro ⟨hin, hne⟩
    have hne' : tid ≠ -1 := by simpa using hne
    rcases hin with hs | ⟨hm, _⟩
    · exact ⟨hne', Or.inl hs⟩
    · exact ⟨hne', Or.inr hm⟩
  · rintro ⟨hne, hs | hm⟩
    · exact ⟨Or.inl hs, by simpa using hne⟩
    · exact ⟨Or.inr ⟨hm, by simpa using hne⟩, by simpa using hne⟩

theorem buildCore_ok_parts (inp : BuildInput) (o : BuildOut) (h : buildCore inp = Except.ok o) :
    docMembersOf inp.topics inp.probabilities inp.docIds = Except.ok o.members ∧
    summaryOf inp.topicInfo o.members = Except.ok o.sacc ∧
    adjacencyOf inp.hierarchyDf (maxDistanceOf inp.hierarchyConf) = Except.ok o.adj ∧
    o.topCount = topCountOf inp.topTerms ∧
    o.leafNodes = leafNodesOf inp.getTopic o.members o.sacc o.topCount ∧
    o.roots = rootsOf o.adj ∧
    o.finalSt = (if (rootsOf o.adj).isEmpty then
        runFallback o.adj.pc o.adj.plabels o.topCount
          (fuelOf (ensureParents o.leafNodes o.adj) o.adj.pc)
          ⟨ensureParents o.leafNodes o.adj, []⟩
      else
        runRoots o.adj.pc o.adj.plabels o.topCount
          (fuelOf (ensureParents o.leafNodes o.adj) o.adj.pc) (rootsOf o.adj)
          ⟨ensureParents o.leafNodes o.adj, []⟩) ∧
    o.topics = stableSort nodeSortLe (o.finalSt.nodes.map Prod.snd) ∧
    o.stats = statsOf o.topics o.adj o.roots := by
  cases hm : docMembersOf inp.topics inp.probabilities inp.docIds with
  | error e =>
      rw [buildCore] at h
      rw [hm, exceptBind_err] at h
      cases h
  | ok members =>
      rw [buildCore] at h
      rw [hm, exceptBind_ok] at h
      cases hs : summaryOf inp.topicInfo members with
      | error e =>
          rw [hs, exceptBind_err] at h
          cases h
      | ok sacc =>
          rw [hs, exceptBind_ok] at h
          cases ha : adjacencyOf inp.hierarchyDf (maxDistanceOf inp.hierarchyConf) with
          | error e =>
              rw [ha, exceptBind_err] at h
              cases h
          | ok adj =>
              rw [ha, exceptBind_ok] at h
              dsimp only at h
              injection h with hlit
              subst hlit
              exact ⟨rfl, hs, rfl, rfl, rfl, rfl, rfl, rfl, rfl⟩

set_option maxRecDepth 10000 in
/-- C6: for a leaf cluster id, the built node's size is the maximum of the
summary-reported count and the observed membership count, and equals the
membership count when no summary count exists. -/
theorem c6_leaf_size :
    (∀ (inp : BuildInput) (tid cnt : ℤ), tid ≠ -1 →
      reportedCounts (inp.topicInfo.getD []) tid = [cnt] →
      (buildCore inp).map (fun o => decide ((alGet o.leafNodes tid).map Node.size =
        some (max cnt (membersCount o.members tid : ℤ)))) =
        (buildCore inp).map fun _ => true) ∧
    (∀ (inp : BuildInput) (tid : ℤ), tid ≠ -1 →
      reportedCounts (inp.topicInfo.getD []) tid = [] →
      (buildCore inp).map (fun o => decide (tid ∈ o.members.map Prod.fst →
        (alGet o.leafNodes tid).map Node.size =
          some (membersCount o.members tid : ℤ))) =
        (buildCore inp).map fun _ => true) := by
  constructor
  · intro inp tid cnt htid hrc
    cases hb : buildCore inp with
    | error e => rfl
    | ok o =>
        simp only [Except.map]
        congr 1
        rw [decide_eq_true_iff]
        obtain ⟨hm, hs, ha, htc, hleafs, _⟩ := buildCore_ok_parts inp o hb
        have hsz : alGet o.sacc.sizeBy tid =
            some (max cnt (membersCount o.members tid : ℤ)) := by
          cases hti : inp.topicInfo with
          | none =>
              rw [hti] at hrc
              simp [reportedCounts] at hrc
          | some rows =>
              rw [hti] at hs hrc
              have hchar := summaryLoop_sizeBy o.members rows ⟨[], [], []⟩ o.sacc hs tid htid
              simp only [Option.getD_some] at hrc
              rw [hrc] at hchar
              simpa using hchar
        have hmem : tid ∈ leafIdsOf o.sacc o.members :=
          (mem_leafIdsOf o.sacc o.members tid).mpr ⟨htid, Or.inl (alGet_mem_keys hsz)⟩
        have hleaf : alGet o.leafNodes tid =
            some (leafNodeOf inp.getTopic o.members o.sacc o.topCount tid) := by
          rw [hleafs]
          unfold leafNodesOf
          rw [alGet_map_self, if_pos hmem]
        rw [hleaf]
        unfold leafNodeOf
        dsimp only
        rw [hsz]
        dsimp only
        have hlen : (((alGet o.members tid).getD []).length : ℤ) =
            (membersCount o.members tid : ℤ) := rfl
        rw [hlen, max_assoc, max_self]
        rfl
  · intro inp tid htid hrc
    cases hb : buildCore inp with
    | error e => rfl
    | ok o =>
        simp only [Except.map]
        congr 1
        rw [decide_eq_true_iff]
        intro hmm
        obtain ⟨hm, hs, ha, htc, hleafs, _⟩ := buildCore_ok_parts inp o hb
        have hsz : alGet o.sacc.sizeBy tid = Option.none := by
          cases hti : inp.topicInfo with
          | none =>
              have hsacc : o.sacc = ⟨[], [], []⟩ := by
                rw [hti] at hs
                have h2 : (Except.ok (⟨[], [], []⟩ : SummaryAcc) : Except PyExn SummaryAcc) =
                    Except.ok o.sacc := hs
                injection h2 with h3
                exact h3.symm
              rw [hsacc]
              simp [alGet]
          | some rows =>
              rw [hti] at hs hrc
              have hchar := summaryLoop_sizeBy o.members rows ⟨[], [], []⟩ o.sacc hs tid htid
              simp only [Option.getD_some] at hrc
              rw [hrc] at hchar
              simpa [alGet] using hchar
        have hmem : tid ∈ leafIdsOf o.sacc o.members :=
          (mem_leafIdsOf o.sacc o.members tid).mpr ⟨htid, Or.inr hmm⟩
        have hleaf : alGet o.leafNodes tid =
            some (leafNodeOf inp.getTopic o.members o.sacc o.topCount tid) := by
          rw [hleafs]
          unfold leafNodesOf
          rw [alGet_map_self, if_pos hmem]
        rw [hleaf]
        unfold leafNodeOf
        dsimp only
        rw [hsz]
        rfl

/-- C6 witness: topic 0 reported with count 7 beside two observed members has
built size `max 7 2 = 7`. -/
theorem c6_witness :
    ((0 : ℤ) ≠ -1 ∧ reportedCounts (c6WitIn.topicInfo.getD []) 0 = [7]) ∧
    ((buildCore c6WitIn).map (fun o => decide ((alGet o.leafNodes 0).map Node.size =
      some (max 7 (membersCount o.members 0 : ℤ)))) = (buildCore c6WitIn).map fun _ => true) :=
  ⟨⟨by decide, by decide⟩, c6_leaf_size.1 c6WitIn 0 7 (by decide) (by decide)⟩

/-! ## Term-list well-formedness -/

theorem enumFrom_add_one_ranks {α : Type} :
    ∀ (l : List α) (s : ℕ),
      ((l.enumFrom s).map fun p => p.1 + 1) = List.range' (s + 1) l.length := by
  intro l
  induction l with
  | nil => intro s; rfl
  | cons x xs ih =>
      intro s
      have h1 : (x :: xs).enumFrom s = (s, x) :: xs.enumFrom (s + 1) := rfl
      rw [h1, List.map_cons, ih (s + 1)]
      rfl

theorem mem_range'_ge : ∀ (n s x : ℕ), x ∈ List.range' s n → s ≤ x := by
  intro n
  induction n with
  | zero => intro s x h; simp [List.range'] at h
  | succ n ih =>
      intro s x h
      rcases List.mem_cons.mp h with rfl | h2
      · exact le_refl x
      · exact le_trans (Nat.le_succ s) (ih (s + 1) x h2)

theorem pairwise_lt_range' : ∀ (n s : ℕ), (List.range' s n).Pairwise (· < ·) := by
  intro n
  induction n with
  | zero => intro s; simp [List.range']
  | succ n ih =>
      intro s
      refine List.pairwise_cons.mpr ⟨?_, ih (s + 1)⟩
      intro x hx
      exact lt_of_lt_of_le (Nat.lt_succ_self s) (mem_range'_ge n (s + 1) x hx)

theorem ranks_range'_pairwise {ts : List TermEntry}
    (h : ts.map TermEntry.rank = List.range' 1 ts.length) :
    ts.Pairwise fun a b => a.rank < b.rank := by
  rw [← List.pairwise_map]
  rw [h]
  exact pairwise_lt_range' ts.length 1

theorem aggregateTerms_ranks (nodes : NodeMap) (cs : List ℤ) (tc : ℕ) :
    (aggregateTerms nodes cs tc).map TermEntry.rank =
      List.range' 1 (aggregateTerms nodes cs tc).length := by
  unfold aggregateTerms
  rw [List.map_map, List.length_map]
  have h1 : (TermEntry.rank ∘ fun p : ℕ × (String × ℚ) =>
      (⟨p.2.1, p.2.2, p.1 + 1⟩ : TermEntry)) = fun p => p.1 + 1 := rfl
  rw [h1]
  have h2 := enumFrom_add_one_ranks
    ((stableSort (fun a b => decide (b.2 ≤ a.2)) (aggScoreMap nodes cs)).take tc) 0
  rw [show (List.enum ((stableSort (fun a b => decide (b.2 ≤ a.2))
      (aggScoreMap nodes cs)).take tc)) =
    ((stableSort (fun a b => decide (b.2 ≤ a.2)) (aggScoreMap nodes cs)).take tc).enumFrom 0
    from rfl]
  rw [h2]
  rw [List.enumFrom_length]

theorem aggregateTerms_length (nodes : NodeMap) (cs : List ℤ) (tc : ℕ) :
    (aggregateTerms nodes cs tc).length ≤ tc := by
  unfold aggregateTerms
  rw [List.length_map, List.enum_length]
  exact le_trans (List.length_take_le tc _) (le_refl tc)

theorem pairwise_enumFrom {α : Type} (R : α → α → Prop) :
    ∀ (l : List α) (s : ℕ), l.Pairwise R →
      (l.enumFrom s).Pairwise fun p q => R p.2 q.2 := by
  intro l
  induction l with
  | nil => intro s _; simp
  | cons x xs ih =>
      intro s h
      rcases List.pairwise_cons.mp h with ⟨hx, hxs⟩
      refine List.pairwise_cons.mpr ⟨?_, ih (s + 1) hxs⟩
      intro q hq
      exact hx q.2 (by
        clear hx hxs ih h
        induction xs generalizing s with
        | nil => simp at hq
        | cons y ys ih2 =>
            rcases List.mem_cons.mp hq with rfl | h2
            · exact List.mem_cons_self y ys
            · exact List.mem_cons_of_mem y (ih2 (s + 1) h2))

theorem aggregateTerms_sorted (nodes : NodeMap) (cs : List ℤ) (tc : ℕ) :
    (aggregateTerms nodes cs tc).Pairwise fun a b => b.score ≤ a.score := by
  unfold aggregateTerms
  rw [List.pairwise_map]
  have hsorted : (stableSort (fun a b : String × ℚ => decide (b.2 ≤ a.2))
      (aggScoreMap nodes cs)).Pairwise fun x y => decide (y.2 ≤ x.2) = true := by
    refine stableSort_pairwise _ ?_ ?_ _
    · intro a b
      rcases le_total b.2 a.2 with h | h
      · exact Or.inl (by simpa using h)
      · exact Or.inr (by simpa using h)
    · intro a b c hab hbc
      simp only [decide_eq_true_iff] at hab hbc ⊢
      exact le_trans hbc hab
  have htake := hsorted.sublist (List.take_sublist tc _)
  have henum := pairwise_enumFrom _ _ 0 htake
  refine henum.imp ?_
  intro p q hpq
  simpa using hpq

theorem fallbackTerms_ranks (label : String) (tc : ℕ) :
    (fallbackTerms label tc).map TermEntry.rank =
      List.range' 1 (fallbackTerms label tc).length := by
  unfold fallbackTerms
  rw [List.map_map, List.length_map]
  have h1 : (TermEntry.rank ∘ fun p : ℕ × String =>
      (⟨p.2, 0, p.1 + 1⟩ : TermEntry)) = fun p => p.1 + 1 := rfl
  rw [h1]
  have h2 := enumFrom_add_one_ranks ((splitTokens label).take tc) 0
  rw [show List.enum ((splitTokens label).take tc) =
    ((splitTokens label).take tc).enumFrom 0 from rfl]
  rw [h2, List.enumFrom_length]

theorem fallbackTerms_wf (label : String) (tc : ℕ) : TermsWF tc (fallbackTerms label tc) := by
  refine ⟨?_, ranks_range'_pairwise (fallbackTerms_ranks label tc)⟩
  unfold fallbackTerms
  rw [List.length_map, List.enum_length]
  exact List.length_take_le tc _

theorem aggregateTerms_wf (nodes : NodeMap) (cs : List ℤ) (tc : ℕ) :
    TermsWF tc (aggregateTerms nodes cs tc) :=
  ⟨aggregateTerms_length nodes cs tc,
    ranks_range'_pairwise (aggregateTerms_ranks nodes cs tc)⟩

theorem leafTermsGo_wf (tc : ℕ) :
    ∀ (pairs : List TermPair) (rank : ℕ) (acc : List TermEntry),
      acc.length < tc →
      (∀ t ∈ acc, t.rank < rank) →
      (acc.map TermEntry.rank).Pairwise (fun a b => b < a) →
      TermsWF tc (leafTermsGo tc pairs rank acc) := by
  intro pairs
  induction pairs with
  | nil =>
      intro rank acc hlen hlt hpw
      rw [leafTermsGo]
      constructor
      · simpa using Nat.le_of_lt hlen
      · rw [← List.pairwise_map]
        rw [List.map_reverse]
        rw [List.pairwise_reverse]
        exact hpw
  | cons p rest ih =>
      intro rank acc hlen hlt hpw
      simp only [leafTermsGo]
      cases p with
      | malformed =>
          dsimp only
          rw [if_neg (by omega)]
          exact ih (rank + 1) acc hlen (fun t ht => Nat.lt_succ_of_lt (hlt t ht)) hpw
      | pair t sc =>
          dsimp only
          by_cases hts : pyStrip t = ""
          · rw [if_pos hts]
            rw [if_neg (by omega)]
            exact ih (rank + 1) acc hlen (fun t ht => Nat.lt_succ_of_lt (hlt t ht)) hpw
          · rw [if_neg hts]
            have hnewlt : ∀ t' ∈ (⟨pyStrip t, sc.getD 0, rank⟩ : TermEntry) :: acc,
                t'.rank < rank + 1 := by
              intro t' ht'
              rcases List.mem_cons.mp ht' with rfl | h2
              · exact Nat.lt_succ_self rank
              · exact Nat.lt_succ_of_lt (hlt t' h2)
            have hnewpw : (((⟨pyStrip t, sc.getD 0, rank⟩ : TermEntry) :: acc).map
                TermEntry.rank).Pairwise (fun a b => b < a) := by
              rw [List.map_cons]
              refine List.pairwise_cons.mpr ⟨?_, hpw⟩
              intro r hr
              rcases List.mem_map.mp hr with ⟨t', ht', rfl⟩
              exact hlt t' ht'
            by_cases hbreak : tc ≤ ((⟨pyStrip t, sc.getD 0, rank⟩ : TermEntry) :: acc).length
            · rw [if_pos hbreak]
              constructor
              · simpa using hlen
              · rw [← List.pairwise_map, List.map_reverse, List.pairwise_reverse]
                exact hnewpw
            · rw [if_neg hbreak]
              exact ih (rank + 1) _ (by simpa using hbreak) hnewlt hnewpw

theorem leafNodeOf_terms_wf (getTopic : ℤ → List TermPair) (members : List (ℤ × List DocEntry))
    (sacc : SummaryAcc) (tc : ℕ) (htc : 0 < tc) (tid : ℤ) :
    TermsWF tc (leafNodeOf getTopic members sacc tc tid).terms := by
  unfold leafNodeOf
  dsimp only
  by_cases hempty : (leafTermsGo tc (getTopic tid) 1 []).isEmpty
  · rw [if_pos hempty]
    exact fallbackTerms_wf _ tc
  · rw [if_neg hempty]
    exact leafTermsGo_wf tc (getTopic tid) 1 [] htc (by simp) (by simp)

/-! ## Walk-state infrastructure -/

theorem alGet_mem_pair {κ α : Type} [DecidableEq κ] :
    ∀ (m : List (κ × α)) (k : κ) (v : α), alGet m k = some v → (k, v) ∈ m := by
  intro m
  induction m with
  | nil => intro k v h; simp [alGet] at h
  | cons kv rest ih =>
      intro k v h
      obtain ⟨a, b⟩ := kv
      by_cases ha : a = k
      · subst ha
        rw [show alGet ((a, b) :: rest) a = some b from by simp [alGet]] at h
        cases h
        exact List.mem_cons_self _ _
      · rw [show alGet ((a, b) :: rest) k = alGet rest k from by simp [alGet, ha]] at h
        exact List.mem_cons_of_mem _ (ih k v h)

theorem alGet_some_of_mem_keys {κ α : Type} [DecidableEq κ] {m : List (κ × α)} {k : κ}
    (h : k ∈ m.map Prod.fst) : ∃ v, alGet m k = some v := by
  cases hg : alGet m k with
  | none => exact absurd h ((alGet_eq_none_iff m k).mp hg)
  | some v => exact ⟨v, rfl⟩

theorem edge_exists_entry {pc : List (ℤ × List ℤ)} {n c : ℤ} (h : edgeIn pc n c) :
    ∃ q ∈ pc, c ∈ q.2 := by
  unfold edgeIn childrenOf at h
  cases hg : alGet pc n with
  | none => rw [hg] at h; simp at h
  | some cs =>
      rw [hg] at h
      simp only [Option.getD_some] at h
      exact ⟨(n, cs), alGet_mem_pair pc n cs hg, h⟩

theorem alGet_alUpdate_proj {β : Type} (m : NodeMap) (k k' : ℤ) (f : Node → Node)
    (proj : Node → β) (hf : ∀ nd, proj (f nd) = proj nd) :
    ((alGet (alUpdate m k f) k').map proj) = ((alGet m k').map proj) := by
  by_cases h : k' = k
  · subst h
    rw [alGet_alUpdate_self]
    cases alGet m k' <;> simp [hf]
  · rw [alGet_alUpdate_ne _ _ _ _ h]

theorem sizeAt_eq (st : WSt) (k : ℤ) :
    sizeAt st k = ((alGet st.nodes k).map Node.size).getD 0 := by
  unfold sizeAt
  cases alGet st.nodes k <;> rfl

theorem sizeAt_nonneg {pc : List (ℤ × List ℤ)} {tc : ℕ} {st : WSt} (hInv : WInv pc tc st)
    (k : ℤ) : 0 ≤ sizeAt st k := by
  rw [sizeAt_eq]
  cases hg : alGet st.nodes k with
  | none => simp
  | some nd =>
      simpa using hInv.sizes (k, nd) (alGet_mem_pair _ _ _ hg)

theorem BPost_rfl (pc : List (ℤ × List ℤ)) (n : ℤ) (st : WSt) : BPost pc n st st :=
  ⟨fun _ hv => hv, fun _ hk => hk, fun _ hk => Or.inl hk, fun _ _ => rfl, fun _ => rfl,
    fun _ _ => rfl, fun v hv hnv => absurd hv hnv⟩

theorem BPost_trans {pc : List (ℤ × List ℤ)} {n : ℤ} {st₁ st₂ st₃ : WSt}
    (h12 : BPost pc n st₁ st₂) (h23 : BPost pc n st₂ st₃) : BPost pc n st₁ st₃ := by
  obtain ⟨a1, b1, c1, d1, e1, f1, g1⟩ := h12
  obtain ⟨a2, b2, c2, d2, e2, f2, g2⟩ := h23
  refine ⟨fun v hv => a2 v (a1 v hv), fun k hk => b2 k (b1 k hk), ?_, ?_,
    fun k => (e2 k).trans (e1 k), fun k hk => (f2 k hk).trans (f1 k hk), ?_⟩
  · intro k hk
    rcases c2 k hk with h | h
    · exact c1 k h
    · exact Or.inr h
  · intro v hv
    rw [d2 v (a1 v hv), d1 v hv]
  · intro v hv hnv
    by_cases h2 : v ∈ st₂.visited
    · exact g1 v h2 hnv
    · exact g2 v hv h2

theorem BPost_retarget {pc : List (ℤ × List ℤ)} {c n : ℤ} {st st' : WSt}
    (h : BPost pc c st st') (he : edgeIn pc n c) : BPost pc n st st' := by
  obtain ⟨a, b, cc, d, e, f, g⟩ := h
  exact ⟨a, b, cc, d, e, f, fun v hv hnv => Relation.ReflTransGen.head he (g v hv hnv)⟩

theorem docsAtN_alUpdate (m : NodeMap) (k k' : ℤ) (f : Node → Node)
    (hf : ∀ nd, (f nd).docs = nd.docs) :
    docsAtN (alUpdate m k f) k' = docsAtN m k' := by
  unfold docsAtN
  rw [alGet_alUpdate_proj m k k' f Node.docs hf]

theorem BPost_update (pc : List (ℤ × List ℤ)) (n : ℤ) (st : WSt) (k : ℤ) (f : Node → Node)
    (hdocs : ∀ nd, (f nd).docs = nd.docs)
    (hcore : k ∉ st.visited ∨ ∀ nd, coreOf (f nd) = coreOf nd)
    (hsize : childrenOf pc k ≠ [] ∨ ∀ nd, (f nd).size = nd.size) :
    BPost pc n st ⟨alUpdate st.nodes k f, st.visited⟩ := by
  refine ⟨fun v hv => hv, ?_, ?_, ?_, ?_, ?_, fun v hv hnv => absurd hv hnv⟩
  · intro q hq
    show q ∈ keysOf (alUpdate st.nodes k f)
    unfold keysOf
    rw [keys_alUpdate]
    exact hq
  · intro q hq
    unfold keysOf at hq
    rw [keys_alUpdate] at hq
    exact Or.inl hq
  · intro v hv
    rcases hcore with hk | hf2
    · have hvk : v ≠ k := fun he => hk (he ▸ hv)
      show (alGet (alUpdate st.nodes k f) v).map coreOf = (alGet st.nodes v).map coreOf
      rw [alGet_alUpdate_ne _ _ _ _ hvk]
    · exact alGet_alUpdate_proj st.nodes k v f coreOf hf2
  · intro q
    exact docsAtN_alUpdate st.nodes k q f hdocs
  · intro q hq
    rcases hsize with hk | hf2
    · have hqk : q ≠ k := fun he => hk (he ▸ hq)
      rw [sizeAt_eq, sizeAt_eq]
      show ((alGet (alUpdate st.nodes k f) q).map Node.size).getD 0 = _
      rw [alGet_alUpdate_ne _ _ _ _ hqk]
    · rw [sizeAt_eq, sizeAt_eq]
      show ((alGet (alUpdate st.nodes k f) q).map Node.size).getD 0 = _
      rw [alGet_alUpdate_proj st.nodes k q f Node.size hf2]

theorem BPost_insertVisited (pc : List (ℤ × List ℤ)) (n : ℤ) (st : WSt) :
    BPost pc n st ⟨st.nodes, n :: st.visited⟩ := by
  refine ⟨fun v hv => List.mem_cons_of_mem n hv, fun k hk => hk, fun k hk => Or.inl hk,
    fun v _ => rfl, fun _ => rfl, fun _ _ => rfl, ?_⟩
  intro v hv hnv
  rcases List.mem_cons.mp hv with rfl | h2
  · exact Relation.ReflTransGen.refl
  · exact absurd h2 hnv

theorem alGet_append_single (m : NodeMap) (c : ℤ) (nd : Node) (k : ℤ) :
    alGet (m ++ [(c, nd)]) k =
      match alGet m k with
      | some v => some v
      | Option.none => if c = k then some nd else Option.none := by
  rw [alGet_append]
  cases alGet m k <;> simp [alGet]

theorem BPost_appendStub (pc : List (ℤ × List ℤ)) (n : ℤ) (st : WSt) (c : ℤ) (nd : Node)
    (hdocs : nd.docs = []) (hsize : nd.size = 0) (hc : ∃ q ∈ pc, c ∈ q.2)
    (hvk : ∀ v ∈ st.visited, v ∈ keysOf st.nodes) :
    BPost pc n st ⟨st.nodes ++ [(c, nd)], st.visited⟩ := by
  refine ⟨fun v hv => hv, ?_, ?_, ?_, ?_, ?_, fun v hv hnv => absurd hv hnv⟩
  · intro q hq
    show q ∈ keysOf (st.nodes ++ [(c, nd)])
    unfold keysOf
    rw [List.map_append]
    exact List.mem_append_left _ hq
  · intro q hq
    unfold keysOf at hq
    rw [List.map_append] at hq
    rcases List.mem_append.mp hq with h | h
    · exact Or.inl h
    · simp only [List.map_cons, List.map_nil, List.mem_singleton] at h
      subst h
      exact Or.inr hc
  · intro v hv
    obtain ⟨w, hw⟩ := alGet_some_of_mem_keys (hvk v hv)
    show (alGet (st.nodes ++ [(c, nd)]) v).map coreOf = _
    rw [alGet_append_single, hw]
  · intro q
    unfold docsAtN
    rw [alGet_append_single]
    cases hg : alGet st.nodes q with
    | some w => rfl
    | none =>
        by_cases hcq : c = q <;> simp [hcq, hdocs]
  · intro q _
    rw [sizeAt_eq, sizeAt_eq]
    show ((alGet (st.nodes ++ [(c, nd)]) q).map Node.size).getD 0 = _
    rw [alGet_append_single]
    cases hg : alGet st.nodes q with
    | some w => rfl
    | none =>
        by_cases hcq : c = q <;> simp [hcq, hsize]

theorem WInv_update (pc : List (ℤ × List ℤ)) (tc : ℕ) (st : WSt) (k : ℤ) (f : Node → Node)
    (hkeep : ∀ nd, (f nd).topicId = nd.topicId)
    (hsz : ∀ nd, 0 ≤ nd.size → 0 ≤ (f nd).size)
    (hdocs : ∀ nd, childrenOf pc k ≠ [] → nd.docs = [] → (f nd).docs = [])
    (hterms : ∀ nd, TermsWF tc nd.terms → TermsWF tc (f nd).terms)
    (hInv : WInv pc tc st) : WInv pc tc ⟨alUpdate st.nodes k f, st.visited⟩ := by
  have hmem : ∀ kv ∈ alUpdate st.nodes k f,
      ∃ kv₀ ∈ st.nodes, kv₀.1 = kv.1 ∧
        ((kv₀.1 ≠ k ∧ kv.2 = kv₀.2) ∨ (kv₀.1 = k ∧ kv.2 = f kv₀.2)) := by
    intro kv hkv
    rcases List.mem_map.mp hkv with ⟨kv₀, h₀, rfl⟩
    by_cases he : kv₀.1 = k
    · exact ⟨kv₀, h₀, by simp [he], Or.inr ⟨he, by simp [he]⟩⟩
    · exact ⟨kv₀, h₀, by simp [he], Or.inl ⟨he, by simp [he]⟩⟩
  constructor
  · intro v hv
    show v ∈ keysOf (alUpdate st.nodes k f)
    unfold keysOf
    rw [keys_alUpdate]
    exact hInv.visSub v hv
  · show (keysOf (alUpdate st.nodes k f)).Nodup
    unfold keysOf
    rw [keys_alUpdate]
    exact hInv.nodup
  · intro kv hkv
    obtain ⟨kv₀, h₀, hk1, hv2⟩ := hmem kv hkv
    rcases hv2 with ⟨_, h⟩ | ⟨_, h⟩
    · rw [h, ← hk1]
      exact hInv.keyed kv₀ h₀
    · rw [h, hkeep, ← hk1]
      exact hInv.keyed kv₀ h₀
  · intro kv hkv
    obtain ⟨kv₀, h₀, _, hv2⟩ := hmem kv hkv
    rcases hv2 with ⟨_, h⟩ | ⟨_, h⟩
    · rw [h]
      exact hInv.sizes kv₀ h₀
    · rw [h]
      exact hsz _ (hInv.sizes kv₀ h₀)
  · intro kv hkv hch
    obtain ⟨kv₀, h₀, hk1, hv2⟩ := hmem kv hkv
    have hch0 : childrenOf pc kv₀.1 ≠ [] := by
      rw [hk1]
      exact hch
    rcases hv2 with ⟨_, h⟩ | ⟨hke, h⟩
    · rw [h]
      exact hInv.docsCleared kv₀ h₀ hch0
    · rw [h]
      have hchk : childrenOf pc k ≠ [] := by
        rw [← hke]
        exact hch0
      exact hdocs kv₀.2 hchk (hInv.docsCleared kv₀ h₀ hch0)
  · intro kv hkv
    obtain ⟨kv₀, h₀, _, hv2⟩ := hmem kv hkv
    rcases hv2 with ⟨_, h⟩ | ⟨_, h⟩
    · rw [h]
      exact hInv.termsWF kv₀ h₀
    · rw [h]
      exact hterms _ (hInv.termsWF kv₀ h₀)

theorem WInv_insertVisited (pc : List (ℤ × List ℤ)) (tc : ℕ) (st : WSt) (n : ℤ)
    (hn : n ∈ keysOf st.nodes) (hInv : WInv pc tc st) :
    WInv pc tc ⟨st.nodes, n :: st.visited⟩ := by
  constructor
  · intro v hv
    rcases List.mem_cons.mp hv with rfl | h2
    · exact hn
    · exact hInv.visSub v h2
  · exact hInv.nodup
  · exact hInv.keyed
  · exact hInv.sizes
  · exact hInv.docsCleared
  · exact hInv.termsWF

theorem WInv_appendStub (pc : List (ℤ × List ℤ)) (tc : ℕ) (st : WSt) (c : ℤ) (nd : Node)
    (hnotin : c ∉ keysOf st.nodes) (hkeyed : nd.topicId = c) (hsz : 0 ≤ nd.size)
    (hdocs : nd.docs = []) (hterms : TermsWF tc nd.terms) (hInv : WInv pc tc st) :
    WInv pc tc ⟨st.nodes ++ [(c, nd)], st.visited⟩ := by
  have hmem : ∀ kv ∈ st.nodes ++ [(c, nd)], kv ∈ st.nodes ∨ kv = (c, nd) := by
    intro kv hkv
    rcases List.mem_append.mp hkv with h | h
    · exact Or.inl h
    · exact Or.inr (by simpa using h)
  constructor
  · intro v hv
    show v ∈ keysOf (st.nodes ++ [(c, nd)])
    unfold keysOf
    rw [List.map_append]
    exact List.mem_append_left _ (hInv.visSub v hv)
  · show (keysOf (st.nodes ++ [(c, nd)])).Nodup
    unfold keysOf
    rw [List.map_append]
    rw [List.nodup_append]
    refine ⟨hInv.nodup, by simp, ?_⟩
    intro x hx hx2
    simp only [List.map_cons, List.map_nil, List.mem_singleton] at hx2
    subst hx2
    exact hnotin hx
  · intro kv hkv
    rcases hmem kv hkv with h | rfl
    · exact hInv.keyed kv h
    · exact hkeyed
  · intro kv hkv
    rcases hmem kv hkv with h | rfl
    · exact hInv.sizes kv h
    · exact hsz
  · intro kv hkv hch
    rcases hmem kv hkv with h | rfl
    · exact hInv.docsCleared kv h hch
    · exact hdocs
  · intro kv hkv
    rcases hmem kv hkv with h | rfl
    · exact hInv.termsWF kv h
    · exact hterms

theorem walkLabel_fields (plabels : List (ℤ × String)) (n : ℤ) (nd : Node) :
    (walkLabel plabels n nd).topicId = nd.topicId ∧
    (walkLabel plabels n nd).size = nd.size ∧
    (walkLabel plabels n nd).docs = nd.docs ∧
    (walkLabel plabels n nd).terms = nd.terms := by
  unfold walkLabel
  cases alGet plabels n with
  | some lbl => exact ⟨rfl, rfl, rfl, rfl⟩
  | none =>
      dsimp only
      split
      · split
        · exact ⟨rfl, rfl, rfl, rfl⟩
        · exact ⟨rfl, rfl, rfl, rfl⟩
      · exact ⟨rfl, rfl, rfl, rfl⟩

theorem BPost_updateSelf {pc : List (ℤ × List ℤ)} {n : ℤ} {st stM : WSt} (f : Node → Node)
    (hn : n ∉ st.visited) (hpost : BPost pc n st stM)
    (hdocs : ∀ nd, (f nd).docs = nd.docs)
    (hsize : childrenOf pc n ≠ [] ∨ ∀ nd, (f nd).size = nd.size) :
    BPost pc n st ⟨alUpdate stM.nodes n f, stM.visited⟩ := by
  obtain ⟨a, b, c, d, e, fr, g⟩ := hpost
  refine ⟨a, ?_, ?_, ?_, ?_, ?_, g⟩
  · intro k hk
    show k ∈ keysOf (alUpdate stM.nodes n f)
    unfold keysOf
    rw [keys_alUpdate]
    exact b k hk
  · intro k hk
    unfold keysOf at hk
    rw [keys_alUpdate] at hk
    exact c k hk
  · intro v hv
    have hvn : v ≠ n := fun he => hn (he ▸ hv)
    show (alGet (alUpdate stM.nodes n f) v).map coreOf = _
    rw [alGet_alUpdate_ne _ _ _ _ hvn]
    exact d v hv
  · intro k
    show docsAtN (alUpdate stM.nodes n f) k = _
    rw [docsAtN_alUpdate stM.nodes n k f hdocs]
    exact e k
  · intro k hk
    have hstep : sizeAt ⟨alUpdate stM.nodes n f, stM.visited⟩ k = sizeAt stM k := by
      rw [sizeAt_eq, sizeAt_eq]
      rcases hsize with hne | hpres
      · have hkn : k ≠ n := fun he => hne (he ▸ hk)
        show ((alGet (alUpdate stM.nodes n f) k).map Node.size).getD 0 = _
        rw [alGet_alUpdate_ne _ _ _ _ hkn]
      · show ((alGet (alUpdate stM.nodes n f) k).map Node.size).getD 0 = _
        rw [alGet_alUpdate_proj stM.nodes n k f Node.size hpres]
    rw [hstep]
    exact fr k hk

theorem WInv_sizeStep {pc : List (ℤ × List ℤ)} {tc : ℕ} (n : ℤ) (total : ℤ) (st : WSt)
    (ht : 0 ≤ total) (hInv : WInv pc tc st) : WInv pc tc (sizeStep n total st) := by
  unfold sizeStep
  split
  · exact WInv_update pc tc st n _ (fun nd => rfl) (fun nd _ => ht) (fun nd _ h => h)
      (fun nd h => h) hInv
  · exact hInv

theorem WInv_termsStep {pc : List (ℤ × List ℤ)} {tc : ℕ} (cs : List ℤ) (n : ℤ) (st : WSt)
    (hInv : WInv pc tc st) : WInv pc tc (termsStep tc cs n st) := by
  unfold termsStep
  split
  · exact WInv_update pc tc st n _ (fun nd => rfl) (fun nd h => h) (fun nd _ h => h)
      (fun nd _ => aggregateTerms_wf st.nodes cs tc) hInv
  · exact hInv

theorem WInv_labelStep {pc : List (ℤ × List ℤ)} {tc : ℕ} (plabels : List (ℤ × String)) (n : ℤ)
    (st : WSt) (hInv : WInv pc tc st) : WInv pc tc (labelStep plabels n st) := by
  unfold labelStep
  refine WInv_update pc tc st n _ ?_ ?_ ?_ ?_ hInv
  · exact fun nd => (walkLabel_fields plabels n nd).1
  · intro nd h
    rw [(walkLabel_fields plabels n nd).2.1]
    exact h
  · intro nd _ h
    rw [(walkLabel_fields plabels n nd).2.2.1]
    exact h
  · intro nd h
    rw [(walkLabel_fields plabels n nd).2.2.2]
    exact h

theorem WInv_levelStep {pc : List (ℤ × List ℤ)} {tc : ℕ} (n : ℤ) (level : ℕ) (st : WSt)
    (hn : n ∈ keysOf st.nodes) (hInv : WInv pc tc st) : WInv pc tc (levelStep n level st) := by
  have h1 : WInv pc tc ⟨alUpdate st.nodes n (fun nd => { nd with level := level }), st.visited⟩ :=
    WInv_update pc tc st n _ (fun nd => rfl) (fun nd h => h) (fun nd _ h => h) (fun nd h => h) hInv
  have h2 : n ∈ keysOf (alUpdate st.nodes n (fun nd => { nd with level := level })) := by
    unfold keysOf
    rw [keys_alUpdate]
    exact hn
  exact WInv_insertVisited pc tc _ n h2 h1

theorem BPost_levelStep (pc : List (ℤ × List ℤ)) (n : ℤ) (level : ℕ) (st : WSt)
    (hnv : n ∉ st.visited) : BPost pc n st (levelStep n level st) := by
  have h1 : BPost pc n st ⟨alUpdate st.nodes n (fun nd => { nd with level := level }),
      st.visited⟩ :=
    BPost_update pc n st n _ (fun nd => rfl) (Or.inl hnv) (Or.inr (fun nd => rfl))
  exact BPost_trans h1 (BPost_insertVisited pc n _)

theorem ensureChild_props (pc : List (ℤ × List ℤ)) (tc : ℕ) (st : WSt) (c n : ℤ) (level : ℕ)
    (hedge : edgeIn pc n c) (hInv : WInv pc tc st) :
    WInv pc tc (ensureChild st c n level) ∧ BPost pc n st (ensureChild st c n level) ∧
    c ∈ keysOf (ensureChild st c n level).nodes := by
  unfold ensureChild
  cases hg : alGet st.nodes c with
  | none =>
      have hnotin : c ∉ keysOf st.nodes := (alGet_eq_none_iff st.nodes c).mp hg
      refine ⟨?_, ?_, ?_⟩
      · exact WInv_appendStub pc tc st c _ hnotin rfl (le_refl 0) rfl
          ⟨Nat.zero_le tc, List.Pairwise.nil⟩ hInv
      · exact BPost_appendStub pc n st c _ rfl rfl (edge_exists_entry hedge) hInv.visSub
      · show c ∈ keysOf (st.nodes ++ [(c, stubChildNode c n (level + 1))])
        unfold keysOf
        rw [List.map_append]
        exact List.mem_append_right _ (by simp)
  | some w =>
      refine ⟨?_, ?_, ?_⟩
      · exact WInv_update pc tc st c _ (fun nd => rfl) (fun nd h => h) (fun nd _ h => h)
          (fun nd h => h) hInv
      · exact BPost_update pc n st c _ (fun nd => rfl) (Or.inr (fun nd => rfl))
          (Or.inr (fun nd => rfl))
      · show c ∈ keysOf (alUpdate st.nodes c (fun nd => { nd with parentId := some n }))
        unfold keysOf
        rw [keys_alUpdate]
        exact alGet_mem_keys hg

theorem walkKids_basic (pc : List (ℤ × List ℤ)) (tc : ℕ) (wa : WSt → ℤ → WSt × ℤ) (n : ℤ)
    (level : ℕ)
    (hwa : ∀ st c, c ∈ keysOf st.nodes → WInv pc tc st →
      WInv pc tc (wa st c).1 ∧ BPost pc c st (wa st c).1 ∧ 0 ≤ (wa st c).2) :
    ∀ cs st, (∀ c ∈ cs, edgeIn pc n c) → WInv pc tc st →
      WInv pc tc (walkKids wa n level st cs).1 ∧
      BPost pc n st (walkKids wa n level st cs).1 ∧
      0 ≤ (walkKids wa n level st cs).2 := by
  intro cs
  induction cs with
  | nil =>
      intro st _ hInv
      exact ⟨hInv, BPost_rfl pc n st, le_refl 0⟩
  | cons c rest ih =>
      intro st hcs hInv
      have hedge : edgeIn pc n c := hcs c (List.mem_cons_self c rest)
      obtain ⟨hInvE, hPostE, hcE⟩ := ensureChild_props pc tc st c n level hedge hInv
      obtain ⟨hInv2, hPost2, _⟩ := hwa (ensureChild st c n level) c hcE hInvE
      obtain ⟨hInv3, hPost3, hsz3⟩ := ih (wa (ensureChild st c n level) c).1
        (fun x hx => hcs x (List.mem_cons_of_mem c hx)) hInv2
      simp only [walkKids]
      cases hw1 : wa (ensureChild st c n level) c with
      | mk st2 csize =>
          rw [hw1] at hInv2 hPost2 hInv3 hPost3 hsz3
          cases hw2 : walkKids wa n level st2 rest with
          | mk st3 trest =>
              rw [hw2] at hInv3 hPost3 hsz3
              dsimp only
              dsimp only at hInv3 hPost3 hsz3 hPost2
              refine ⟨hInv3, ?_, ?_⟩
              · exact BPost_trans (BPost_trans hPostE (BPost_retarget hPost2 hedge)) hPost3
              · exact add_nonneg (le_max_right csize 0) hsz3

theorem walk_basic (pc : List (ℤ × List ℤ)) (plabels : List (ℤ × String)) (tc : ℕ) :
    ∀ fuel st n level, n ∈ keysOf st.nodes → WInv pc tc st →
      WInv pc tc (walkAux pc plabels tc fuel st n level).1 ∧
      BPost pc n st (walkAux pc plabels tc fuel st n level).1 ∧
      0 ≤ (walkAux pc plabels tc fuel st n level).2 := by
  intro fuel
  induction fuel with
  | zero =>
      intro st n level _ hInv
      exact ⟨hInv, BPost_rfl pc n st, le_refl 0⟩
  | succ fuel ih =>
      intro st n level hn hInv
      simp only [walkAux]
      by_cases hvis : st.visited.contains n = true
      · rw [if_pos hvis]
        exact ⟨hInv, BPost_rfl pc n st, sizeAt_nonneg hInv n⟩
      · rw [if_neg hvis]
        have hnv : n ∉ st.visited := fun hmem => hvis (List.elem_eq_true_of_mem hmem)
        have hInv1 : WInv pc tc (levelStep n level st) := WInv_levelStep n level st hn hInv
        have hP1 : BPost pc n st (levelStep n level st) := BPost_levelStep pc n level st hnv
        cases hcs : childrenOf pc n with
        | nil =>
            dsimp only
            exact ⟨hInv1, hP1, sizeAt_nonneg hInv1 n⟩
        | cons c rest =>
            have hedges : ∀ x ∈ c :: rest, edgeIn pc n x := by
              intro x hx
              show x ∈ childrenOf pc n
              rw [hcs]
              exact hx
            dsimp only
            set q := walkKids (fun s c2 => walkAux pc plabels tc fuel s c2 (level + 1)) n level
              (levelStep n level st) (c :: rest) with hq
            obtain ⟨hInv2, hPost2, htot⟩ := walkKids_basic pc tc
              (fun s c2 => walkAux pc plabels tc fuel s c2 (level + 1)) n level
              (fun st' c2 hc2 hInv' => ih st' c2 (level + 1) hc2 hInv')
              (c :: rest) (levelStep n level st) hedges hInv1
            rw [← hq] at hInv2 hPost2 htot
            have hne : childrenOf pc n ≠ [] := by
              rw [hcs]
              exact List.cons_ne_nil c rest
            have hInv3 : WInv pc tc (sizeStep n q.2 q.1) :=
              WInv_sizeStep n q.2 q.1 htot hInv2
            have hInv4 : WInv pc tc (termsStep tc (c :: rest) n (sizeStep n q.2 q.1)) :=
              WInv_termsStep (c :: rest) n _ hInv3
            have hInv5 : WInv pc tc (labelStep plabels n
                (termsStep tc (c :: rest) n (sizeStep n q.2 q.1))) :=
              WInv_labelStep plabels n _ hInv4
            have hP2 : BPost pc n st q.1 := BPost_trans hP1 hPost2
            have hP3 : BPost pc n st (sizeStep n q.2 q.1) := by
              unfold sizeStep
              split
              · exact BPost_updateSelf _ hnv hP2 (fun nd => rfl) (Or.inl hne)
              · exact hP2
            have hP4 : BPost pc n st (termsStep tc (c :: rest) n (sizeStep n q.2 q.1)) := by
              unfold termsStep
              split
              · exact BPost_updateSelf _ hnv hP3 (fun nd => rfl) (Or.inr (fun nd => rfl))
              · exact hP3
            have hP5 : BPost pc n st (labelStep plabels n
                (termsStep tc (c :: rest) n (sizeStep n q.2 q.1))) := by
              unfold labelStep
              exact BPost_updateSelf _ hnv hP4
                (fun nd => (walkLabel_fields plabels n nd).2.2.1)
                (Or.inr (fun nd => (walkLabel_fields plabels n nd).2.1))
            exact ⟨hInv5, hP5, sizeAt_nonneg hInv5 n⟩

theorem topCountOf_pos (v : PyVal) : 0 < topCountOf v := by
  unfold topCountOf
  cases pyIntCoerce v with
  | none => norm_num
  | some n =>
      dsimp only
      by_cases h : n ≤ 0
      · rw [if_pos h]
        norm_num
      · rw [if_neg h]
        omega

theorem alGet_of_mem_nodup {κ α : Type} [DecidableEq κ] :
    ∀ {m : List (κ × α)}, (m.map Prod.fst).Nodup → ∀ {kv : κ × α}, kv ∈ m →
      alGet m kv.1 = some kv.2 := by
  intro m
  induction m with
  | nil =>
      intro _ kv hkv
      simp at hkv
  | cons ab rest ih =>
      intro hnd kv hkv
      obtain ⟨a, b⟩ := ab
      rw [List.map_cons, List.nodup_cons] at hnd
      rcases List.mem_cons.mp hkv with rfl | h2
      · show alGet ((a, b) :: rest) a = some b
        simp [alGet]
      · have hne : a ≠ kv.1 := by
          intro he
          have hmem : kv.1 ∈ rest.map Prod.fst := List.mem_map_of_mem Prod.fst h2
          rw [← he] at hmem
          exact hnd.1 hmem
        show alGet ((a, b) :: rest) kv.1 = some kv.2
        rw [show alGet ((a, b) :: rest) kv.1 = alGet rest kv.1 from by simp [alGet, hne]]
        exact ih hnd.2 h2

theorem childrenOf_ne_nil_mem {pc : List (ℤ × List ℤ)} {k : ℤ}
    (h : childrenOf pc k ≠ []) : k ∈ pc.map Prod.fst := by
  unfold childrenOf at h
  cases hg : alGet pc k with
  | none =>
      rw [hg] at h
      simp at h
  | some cs => exact alGet_mem_keys hg

theorem leafNodesOf_keys (getTopic : ℤ → List TermPair) (members : List (ℤ × List DocEntry))
    (sacc : SummaryAcc) (tc : ℕ) :
    keysOf (leafNodesOf getTopic members sacc tc) = leafIdsOf sacc members := by
  unfold keysOf leafNodesOf
  rw [List.map_map]
  have h : (Prod.fst ∘ fun tid =>
      (tid, leafNodeOf getTopic members sacc tc tid)) = fun tid : ℤ => tid := rfl
  rw [h]
  exact List.map_id _

theorem leafIdsOf_nodup (sacc : SummaryAcc) (members : List (ℤ × List DocEntry)) :
    (leafIdsOf sacc members).Nodup := by
  unfold leafIdsOf
  refine (stableSort_perm _ _).nodup_iff.mpr ?_
  exact List.Nodup.filter _ (List.nodup_dedup _)

theorem leafNodeOf_size_nonneg (getTopic : ℤ → List TermPair)
    (members : List (ℤ × List DocEntry)) (sacc : SummaryAcc) (tc : ℕ) (tid : ℤ) :
    0 ≤ (leafNodeOf getTopic members sacc tc tid).size := by
  unfold leafNodeOf
  dsimp only
  cases alGet sacc.sizeBy tid with
  | none => exact Int.natCast_nonneg _
  | some x => exact le_trans (Int.natCast_nonneg _) (le_max_right x _)

theorem clearDocs_fields (nd : Node) :
    ((if nd.docs.isEmpty then nd else { nd with docs := [] }) : Node).topicId = nd.topicId ∧
    ((if nd.docs.isEmpty then nd else { nd with docs := [] }) : Node).size = nd.size ∧
    ((if nd.docs.isEmpty then nd else { nd with docs := [] }) : Node).terms = nd.terms := by
  by_cases h : nd.docs.isEmpty
  · rw [if_pos h]
    exact ⟨rfl, rfl, rfl⟩
  · rw [if_neg h]
    exact ⟨rfl, rfl, rfl⟩

theorem clearDocs_docs (nd : Node) :
    ((if nd.docs.isEmpty then nd else { nd with docs := [] }) : Node).docs = [] := by
  by_cases h : nd.docs.isEmpty
  · rw [if_pos h]
    exact List.isEmpty_iff.mp h
  · rw [if_neg h]

theorem epStep_winv (plabels : List (ℤ × String)) (tc : ℕ) (ns : NodeMap) (pr : ℤ × List ℤ)
    (hInv : WInv [] tc ⟨ns, []⟩) : WInv [] tc ⟨epStep plabels ns pr, []⟩ := by
  unfold epStep
  cases hg : alGet ns pr.1 with
  | none =>
      exact WInv_appendStub [] tc ⟨ns, []⟩ pr.1 _ ((alGet_eq_none_iff ns pr.1).mp hg) rfl
        (le_refl 0) rfl ⟨Nat.zero_le tc, List.Pairwise.nil⟩ hInv
  | some w =>
      cases hl : alGet plabels pr.1 with
      | none =>
          exact WInv_update [] tc ⟨ns, []⟩ pr.1 _ (fun nd => (clearDocs_fields nd).1)
            (fun nd h => by
              rw [(clearDocs_fields nd).2.1]
              exact h)
            (fun nd _ _ => clearDocs_docs nd)
            (fun nd h => by
              rw [(clearDocs_fields nd).2.2]
              exact h) hInv
      | some lbl =>
          have h1 : WInv [] tc ⟨alUpdate ns pr.1 (fun nd => { nd with label := lbl }), []⟩ :=
            WInv_update [] tc ⟨ns, []⟩ pr.1 _ (fun nd => rfl) (fun nd h => h)
              (fun nd _ h => h) (fun nd h => h) hInv
          exact WInv_update [] tc ⟨alUpdate ns pr.1 (fun nd => { nd with label := lbl }), []⟩
            pr.1 _ (fun nd => (clearDocs_fields nd).1)
            (fun nd h => by
              rw [(clearDocs_fields nd).2.1]
              exact h)
            (fun nd _ _ => clearDocs_docs nd)
            (fun nd h => by
              rw [(clearDocs_fields nd).2.2]
              exact h) h1

theorem epStep_keys (plabels : List (ℤ × String)) (ns : NodeMap) (pr : ℤ × List ℤ) (k : ℤ)
    (h : k ∈ keysOf (epStep plabels ns pr)) : k ∈ keysOf ns ∨ k = pr.1 := by
  unfold epStep at h
  cases hg : alGet ns pr.1 with
  | none =>
      rw [hg] at h
      unfold keysOf at h
      rw [List.map_append] at h
      rcases List.mem_append.mp h with h2 | h2
      · exact Or.inl h2
      · simp only [List.map_cons, List.map_nil, List.mem_singleton] at h2
        exact Or.inr h2
  | some w =>
      rw [hg] at h
      unfold keysOf at h
      rw [keys_alUpdate] at h
      cases hl : alGet plabels pr.1 with
      | none =>
          rw [hl] at h
          exact Or.inl h
      | some lbl =>
          rw [hl] at h
          rw [keys_alUpdate] at h
          exact Or.inl h

theorem epStep_keys_sup (plabels : List (ℤ × String)) (ns : NodeMap) (pr : ℤ × List ℤ) (k : ℤ)
    (h : k ∈ keysOf ns) : k ∈ keysOf (epStep plabels ns pr) := by
  unfold epStep
  cases hg : alGet ns pr.1 with
  | none =>
      show k ∈ keysOf (ns ++ _)
      unfold keysOf
      rw [List.map_append]
      exact List.mem_append_left _ h
  | some w =>
      show k ∈ keysOf (alUpdate _ pr.1 _)
      unfold keysOf
      rw [keys_alUpdate]
      cases hl : alGet plabels pr.1 with
      | none => exact h
      | some lbl =>
          rw [keys_alUpdate]
          exact h

theorem docsAtN_epStep_self (plabels : List (ℤ × String)) (ns : NodeMap) (pr : ℤ × List ℤ) :
    docsAtN (epStep plabels ns pr) pr.1 = [] := by
  unfold epStep
  cases hg : alGet ns pr.1 with
  | none =>
      dsimp only
      unfold docsAtN
      rw [alGet_append_single, hg]
      simp [stubParentNode]
  | some w =>
      dsimp only
      unfold docsAtN
      cases hl : alGet plabels pr.1 with
      | none =>
          dsimp only
          rw [alGet_alUpdate_self, hg]
          simpa using clearDocs_docs w
      | some lbl =>
          dsimp only
          rw [alGet_alUpdate_self, alGet_alUpdate_self, hg]
          simpa using clearDocs_docs { w with label := lbl }

theorem docsAtN_epStep_pres (plabels : List (ℤ × String)) (ns : NodeMap) (pr : ℤ × List ℤ)
    (k : ℤ) (h : docsAtN ns k = []) : docsAtN (epStep plabels ns pr) k = [] := by
  by_cases hk : k = pr.1
  · rw [hk]
    exact docsAtN_epStep_self plabels ns pr
  · unfold epStep
    cases hg : alGet ns pr.1 with
    | none =>
        dsimp only
        unfold docsAtN
        rw [alGet_append_single]
        cases hg2 : alGet ns k with
        | some w =>
            dsimp only
            unfold docsAtN at h
            rw [hg2] at h
            simpa using h
        | none =>
            dsimp only
            rw [if_neg (fun he => hk he.symm)]
            rfl
    | some w =>
        dsimp only
        unfold docsAtN
        cases hl : alGet plabels pr.1 with
        | none =>
            dsimp only
            rw [alGet_alUpdate_ne _ _ _ _ hk]
            exact h
        | some lbl =>
            dsimp only
            rw [alGet_alUpdate_ne _ _ _ _ hk, alGet_alUpdate_ne _ _ _ _ hk]
            exact h

theorem epFold_winv (plabels : List (ℤ × String)) (tc : ℕ) :
    ∀ (l : List (ℤ × List ℤ)) (ns : NodeMap), WInv [] tc ⟨ns, []⟩ →
      WInv [] tc ⟨l.foldl (epStep plabels) ns, []⟩ := by
  intro l
  induction l with
  | nil => intro ns h; exact h
  | cons pr rest ih =>
      intro ns h
      exact ih (epStep plabels ns pr) (epStep_winv plabels tc ns pr h)

theorem epFold_keys (plabels : List (ℤ × String)) :
    ∀ (l : List (ℤ × List ℤ)) (ns : NodeMap) (k : ℤ),
      k ∈ keysOf (l.foldl (epStep plabels) ns) → k ∈ keysOf ns ∨ k ∈ l.map Prod.fst := by
  intro l
  induction l with
  | nil => intro ns k h; exact Or.inl h
  | cons pr rest ih =>
      intro ns k h
      rcases ih (epStep plabels ns pr) k h with h2 | h2
      · rcases epStep_keys plabels ns pr k h2 with h3 | h3
        · exact Or.inl h3
        · exact Or.inr (h3 ▸ List.mem_map_of_mem Prod.fst (List.mem_cons_self pr rest))
      · exact Or.inr (List.mem_cons_of_mem _ h2)

theorem docsAtN_epFold_pres (plabels : List (ℤ × String)) :
    ∀ (l : List (ℤ × List ℤ)) (ns : NodeMap) (k : ℤ),
      docsAtN ns k = [] → docsAtN (l.foldl (epStep plabels) ns) k = [] := by
  intro l
  induction l with
  | nil => intro ns k h; exact h
  | cons pr rest ih =>
      intro ns k h
      exact ih (epStep plabels ns pr) k (docsAtN_epStep_pres plabels ns pr k h)

theorem docsAtN_epFold_processed (plabels : List (ℤ × String)) :
    ∀ (l : List (ℤ × List ℤ)) (ns : NodeMap) (k : ℤ),
      k ∈ l.map Prod.fst → docsAtN (l.foldl (epStep plabels) ns) k = [] := by
  intro l
  induction l with
  | nil =>
      intro ns k h
      simp at h
  | cons pr rest ih =>
      intro ns k h
      rcases List.mem_map.mp h with ⟨q, hq, hk⟩
      rcases List.mem_cons.mp hq with rfl | h2
      · exact docsAtN_epFold_pres plabels rest (epStep plabels ns q) k
          (hk ▸ docsAtN_epStep_self plabels ns q)
      · exact ih (epStep plabels ns pr) k (hk ▸ List.mem_map_of_mem Prod.fst h2)

theorem leafNodes_winv0 (getTopic : ℤ → List TermPair) (members : List (ℤ × List DocEntry))
    (sacc : SummaryAcc) (tc : ℕ) (htc : 0 < tc) :
    WInv [] tc ⟨leafNodesOf getTopic members sacc tc, []⟩ := by
  constructor
  · intro v hv
    simp at hv
  · show (keysOf (leafNodesOf getTopic members sacc tc)).Nodup
    rw [leafNodesOf_keys]
    exact leafIdsOf_nodup sacc members
  · intro kv hkv
    rcases List.mem_map.mp hkv with ⟨tid, _, rfl⟩
    rfl
  · intro kv hkv
    rcases List.mem_map.mp hkv with ⟨tid, _, rfl⟩
    exact leafNodeOf_size_nonneg getTopic members sacc tc tid
  · intro kv _ hch
    exact absurd rfl hch
  · intro kv hkv
    rcases List.mem_map.mp hkv with ⟨tid, _, rfl⟩
    exact leafNodeOf_terms_wf getTopic members sacc tc htc tid

theorem winv_nil_any (pc : List (ℤ × List ℤ)) (tc : ℕ) (m : NodeMap)
    (h : WInv [] tc ⟨m, []⟩) (hdocs : ∀ kv ∈ m, childrenOf pc kv.1 ≠ [] → Node.docs kv.2 = []) :
    WInv pc tc ⟨m, []⟩ :=
  ⟨h.visSub, h.nodup, h.keyed, h.sizes, hdocs, h.termsWF⟩

theorem st0_winv (getTopic : ℤ → List TermPair) (members : List (ℤ × List DocEntry))
    (sacc : SummaryAcc) (tc : ℕ) (adj : Adj) (htc : 0 < tc) :
    WInv adj.pc tc ⟨ensureParents (leafNodesOf getTopic members sacc tc) adj, []⟩ := by
  have h0 : WInv [] tc ⟨ensureParents (leafNodesOf getTopic members sacc tc) adj, []⟩ := by
    unfold ensureParents
    exact epFold_winv adj.plabels tc adj.pc _
      (leafNodes_winv0 getTopic members sacc tc htc)
  refine winv_nil_any adj.pc tc _ h0 ?_
  intro kv hkv hch
  have hmem : kv.1 ∈ adj.pc.map Prod.fst := childrenOf_ne_nil_mem hch
  have hd : docsAtN (ensureParents (leafNodesOf getTopic members sacc tc) adj) kv.1 = [] := by
    unfold ensureParents
    exact docsAtN_epFold_processed adj.plabels adj.pc _ kv.1 hmem
  have hget : alGet (ensureParents (leafNodesOf getTopic members sacc tc) adj) kv.1 =
      some kv.2 := alGet_of_mem_nodup h0.nodup hkv
  unfold docsAtN at hd
  rw [hget] at hd
  simpa using hd

theorem runRoots_winv_keys (pc : List (ℤ × List ℤ)) (plabels : List (ℤ × String))
    (tc fuel : ℕ) :
    ∀ (roots : List ℤ) (st : WSt), WInv pc tc st →
      WInv pc tc (runRoots pc plabels tc fuel roots st) ∧
      (∀ k ∈ keysOf (runRoots pc plabels tc fuel roots st).nodes,
        k ∈ keysOf st.nodes ∨ ∃ q ∈ pc, k ∈ q.2) := by
  intro roots
  induction roots with
  | nil =>
      intro st hInv
      exact ⟨hInv, fun k hk => Or.inl hk⟩
  | cons r rest ih =>
      intro st hInv
      have hstep : runRoots pc plabels tc fuel (r :: rest) st =
          runRoots pc plabels tc fuel rest
            (if (alGet st.nodes r).isSome then
              (walkAux pc plabels tc fuel
                ⟨alUpdate st.nodes r (fun nd => { nd with parentId := Option.none }),
                  st.visited⟩ r 0).1
            else st) := rfl
      rw [hstep]
      by_cases hs : (alGet st.nodes r).isSome
      · rw [if_pos hs]
        have hInvU : WInv pc tc
            ⟨alUpdate st.nodes r (fun nd => { nd with parentId := Option.none }),
              st.visited⟩ :=
          WInv_update pc tc st r _ (fun nd => rfl) (fun nd h => h) (fun nd _ h => h)
            (fun nd h => h) hInv
        have hrk : r ∈ keysOf
            (alUpdate st.nodes r (fun nd => { nd with parentId := Option.none })) := by
          unfold keysOf
          rw [keys_alUpdate]
          obtain ⟨v, hv⟩ := Option.isSome_iff_exists.mp hs
          exact alGet_mem_keys hv
        obtain ⟨hIw, hBw, _⟩ := walk_basic pc plabels tc fuel
          ⟨alUpdate st.nodes r (fun nd => { nd with parentId := Option.none }), st.visited⟩
          r 0 hrk hInvU
        obtain ⟨hI2, hK2⟩ := ih _ hIw
        refine ⟨hI2, ?_⟩
        intro k hk
        rcases hK2 k hk with h2 | h2
        · rcases hBw.2.2.1 k h2 with h3 | h3
          · left
            show k ∈ keysOf st.nodes
            have h4 : k ∈ keysOf
                (alUpdate st.nodes r (fun nd => { nd with parentId := Option.none })) := h3
            unfold keysOf at h4 ⊢
            rw [keys_alUpdate] at h4
            exact h4
          · exact Or.inr h3
        · exact Or.inr h2
      · rw [if_neg hs]
        exact ih st hInv

theorem fbFold_winv_keys (pc : List (ℤ × List ℤ)) (plabels : List (ℤ × String)) (tc fuel : ℕ) :
    ∀ (ks : List ℤ) (st : WSt), (∀ k ∈ ks, k ∈ keysOf st.nodes) → WInv pc tc st →
      WInv pc tc (ks.foldl (fun st k => if st.visited.contains k then st
        else (walkAux pc plabels tc fuel st k 0).1) st) ∧
      (∀ k ∈ keysOf (ks.foldl (fun st k => if st.visited.contains k then st
          else (walkAux pc plabels tc fuel st k 0).1) st).nodes,
        k ∈ keysOf st.nodes ∨ ∃ q ∈ pc, k ∈ q.2) := by
  intro ks
  induction ks with
  | nil =>
      intro st _ hInv
      exact ⟨hInv, fun k hk => Or.inl hk⟩
  | cons a rest ih =>
      intro st hks hInv
      have hstep : (a :: rest).foldl (fun st k => if st.visited.contains k then st
            else (walkAux pc plabels tc fuel st k 0).1) st =
          rest.foldl (fun st k => if st.visited.contains k then st
            else (walkAux pc plabels tc fuel st k 0).1)
            (if st.visited.contains a then st else (walkAux pc plabels tc fuel st a 0).1) := rfl
      rw [hstep]
      by_cases hv : st.visited.contains a = true
      · rw [if_pos hv]
        exact ih st (fun k hk => hks k (List.mem_cons_of_mem a hk)) hInv
      · rw [if_neg hv]
        obtain ⟨hIw, hBw, _⟩ := walk_basic pc plabels tc fuel st a 0
          (hks a (List.mem_cons_self a rest)) hInv
        obtain ⟨hI2, hK2⟩ := ih (walkAux pc plabels tc fuel st a 0).1
          (fun k hk => hBw.2.1 k (hks k (List.mem_cons_of_mem a hk))) hIw
        refine ⟨hI2, ?_⟩
        intro k hk
        rcases hK2 k hk with h2 | h2
        · exact hBw.2.2.1 k h2
        · exact Or.inr h2

theorem runFallback_winv_keys (pc : List (ℤ × List ℤ)) (plabels : List (ℤ × String))
    (tc fuel : ℕ) (st : WSt) (hInv : WInv pc tc st) :
    WInv pc tc (runFallback pc plabels tc fuel st) ∧
    (∀ k ∈ keysOf (runFallback pc plabels tc fuel st).nodes,
      k ∈ keysOf st.nodes ∨ ∃ q ∈ pc, k ∈ q.2) :=
  fbFold_winv_keys pc plabels tc fuel (st.nodes.map Prod.fst) st (fun k hk => hk) hInv

theorem finalSt_props (inp : BuildInput) (o : BuildOut) (h : buildCore inp = Except.ok o) :
    WInv o.adj.pc o.topCount o.finalSt ∧
    (∀ k ∈ keysOf o.finalSt.nodes,
      k ∈ keysOf (ensureParents o.leafNodes o.adj) ∨ ∃ q ∈ o.adj.pc, k ∈ q.2) := by
  obtain ⟨_, _, _, htc, hleaf, _, hfin, _, _⟩ := buildCore_ok_parts inp o h
  have htcpos : 0 < o.topCount := by
    rw [htc]
    exact topCountOf_pos inp.topTerms
  have h0 : WInv o.adj.pc o.topCount ⟨ensureParents o.leafNodes o.adj, []⟩ := by
    rw [hleaf]
    exact st0_winv inp.getTopic o.members o.sacc o.topCount o.adj htcpos
  rw [hfin]
  by_cases hr : (rootsOf o.adj).isEmpty
  · rw [if_pos hr]
    exact runFallback_winv_keys o.adj.pc o.adj.plabels o.topCount
      (fuelOf (ensureParents o.leafNodes o.adj) o.adj.pc)
      ⟨ensureParents o.leafNodes o.adj, []⟩ h0
  · rw [if_neg hr]
    exact runRoots_winv_keys o.adj.pc o.adj.plabels o.topCount
      (fuelOf (ensureParents o.leafNodes o.adj) o.adj.pc) (rootsOf o.adj)
      ⟨ensureParents o.leafNodes o.adj, []⟩ h0

theorem output_ids_perm (inp : BuildInput) (o : BuildOut) (h : buildCore inp = Except.ok o) :
    (o.topics.map Node.topicId).Perm (keysOf o.finalSt.nodes) := by
  obtain ⟨hw, _⟩ := finalSt_props inp o h
  obtain ⟨_, _, _, _, _, _, _, htop, _⟩ := buildCore_ok_parts inp o h
  have heq : (o.finalSt.nodes.map Prod.snd).map Node.topicId = keysOf o.finalSt.nodes := by
    rw [List.map_map]
    unfold keysOf
    refine List.map_congr_left ?_
    intro kv hkv
    exact hw.keyed kv hkv
  rw [← heq, htop]
  exact (stableSort_perm nodeSortLe (o.finalSt.nodes.map Prod.snd)).map Node.topicId

theorem output_ids_nodup (inp : BuildInput) (o : BuildOut) (h : buildCore inp = Except.ok o) :
    (o.topics.map Node.topicId).Nodup :=
  (output_ids_perm inp o h).nodup_iff.mpr (finalSt_props inp o h).1.nodup

theorem output_terms_wf (inp : BuildInput) (o : BuildOut) (h : buildCore inp = Except.ok o) :
    ∀ nd ∈ o.topics, TermsWF o.topCount nd.terms := by
  obtain ⟨hw, _⟩ := finalSt_props inp o h
  obtain ⟨_, _, _, _, _, _, _, htop, _⟩ := buildCore_ok_parts inp o h
  intro nd hnd
  rw [htop, mem_stableSort] at hnd
  rcases List.mem_map.mp hnd with ⟨kv, hkv, rfl⟩
  exact hw.termsWF kv hkv

theorem mem_pcAllIds_parent : ∀ (pc : List (ℤ × List ℤ)) (q : ℤ × List ℤ), q ∈ pc →
    q.1 ∈ pcAllIds pc := by
  intro pc
  induction pc with
  | nil =>
      intro q hq
      simp at hq
  | cons p rest ih =>
      intro q hq
      show q.1 ∈ p.1 :: p.2 ++ pcAllIds rest
      rcases List.mem_cons.mp hq with rfl | h2
      · exact List.mem_cons_self _ _
      · exact List.mem_cons_of_mem _ (List.mem_append_right _ (ih q h2))

theorem mem_pcAllIds_child : ∀ (pc : List (ℤ × List ℤ)) (q : ℤ × List ℤ), q ∈ pc →
    ∀ c ∈ q.2, c ∈ pcAllIds pc := by
  intro pc
  induction pc with
  | nil =>
      intro q hq
      simp at hq
  | cons p rest ih =>
      intro q hq c hc
      show c ∈ p.1 :: p.2 ++ pcAllIds rest
      rcases List.mem_cons.mp hq with rfl | h2
      · exact List.mem_cons_of_mem _ (List.mem_append_left _ hc)
      · exact List.mem_cons_of_mem _ (List.mem_append_right _ (ih q h2 c hc))

/-- C4 (amended): every output node's term list is bounded by the configured
`top_n_terms` and carries strictly increasing ranks; the aggregated internal
terms and the fallback terms additionally have ranks exactly `1..len`, and the
aggregated terms are sorted by non-increasing score.  Leaf ranks, however,
come from `enumerate` over the raw `get_topic` list, so skipped entries leave
gaps (see the counterexample). -/
theorem c4_terms_amended :
    (∀ inp : BuildInput, (buildCore inp).map
        (fun o => decide (∀ nd ∈ o.topics, TermsWF o.topCount nd.terms)) =
      (buildCore inp).map (fun _ => true)) ∧
    (∀ (nodes : NodeMap) (cs : List ℤ) (tc : ℕ),
      (aggregateTerms nodes cs tc).length ≤ tc ∧
      (aggregateTerms nodes cs tc).map TermEntry.rank =
        List.range' 1 (aggregateTerms nodes cs tc).length ∧
      (aggregateTerms nodes cs tc).Pairwise (fun a b => b.score ≤ a.score)) ∧
    (∀ (label : String) (tc : ℕ),
      (fallbackTerms label tc).map TermEntry.rank =
        List.range' 1 (fallbackTerms label tc).length) := by
  refine ⟨?_, ?_, ?_⟩
  · intro inp
    cases h : buildCore inp with
    | error e => rfl
    | ok o =>
        show Except.ok (decide (∀ nd ∈ o.topics, TermsWF o.topCount nd.terms)) =
          Except.ok true
        rw [decide_eq_true (output_terms_wf inp o h)]
  · intro nodes cs tc
    exact ⟨aggregateTerms_length nodes cs tc, aggregateTerms_ranks nodes cs tc,
      aggregateTerms_sorted nodes cs tc⟩
  · intro label tc
    exact fallbackTerms_ranks label tc

set_option maxRecDepth 100000 in
/-- C8 (amended): every topic id appears exactly once in the output, so the
final structure is a forest with at most one parent per node; but when a child
is listed under two parents, the emitted `parent_id` is the parent whose walk
reached it last, not the first-seen assignment: on the two-parent input, child
0 (listed first under 2, then under 3) ends with `parent_id = 3`. -/
theorem c8_parent_amended :
    (∀ inp : BuildInput, (buildCore inp).map
        (fun o => decide ((o.topics.map Node.topicId).Nodup)) =
      (buildCore inp).map (fun _ => true)) ∧
    ((buildCore c8ExIn).map fun o =>
      o.topics.filterMap fun nd =>
        if nd.topicId = 0 then some nd.parentId else Option.none) =
      Except.ok [some 3] := by
  constructor
  · intro inp
    cases h : buildCore inp with
    | error e => rfl
    | ok o =>
        show Except.ok (decide ((o.topics.map Node.topicId).Nodup)) = Except.ok true
        rw [decide_eq_true (output_ids_nodup inp o h)]
  · decide

/-- C9 (amended): the outlier id `-1` is filtered out of the leaf ids, so a
node with `topic_id = -1` is never built from assignments or summary rows;
but the walk materializes a stub for any merge-table child, so the guarantee
holds exactly when `-1` appears nowhere in the merge adjacency. -/
theorem c9_outlier_amended (inp : BuildInput)
    (hout : ∀ adj, adjacencyOf inp.hierarchyDf (maxDistanceOf inp.hierarchyConf) =
      Except.ok adj → (-1 : ℤ) ∉ pcAllIds adj.pc) :
    (buildCore inp).map (fun o => decide ((-1 : ℤ) ∉ o.topics.map Node.topicId)) =
      (buildCore inp).map (fun _ => true) := by
  cases h : buildCore inp with
  | error e => rfl
  | ok o =>
      show Except.ok (decide ((-1 : ℤ) ∉ o.topics.map Node.topicId)) = Except.ok true
      obtain ⟨_, _, hadj, _, hleaf, _, _, _, _⟩ := buildCore_ok_parts inp o h
      have hno : (-1 : ℤ) ∉ pcAllIds o.adj.pc := hout o.adj hadj
      have hp : (-1 : ℤ) ∉ o.topics.map Node.topicId := by
        intro hmem
        have h1 : (-1 : ℤ) ∈ keysOf o.finalSt.nodes :=
          (output_ids_perm inp o h).mem_iff.mp hmem
        rcases (finalSt_props inp o h).2 (-1) h1 with h2 | h2
        · unfold ensureParents at h2
          rcases epFold_keys o.adj.plabels o.adj.pc o.leafNodes (-1) h2 with h3 | h3
          · rw [hleaf] at h3
            have h4 : (-1 : ℤ) ∈ leafIdsOf o.sacc o.members := by
              rw [← leafNodesOf_keys inp.getTopic o.members o.sacc o.topCount]
              exact h3
            exact ((mem_leafIdsOf o.sacc o.members (-1)).mp h4).1 rfl
          · rcases List.mem_map.mp h3 with ⟨q, hq, hq1⟩
            exact hno (hq1 ▸ mem_pcAllIds_parent o.adj.pc q hq)
        · rcases h2 with ⟨q, hq, hcq⟩
          exact hno (mem_pcAllIds_child o.adj.pc q hq (-1) hcq)
      rw [decide_eq_true hp]

set_option maxRecDepth 100000 in
/-- C9 witness: a merge table over ordinary ids only, where the guarantee
applies and no output node carries the outlier id. -/
theorem c9_witness :
    (∀ adj, adjacencyOf c9WitIn.hierarchyDf (maxDistanceOf c9WitIn.hierarchyConf) =
      Except.ok adj → (-1 : ℤ) ∉ pcAllIds adj.pc) ∧
    (buildCore c9WitIn).map (fun o => decide ((-1 : ℤ) ∉ o.topics.map Node.topicId)) =
      (buildCore c9WitIn).map (fun _ => true) := by
  have hyp : ∀ adj, adjacencyOf c9WitIn.hierarchyDf (maxDistanceOf c9WitIn.hierarchyConf) =
      Except.ok adj → (-1 : ℤ) ∉ pcAllIds adj.pc := by
    intro adj hadj
    have he : (Except.ok ⟨[(5, [2, 3])], [2, 3], []⟩ : Except PyExn Adj) = Except.ok adj := by
      rw [← hadj]
      decide
    injection he with he2
    rw [← he2]
    decide
  exact ⟨hyp, c9_outlier_amended c9WitIn hyp⟩

theorem contains_eq_true_iff (l : List ℤ) (x : ℤ) : l.contains x = true ↔ x ∈ l := by
  constructor
  · exact List.mem_of_elem_eq_true
  · exact List.elem_eq_true_of_mem

theorem contains_eq_false_iff (l : List ℤ) (x : ℤ) : l.contains x = false ↔ x ∉ l := by
  constructor
  · intro h hm
    rw [(contains_eq_true_iff l x).mpr hm] at h
    cases h
  · intro h
    cases hc : l.contains x with
    | false => rfl
    | true => exact absurd ((contains_eq_true_iff l x).mp hc) h

theorem filter_imp_le (p q : ℤ → Bool) (himp : ∀ x, q x = true → p x = true) :
    ∀ (l : List ℤ), (l.filter q).length ≤ (l.filter p).length := by
  intro l
  induction l with
  | nil => simp
  | cons a rest ih =>
      by_cases hq : q a = true
      · rw [List.filter_cons_of_pos hq, List.filter_cons_of_pos (himp a hq)]
        simpa using ih
      · rw [List.filter_cons_of_neg hq]
        by_cases hp : p a = true
        · rw [List.filter_cons_of_pos hp]
          exact le_trans ih (by simp)
        · rw [List.filter_cons_of_neg hp]
          exact ih

theorem unvisitedCount_mono (uU : List ℤ) {st st' : WSt}
    (h : ∀ v ∈ st.visited, v ∈ st'.visited) :
    unvisitedCount uU st' ≤ unvisitedCount uU st := by
  unfold unvisitedCount
  refine filter_imp_le _ _ ?_ uU
  intro x hx
  rw [Bool.not_eq_true'] at hx ⊢
  rw [contains_eq_false_iff] at hx ⊢
  intro hm
  exact hx (h x hm)

theorem filter_unvis_lt :
    ∀ (uU : List ℤ) (vis : List ℤ) (n : ℤ), n ∈ uU → n ∉ vis →
      (uU.filter fun x => !(n :: vis).contains x).length <
      (uU.filter fun x => !vis.contains x).length := by
  intro uU
  induction uU with
  | nil =>
      intro vis n h
      simp at h
  | cons a rest ih =>
      intro vis n hU hn
      have hsub : ∀ x : ℤ, (!(n :: vis).contains x) = true → (!vis.contains x) = true := by
        intro x hx
        rw [Bool.not_eq_true'] at hx ⊢
        rw [contains_eq_false_iff] at hx ⊢
        intro hm
        exact hx (List.mem_cons_of_mem n hm)
      by_cases han : a = n
      · subst han
        have h1 : ¬ ((!(a :: vis).contains a) = true) := by
          rw [Bool.not_eq_true']
          intro h2
          rw [contains_eq_false_iff] at h2
          exact h2 (List.mem_cons_self a vis)
        have h2 : (!vis.contains a) = true := by
          rw [Bool.not_eq_true']
          rw [contains_eq_false_iff]
          exact hn
        rw [List.filter_cons, List.filter_cons, if_neg h1, if_pos h2]
        exact Nat.lt_succ_of_le (filter_imp_le _ _ hsub rest)
      · have hUr : n ∈ rest := by
          rcases List.mem_cons.mp hU with h2 | h2
          · exact absurd h2.symm han
          · exact h2
        have heq : (!(n :: vis).contains a) = (!vis.contains a) := by
          rw [List.contains_cons]
          have hne : (a == n) = false := by
            rw [beq_eq_false_iff_ne]
            exact han
          rw [hne]
          rw [Bool.false_or]
        by_cases hc : (!vis.contains a) = true
        · rw [List.filter_cons, List.filter_cons, if_pos hc, if_pos (heq.trans hc)]
          simp only [List.length_cons]
          exact Nat.succ_lt_succ (ih vis n hUr hn)
        · rw [List.filter_cons, List.filter_cons, if_neg hc,
            if_neg (fun h2 => hc (heq ▸ h2))]
          exact ih vis n hUr hn

theorem unvisitedCount_insert (uU : List ℤ) (st : WSt) (m : NodeMap) (n : ℤ)
    (hU : n ∈ uU) (hn : n ∉ st.visited) :
    unvisitedCount uU ⟨m, n :: st.visited⟩ < unvisitedCount uU st := by
  unfold unvisitedCount
  exact filter_unvis_lt uU st.visited n hU hn

theorem unvisitedCount_congr (uU : List ℤ) {st st' : WSt} (h : st'.visited = st.visited) :
    unvisitedCount uU st' = unvisitedCount uU st := by
  unfold unvisitedCount
  rw [h]

theorem sizeAt_congr_core {st st' : WSt} {v : ℤ}
    (h : (alGet st'.nodes v).map coreOf = (alGet st.nodes v).map coreOf) :
    sizeAt st' v = sizeAt st v := by
  rw [sizeAt_eq, sizeAt_eq]
  cases hg : alGet st.nodes v with
  | none =>
      rw [hg] at h
      cases hg2 : alGet st'.nodes v with
      | none => rfl
      | some w =>
          rw [hg2] at h
          simp at h
  | some w =>
      rw [hg] at h
      cases hg2 : alGet st'.nodes v with
      | none =>
          rw [hg2] at h
          simp at h
      | some w2 =>
          rw [hg2] at h
          simp only [Option.map_some'] at h
          injection h with h2
          unfold coreOf at h2
          injection h2 with h3 h4

theorem sizeAt_wst_update (m : NodeMap) (vis : List ℤ) (j : ℤ) (f : Node → Node)
    (hf : ∀ nd, (f nd).size = nd.size) (k : ℤ) :
    sizeAt ⟨alUpdate m j f, vis⟩ k = sizeAt ⟨m, vis⟩ k := by
  rw [sizeAt_eq, sizeAt_eq]
  show (Option.map Node.size (alGet (alUpdate m j f) k)).getD 0 =
    (Option.map Node.size (alGet m k)).getD 0
  rw [alGet_alUpdate_proj m j k f Node.size hf]

theorem sizeAt_wst_update_ne (m : NodeMap) (vis : List ℤ) (j : ℤ) (f : Node → Node) (k : ℤ)
    (hk : k ≠ j) : sizeAt ⟨alUpdate m j f, vis⟩ k = sizeAt ⟨m, vis⟩ k := by
  rw [sizeAt_eq, sizeAt_eq]
  show (Option.map Node.size (alGet (alUpdate m j f) k)).getD 0 =
    (Option.map Node.size (alGet m k)).getD 0
  rw [alGet_alUpdate_ne m j k f hk]

theorem sizeAt_wst_append (m : NodeMap) (vis : List ℤ) (c : ℤ) (nd : Node)
    (hnd : nd.size = 0) (k : ℤ) : sizeAt ⟨m ++ [(c, nd)], vis⟩ k = sizeAt ⟨m, vis⟩ k := by
  rw [sizeAt_eq, sizeAt_eq]
  show (Option.map Node.size (alGet (m ++ [(c, nd)]) k)).getD 0 =
    (Option.map Node.size (alGet m k)).getD 0
  rw [alGet_append_single]
  cases hg : alGet m k with
  | some w => rfl
  | none =>
      dsimp only
      by_cases hck : c = k
      · rw [if_pos hck]
        simp [hnd]
      · rw [if_neg hck]

theorem sizeAt_levelStep (n : ℤ) (level : ℕ) (st : WSt) (k : ℤ) :
    sizeAt (levelStep n level st) k = sizeAt st k := by
  show sizeAt ⟨alUpdate st.nodes n (fun nd => { nd with level := level }),
    n :: st.visited⟩ k = sizeAt st k
  exact sizeAt_wst_update st.nodes (n :: st.visited) n
    (fun nd => { nd with level := level }) (fun nd => rfl) k

theorem sizeAt_ensureChild (st : WSt) (c n : ℤ) (level : ℕ) (k : ℤ) :
    sizeAt (ensureChild st c n level) k = sizeAt st k := by
  unfold ensureChild
  cases hg : alGet st.nodes c with
  | none =>
      show sizeAt ⟨st.nodes ++ [(c, stubChildNode c n (level + 1))], st.visited⟩ k = sizeAt st k
      exact sizeAt_wst_append st.nodes st.visited c _ rfl k
  | some w =>
      show sizeAt ⟨alUpdate st.nodes c (fun nd => { nd with parentId := some n }),
        st.visited⟩ k = sizeAt st k
      exact sizeAt_wst_update st.nodes st.visited c
        (fun nd => { nd with parentId := some n }) (fun nd => rfl) k

theorem ensureChild_visited (st : WSt) (c n : ℤ) (level : ℕ) :
    (ensureChild st c n level).visited = st.visited := by
  unfold ensureChild
  cases alGet st.nodes c <;> rfl

theorem visited_sizeStep (n : ℤ) (t : ℤ) (st : WSt) : (sizeStep n t st).visited = st.visited := by
  unfold sizeStep
  split <;> rfl

theorem visited_termsStep (tc : ℕ) (cs : List ℤ) (n : ℤ) (st : WSt) :
    (termsStep tc cs n st).visited = st.visited := by
  unfold termsStep
  split <;> rfl

theorem visited_labelStep (plabels : List (ℤ × String)) (n : ℤ) (st : WSt) :
    (labelStep plabels n st).visited = st.visited := rfl

theorem sizeAt_sizeStep_ne (n : ℤ) (t : ℤ) (st : WSt) (k : ℤ) (hk : k ≠ n) :
    sizeAt (sizeStep n t st) k = sizeAt st k := by
  unfold sizeStep
  split
  · show sizeAt ⟨alUpdate st.nodes n (fun nd => { nd with size := t }), st.visited⟩ k =
      sizeAt st k
    exact sizeAt_wst_update_ne st.nodes st.visited n
      (fun nd => { nd with size := t }) k hk
  · rfl

theorem sizeAt_termsStep (tc : ℕ) (cs : List ℤ) (n : ℤ) (st : WSt) (k : ℤ) :
    sizeAt (termsStep tc cs n st) k = sizeAt st k := by
  unfold termsStep
  split
  · show sizeAt ⟨alUpdate st.nodes n (fun nd => { nd with
      terms := aggregateTerms st.nodes cs tc }), st.visited⟩ k = sizeAt st k
    exact sizeAt_wst_update st.nodes st.visited n
      (fun nd => { nd with terms := aggregateTerms st.nodes cs tc }) (fun nd => rfl) k
  · rfl

theorem sizeAt_labelStep (plabels : List (ℤ × String)) (n : ℤ) (st : WSt) (k : ℤ) :
    sizeAt (labelStep plabels n st) k = sizeAt st k := by
  unfold labelStep
  show sizeAt ⟨alUpdate st.nodes n (walkLabel plabels n), st.visited⟩ k = sizeAt st k
  exact sizeAt_wst_update st.nodes st.visited n (walkLabel plabels n)
    (fun nd => (walkLabel_fields plabels n nd).2.1) k

theorem DoneAt_shift {pc : List (ℤ × List ℤ)} {st st' : WSt} {v : ℤ}
    (hvis : ∀ x ∈ st.visited, x ∈ st'.visited)
    (hv : sizeAt st' v = sizeAt st v)
    (hcs : ∀ c ∈ childrenOf pc v, sizeAt st' c = sizeAt st c)
    (hd : DoneAt pc st v) : DoneAt pc st' v := by
  refine ⟨fun c hc => hvis c (hd.1 c hc), fun hne => ?_⟩
  rw [hv, hd.2 hne]
  unfold sumSizes
  congr 1
  refine List.map_congr_left ?_
  intro c hc
  exact (hcs c hc).symm

theorem DoneAt_bpost {pc : List (ℤ × List ℤ)} {n : ℤ} {st st' : WSt} {v : ℤ}
    (h : BPost pc n st st') (hv : v ∈ st.visited) (hd : DoneAt pc st v) :
    DoneAt pc st' v := by
  refine DoneAt_shift h.1 ?_ ?_ hd
  · exact sizeAt_congr_core (h.2.2.2.1 v hv)
  · intro c hc
    exact sizeAt_congr_core (h.2.2.2.1 c (hd.1 c hc))

theorem sumSizes_nonneg {pc : List (ℤ × List ℤ)} {tc : ℕ} {st : WSt} (hInv : WInv pc tc st)
    (cs : List ℤ) : 0 ≤ sumSizes st cs := by
  unfold sumSizes
  refine List.sum_nonneg ?_
  intro x hx
  rcases List.mem_map.mp hx with ⟨c, _, rfl⟩
  exact sizeAt_nonneg hInv c

theorem walkKids_done (pc : List (ℤ × List ℤ)) (tc : ℕ) (uU : List ℤ) (fuel : ℕ)
    (wa : WSt → ℤ → WSt × ℤ) (n : ℤ) (level : ℕ) (S' : List ℤ)
    (hacyc : Acyclic pc) (hclosed : ∀ a b, edgeIn pc a b → b ∈ uU)
    (hS' : ∀ s ∈ S', Reach pc s n)
    (hwa : ∀ (st : WSt) (c : ℤ), unvisitedCount uU st < fuel → c ∈ uU → c ∉ S' →
      (∀ s ∈ S', Reach pc s c) → c ∈ keysOf st.nodes → WInv pc tc st →
      (∀ v ∈ st.visited, v ∈ S' ∨ DoneAt pc st v) →
      c ∈ (wa st c).1.visited ∧
      (wa st c).2 = sizeAt (wa st c).1 c ∧
      (∀ v ∈ (wa st c).1.visited, v ∈ S' ∨ DoneAt pc (wa st c).1 v))
    (hwb : ∀ (st : WSt) (c : ℤ), c ∈ keysOf st.nodes → WInv pc tc st →
      WInv pc tc (wa st c).1 ∧ BPost pc c st (wa st c).1 ∧ 0 ≤ (wa st c).2) :
    ∀ (cs : List ℤ) (stk : WSt), (∀ c ∈ cs, edgeIn pc n c) →
      unvisitedCount uU stk < fuel →
      WInv pc tc stk →
      (∀ v ∈ stk.visited, v ∈ S' ∨ DoneAt pc stk v) →
      WInv pc tc (walkKids wa n level stk cs).1 ∧
      BPost pc n stk (walkKids wa n level stk cs).1 ∧
      (∀ v ∈ (walkKids wa n level stk cs).1.visited,
        v ∈ S' ∨ DoneAt pc (walkKids wa n level stk cs).1 v) ∧
      (∀ c ∈ cs, c ∈ (walkKids wa n level stk cs).1.visited) ∧
      (walkKids wa n level stk cs).2 = sumSizes (walkKids wa n level stk cs).1 cs := by
  intro cs
  induction cs with
  | nil =>
      intro stk _ _ hInv hPart
      refine ⟨hInv, BPost_rfl pc n stk, hPart, ?_, rfl⟩
      intro c hc
      simp at hc
  | cons c rest ih =>
      intro stk hcs hcount hInv hPart
      have hedge : edgeIn pc n c := hcs c (List.mem_cons_self c rest)
      obtain ⟨hInvE, hPostE, hcE⟩ := ensureChild_props pc tc stk c n level hedge hInv
      have hcountE : unvisitedCount uU (ensureChild stk c n level) < fuel := by
        rw [unvisitedCount_congr uU (ensureChild_visited stk c n level)]
        exact hcount
      have hcU : c ∈ uU := hclosed n c hedge
      have hcS : c ∉ S' := by
        intro hmem
        exact hacyc n c hedge (hS' c hmem)
      have hSreach : ∀ s ∈ S', Reach pc s c :=
        fun s hs => Relation.ReflTransGen.tail (hS' s hs) hedge
      have hPartE : ∀ v ∈ (ensureChild stk c n level).visited,
          v ∈ S' ∨ DoneAt pc (ensureChild stk c n level) v := by
        intro v hv
        rw [ensureChild_visited stk c n level] at hv
        rcases hPart v hv with h | h
        · exact Or.inl h
        · refine Or.inr (DoneAt_shift ?_ (sizeAt_ensureChild stk c n level v)
            (fun x _ => sizeAt_ensureChild stk c n level x) h)
          intro x hx
          rw [ensureChild_visited stk c n level]
          exact hx
      obtain ⟨hInvC, hPostC, hszC⟩ := hwb (ensureChild stk c n level) c hcE hInvE
      obtain ⟨hcVisC, hRetC, hPartC⟩ := hwa (ensureChild stk c n level) c hcountE hcU hcS
        hSreach hcE hInvE hPartE
      have hcountR : unvisitedCount uU (wa (ensureChild stk c n level) c).1 < fuel :=
        lt_of_le_of_lt (le_trans (unvisitedCount_mono uU hPostC.1)
          (le_of_eq (unvisitedCount_congr uU (ensureChild_visited stk c n level)))) hcount
      obtain ⟨hInvR, hPostR, hPartR, hVisR, hSumR⟩ := ih (wa (ensureChild stk c n level) c).1
        (fun x hx => hcs x (List.mem_cons_of_mem c hx)) hcountR hInvC hPartC
      simp only [walkKids]
      cases hw1 : wa (ensureChild stk c n level) c with
      | mk st2 csize =>
          rw [hw1] at hInvC hPostC hszC hcVisC hRetC hPartC hInvR hPostR hPartR hVisR hSumR
          cases hw2 : walkKids wa n level st2 rest with
          | mk st3 trest =>
              rw [hw2] at hInvR hPostR hPartR hVisR hSumR
              dsimp only
              dsimp only at hInvC hPostC hszC hcVisC hRetC hPartC
              dsimp only at hInvR hPostR hPartR hVisR hSumR
              have hP : BPost pc n stk st3 :=
                BPost_trans (BPost_trans hPostE (BPost_retarget hPostC hedge)) hPostR
              refine ⟨hInvR, hP, hPartR, ?_, ?_⟩
              · intro x hx
                rcases List.mem_cons.mp hx with rfl | h2
                · exact hPostR.1 x hcVisC
                · exact hVisR x h2
              · have hmax : max csize 0 = csize := max_eq_left hszC
                have hfrz : sizeAt st3 c = sizeAt st2 c :=
                  sizeAt_congr_core (hPostR.2.2.2.1 c hcVisC)
                rw [hmax, hRetC, hSumR]
                show sizeAt st2 c + sumSizes st3 rest = sumSizes st3 (c :: rest)
                rw [← hfrz]
                unfold sumSizes
                rw [List.map_cons, List.sum_cons]

theorem walk_done (pc : List (ℤ × List ℤ)) (plabels : List (ℤ × String)) (tc : ℕ)
    (uU : List ℤ) (hacyc : Acyclic pc) (hclosed : ∀ a b, edgeIn pc a b → b ∈ uU) :
    ∀ (fuel : ℕ) (st : WSt) (n : ℤ) (level : ℕ) (S : List ℤ),
      unvisitedCount uU st < fuel → n ∈ uU → n ∉ S → (∀ s ∈ S, Reach pc s n) →
      n ∈ keysOf st.nodes → WInv pc tc st →
      (∀ v ∈ st.visited, v ∈ S ∨ DoneAt pc st v) →
      n ∈ (walkAux pc plabels tc fuel st n level).1.visited ∧
      (walkAux pc plabels tc fuel st n level).2 =
        sizeAt (walkAux pc plabels tc fuel st n level).1 n ∧
      (∀ v ∈ (walkAux pc plabels tc fuel st n level).1.visited,
        v ∈ S ∨ DoneAt pc (walkAux pc plabels tc fuel st n level).1 v) := by
  intro fuel
  induction fuel with
  | zero =>
      intro st n level S hcount
      exact absurd hcount (Nat.not_lt_zero _)
  | succ fuel ihf =>
      intro st n level S hcount hU hnS hS hkeys hInv hPart
      simp only [walkAux]
      by_cases hvis : st.visited.contains n = true
      · rw [if_pos hvis]
        exact ⟨(contains_eq_true_iff _ n).mp hvis, rfl, hPart⟩
      · rw [if_neg hvis]
        have hnv : n ∉ st.visited := fun hm => hvis ((contains_eq_true_iff _ n).mpr hm)
        have hInv1 : WInv pc tc (levelStep n level st) := WInv_levelStep n level st hkeys hInv
        have hP1 : BPost pc n st (levelStep n level st) := BPost_levelStep pc n level st hnv
        have hcount1 : unvisitedCount uU (levelStep n level st) < fuel := by
          have h2 : unvisitedCount uU (levelStep n level st) < unvisitedCount uU st :=
            unvisitedCount_insert uU st _ n hU hnv
          omega
        have hPart1 : ∀ v ∈ (levelStep n level st).visited,
            v ∈ n :: S ∨ DoneAt pc (levelStep n level st) v := by
          intro v hv
          rcases List.mem_cons.mp hv with rfl | h2
          · exact Or.inl (List.mem_cons_self v S)
          · rcases hPart v h2 with h | h
            · exact Or.inl (List.mem_cons_of_mem n h)
            · refine Or.inr (DoneAt_shift ?_ (sizeAt_levelStep n level st v)
                (fun x _ => sizeAt_levelStep n level st x) h)
              intro x hx
              exact List.mem_cons_of_mem n hx
        cases hcs : childrenOf pc n with
        | nil =>
            dsimp only
            refine ⟨List.mem_cons_self n st.visited, rfl, ?_⟩
            intro v hv
            rcases List.mem_cons.mp hv with rfl | h2
            · refine Or.inr ⟨?_, ?_⟩
              · intro cc hcc
                rw [hcs] at hcc
                simp at hcc
              · intro hne
                exact absurd hcs hne
            · rcases hPart v h2 with h | h
              · exact Or.inl h
              · exact Or.inr (DoneAt_shift (fun x hx => List.mem_cons_of_mem n hx)
                  (sizeAt_levelStep n level st v) (fun x _ => sizeAt_levelStep n level st x) h)
        | cons c rest =>
            dsimp only
            have hedges : ∀ x ∈ c :: rest, edgeIn pc n x := by
              intro x hx
              show x ∈ childrenOf pc n
              rw [hcs]
              exact hx
            have hS1 : ∀ s ∈ n :: S, Reach pc s n := by
              intro s hs
              rcases List.mem_cons.mp hs with rfl | h2
              · exact Relation.ReflTransGen.refl
              · exact hS s h2
            set q := walkKids (fun s c2 => walkAux pc plabels tc fuel s c2 (level + 1)) n level
              (levelStep n level st) (c :: rest) with hq
            obtain ⟨hInv2, hPost2, hPart2, hVis2, hSum2⟩ := walkKids_done pc tc uU fuel
              (fun s c2 => walkAux pc plabels tc fuel s c2 (level + 1)) n level (n :: S)
              hacyc hclosed hS1
              (fun st2 c2 hcnt hc2U hc2S hreach hc2k hInv2 hPart2 =>
                ihf st2 c2 (level + 1) (n :: S) hcnt hc2U hc2S hreach hc2k hInv2 hPart2)
              (fun st2 c2 hc2k hInv2 => walk_basic pc plabels tc fuel st2 c2 (level + 1)
                hc2k hInv2)
              (c :: rest) (levelStep n level st) hedges hcount1 hInv1 hPart1
            rw [← hq] at hInv2 hPost2 hPart2 hVis2 hSum2
            have hvq : (labelStep plabels n (termsStep tc (c :: rest) n
                (sizeStep n q.2 q.1))).visited = q.1.visited := by
              rw [visited_labelStep, visited_termsStep, visited_sizeStep]
            have hnvis2 : n ∈ q.1.visited := hPost2.1 n (List.mem_cons_self n st.visited)
            have hPfull : BPost pc n st q.1 := BPost_trans hP1 hPost2
            have hkeys1 : n ∈ keysOf (levelStep n level st).nodes := by
              show n ∈ keysOf (alUpdate st.nodes n (fun nd => { nd with level := level }))
              unfold keysOf
              rw [keys_alUpdate]
              exact hkeys
            have hkeys2 : n ∈ keysOf q.1.nodes := hPost2.2.1 n hkeys1
            obtain ⟨w, hw⟩ := alGet_some_of_mem_keys hkeys2
            have hwmem : (n, w) ∈ q.1.nodes := alGet_mem_pair _ _ _ hw
            have hwdocs : w.docs = [] := hInv2.docsCleared (n, w) hwmem (by
              show childrenOf pc n ≠ []
              rw [hcs]
              exact List.cons_ne_nil c rest)
            have hde : docsEmptyAt q.1 n = true := by
              unfold docsEmptyAt
              rw [hw]
              dsimp only
              rw [hwdocs]
              rfl
            have hs3 : sizeAt (sizeStep n q.2 q.1) n = q.2 := by
              unfold sizeStep
              rw [if_pos hde, sizeAt_eq]
              show (Option.map Node.size
                (alGet (alUpdate q.1.nodes n (fun nd => { nd with size := q.2 })) n)).getD 0
                = q.2
              rw [alGet_alUpdate_self, hw]
              rfl
            have hs5 : sizeAt (labelStep plabels n (termsStep tc (c :: rest) n
                (sizeStep n q.2 q.1))) n = q.2 := by
              rw [sizeAt_labelStep, sizeAt_termsStep, hs3]
            have hxn : ∀ x ∈ c :: rest, x ≠ n := by
              intro x hx he
              subst he
              exact hacyc x x (hedges x hx) Relation.ReflTransGen.refl
            have hsum5 : sumSizes (labelStep plabels n (termsStep tc (c :: rest) n
                (sizeStep n q.2 q.1))) (c :: rest) = sumSizes q.1 (c :: rest) := by
              unfold sumSizes
              congr 1
              refine List.map_congr_left ?_
              intro x hx
              rw [sizeAt_labelStep, sizeAt_termsStep, sizeAt_sizeStep_ne _ _ _ _ (hxn x hx)]
            refine ⟨?_, rfl, ?_⟩
            · rw [hvq]
              exact hnvis2
            · intro v hv
              rw [hvq] at hv
              by_cases hvn : v = n
              · subst hvn
                refine Or.inr ⟨?_, ?_⟩
                · intro cc hcc
                  rw [hvq]
                  rw [hcs] at hcc
                  exact hVis2 cc hcc
                · intro _
                  rw [hcs, hs5, hsum5]
                  exact hSum2
              · rcases hPart2 v hv with h | h
                · rcases List.mem_cons.mp h with rfl | h2
                  · exact absurd rfl hvn
                  · exact Or.inl h2
                · by_cases hvS : v ∈ S
                  · exact Or.inl hvS
                  · have hnc : n ∉ childrenOf pc v := by
                      intro hncm
                      by_cases hvst : v ∈ st.visited
                      · rcases hPart v hvst with h2 | h2
                        · exact hvS h2
                        · exact hnv (h2.1 n hncm)
                      · have hreach : Reach pc n v := hPfull.2.2.2.2.2.2 v hv hvst
                        exact hacyc v n hncm hreach
                    refine Or.inr (DoneAt_shift ?_ ?_ ?_ h)
                    · intro x hx
                      rw [hvq]
                      exact hx
                    · rw [sizeAt_labelStep, sizeAt_termsStep,
                        sizeAt_sizeStep_ne _ _ _ _ hvn]
                    · intro x hx
                      have hxne : x ≠ n := by
                        intro he
                        subst he
                        exact hnc hx
                      rw [sizeAt_labelStep, sizeAt_termsStep,
                        sizeAt_sizeStep_ne _ _ _ _ hxne]

theorem rootsOf_parents (adj : Adj) : ∀ r ∈ rootsOf adj, r ∈ adj.pc.map Prod.fst := by
  intro r hr
  unfold rootsOf at hr
  dsimp only at hr
  split at hr
  · rename_i hcond
    rcases List.mem_singleton.mp hr with rfl
    exact maxOfList_mem _ hcond.2
  · exact (List.mem_filter.mp hr).1

theorem unvisitedCount_le_length (uU : List ℤ) (st : WSt) :
    unvisitedCount uU st ≤ uU.length := by
  unfold unvisitedCount
  exact List.length_filter_le _ _

theorem runRoots_done (pc : List (ℤ × List ℤ)) (plabels : List (ℤ × String)) (tc fuel : ℕ)
    (uU : List ℤ) (hacyc : Acyclic pc) (hclosed : ∀ a b, edgeIn pc a b → b ∈ uU) :
    ∀ (roots : List ℤ) (st : WSt), (∀ r ∈ roots, r ∈ uU) →
      unvisitedCount uU st < fuel → WInv pc tc st →
      (∀ v ∈ st.visited, DoneAt pc st v) →
      WInv pc tc (runRoots pc plabels tc fuel roots st) ∧
      (∀ v ∈ (runRoots pc plabels tc fuel roots st).visited,
        DoneAt pc (runRoots pc plabels tc fuel roots st) v) ∧
      (∀ k, childrenOf pc k = [] →
        sizeAt (runRoots pc plabels tc fuel roots st) k = sizeAt st k) ∧
      unvisitedCount uU (runRoots pc plabels tc fuel roots st) ≤ unvisitedCount uU st := by
  intro roots
  induction roots with
  | nil =>
      intro st _ _ hInv hDone
      exact ⟨hInv, hDone, fun k _ => rfl, le_refl _⟩
  | cons r rest ih =>
      intro st hroots hcount hInv hDone
      have hstep : runRoots pc plabels tc fuel (r :: rest) st =
          runRoots pc plabels tc fuel rest
            (if (alGet st.nodes r).isSome then
              (walkAux pc plabels tc fuel
                ⟨alUpdate st.nodes r (fun nd => { nd with parentId := Option.none }),
                  st.visited⟩ r 0).1
            else st) := rfl
      rw [hstep]
      by_cases hs : (alGet st.nodes r).isSome
      · rw [if_pos hs]
        set stU : WSt :=
          ⟨alUpdate st.nodes r (fun nd => { nd with parentId := Option.none }),
            st.visited⟩ with hstU
        have hInvU : WInv pc tc stU :=
          WInv_update pc tc st r _ (fun nd => rfl) (fun nd h => h) (fun nd _ h => h)
            (fun nd h => h) hInv
        have hrk : r ∈ keysOf stU.nodes := by
          show r ∈ keysOf (alUpdate st.nodes r (fun nd => { nd with parentId := Option.none }))
          unfold keysOf
          rw [keys_alUpdate]
          obtain ⟨v, hv⟩ := Option.isSome_iff_exists.mp hs
          exact alGet_mem_keys hv
        have hszU : ∀ k, sizeAt stU k = sizeAt st k := fun k =>
          sizeAt_wst_update st.nodes st.visited r
            (fun nd => { nd with parentId := Option.none }) (fun nd => rfl) k
        have hcountU : unvisitedCount uU stU = unvisitedCount uU st :=
          unvisitedCount_congr uU rfl
        have hDoneU : ∀ v ∈ stU.visited, DoneAt pc stU v := by
          intro v hv
          exact @DoneAt_shift pc st stU v (fun x hx => hx) (hszU v) (fun x _ => hszU x)
            (hDone v hv)
        obtain ⟨hIw, hBw, _⟩ := walk_basic pc plabels tc fuel stU r 0 hrk hInvU
        obtain ⟨_, _, hPartW⟩ := walk_done pc plabels tc uU hacyc hclosed fuel stU r 0 []
          (by rw [hcountU]; exact hcount) (hroots r (List.mem_cons_self r rest))
          (by simp) (by simp) hrk hInvU (fun v hv => Or.inr (hDoneU v hv))
        have hDoneW : ∀ v ∈ (walkAux pc plabels tc fuel stU r 0).1.visited,
            DoneAt pc (walkAux pc plabels tc fuel stU r 0).1 v := by
          intro v hv
          rcases hPartW v hv with h | h
          · simp at h
          · exact h
        have hcountW : unvisitedCount uU (walkAux pc plabels tc fuel stU r 0).1 ≤
            unvisitedCount uU st := by
          rw [← hcountU]
          exact unvisitedCount_mono uU hBw.1
        obtain ⟨hI2, hD2, hF2, hC2⟩ := ih (walkAux pc plabels tc fuel stU r 0).1
          (fun x hx => hroots x (List.mem_cons_of_mem r hx))
          (lt_of_le_of_lt hcountW hcount) hIw hDoneW
        refine ⟨hI2, hD2, ?_, le_trans hC2 hcountW⟩
        intro k hk
        rw [hF2 k hk, hBw.2.2.2.2.2.1 k hk]
        exact hszU k
      · rw [if_neg hs]
        exact ih st (fun x hx => hroots x (List.mem_cons_of_mem r hx)) hcount hInv hDone

theorem fbFold_done (pc : List (ℤ × List ℤ)) (plabels : List (ℤ × String)) (tc fuel : ℕ)
    (uU : List ℤ) (hacyc : Acyclic pc) (hclosed : ∀ a b, edgeIn pc a b → b ∈ uU) :
    ∀ (ks : List ℤ) (st : WSt), (∀ k ∈ ks, k ∈ uU) → (∀ k ∈ ks, k ∈ keysOf st.nodes) →
      unvisitedCount uU st < fuel → WInv pc tc st →
      (∀ v ∈ st.visited, DoneAt pc st v) →
      WInv pc tc (ks.foldl (fun st k => if st.visited.contains k then st
        else (walkAux pc plabels tc fuel st k 0).1) st) ∧
      (∀ v ∈ (ks.foldl (fun st k => if st.visited.contains k then st
          else (walkAux pc plabels tc fuel st k 0).1) st).visited,
        DoneAt pc (ks.foldl (fun st k => if st.visited.contains k then st
          else (walkAux pc plabels tc fuel st k 0).1) st) v) ∧
      (∀ k, childrenOf pc k = [] →
        sizeAt (ks.foldl (fun st k => if st.visited.contains k then st
          else (walkAux pc plabels tc fuel st k 0).1) st) k = sizeAt st k) ∧
      unvisitedCount uU (ks.foldl (fun st k => if st.visited.contains k then st
        else (walkAux pc plabels tc fuel st k 0).1) st) ≤ unvisitedCount uU st := by
  intro ks
  induction ks with
  | nil =>
      intro st _ _ _ hInv hDone
      exact ⟨hInv, hDone, fun k _ => rfl, le_refl _⟩
  | cons a rest ih =>
      intro st hU hkeys hcount hInv hDone
      have hstep : (a :: rest).foldl (fun st k => if st.visited.contains k then st
            else (walkAux pc plabels tc fuel st k 0).1) st =
          rest.foldl (fun st k => if st.visited.contains k then st
            else (walkAux pc plabels tc fuel st k 0).1)
            (if st.visited.contains a then st else (walkAux pc plabels tc fuel st a 0).1) := rfl
      rw [hstep]
      by_cases hv : st.visited.contains a = true
      · rw [if_pos hv]
        exact ih st (fun x hx => hU x (List.mem_cons_of_mem a hx))
          (fun x hx => hkeys x (List.mem_cons_of_mem a hx)) hcount hInv hDone
      · rw [if_neg hv]
        obtain ⟨hIw, hBw, _⟩ := walk_basic pc plabels tc fuel st a 0
          (hkeys a (List.mem_cons_self a rest)) hInv
        obtain ⟨_, _, hPartW⟩ := walk_done pc plabels tc uU hacyc hclosed fuel st a 0 []
          hcount (hU a (List.mem_cons_self a rest)) (by simp) (by simp)
          (hkeys a (List.mem_cons_self a rest)) hInv (fun v hv2 => Or.inr (hDone v hv2))
        have hDoneW : ∀ v ∈ (walkAux pc plabels tc fuel st a 0).1.visited,
            DoneAt pc (walkAux pc plabels tc fuel st a 0).1 v := by
          intro v hv2
          rcases hPartW v hv2 with h | h
          · simp at h
          · exact h
        have hcountW : unvisitedCount uU (walkAux pc plabels tc fuel st a 0).1 ≤
            unvisitedCount uU st := unvisitedCount_mono uU hBw.1
        obtain ⟨hI2, hD2, hF2, hC2⟩ := ih (walkAux pc plabels tc fuel st a 0).1
          (fun x hx => hU x (List.mem_cons_of_mem a hx))
          (fun x hx => hBw.2.1 x (hkeys x (List.mem_cons_of_mem a hx)))
          (lt_of_le_of_lt hcountW hcount) hIw hDoneW
        refine ⟨hI2, hD2, ?_, le_trans hC2 hcountW⟩
        intro k hk
        rw [hF2 k hk, hBw.2.2.2.2.2.1 k hk]

theorem finalSt_done (inp : BuildInput) (o : BuildOut) (hok : buildCore inp = Except.ok o)
    (hacyc : Acyclic o.adj.pc) :
    (∀ v ∈ o.finalSt.visited, DoneAt o.adj.pc o.finalSt v) ∧
    (∀ k, childrenOf o.adj.pc k = [] →
      sizeAt o.finalSt k = sizeAt ⟨ensureParents o.leafNodes o.adj, []⟩ k) := by
  obtain ⟨_, _, _, htc, hleaf, _, hfin, _, _⟩ := buildCore_ok_parts inp o hok
  have htcpos : 0 < o.topCount := by
    rw [htc]
    exact topCountOf_pos inp.topTerms
  have h0 : WInv o.adj.pc o.topCount ⟨ensureParents o.leafNodes o.adj, []⟩ := by
    rw [hleaf]
    exact st0_winv inp.getTopic o.members o.sacc o.topCount o.adj htcpos
  set uU : List ℤ := keysOf (ensureParents o.leafNodes o.adj) ++ pcAllIds o.adj.pc with huU
  have hclosed : ∀ a b, edgeIn o.adj.pc a b → b ∈ uU := by
    intro a b hedge
    obtain ⟨q, hq, hbq⟩ := edge_exists_entry hedge
    exact List.mem_append_right _ (mem_pcAllIds_child o.adj.pc q hq b hbq)
  have hcount0 : unvisitedCount uU ⟨ensureParents o.leafNodes o.adj, []⟩ <
      fuelOf (ensureParents o.leafNodes o.adj) o.adj.pc := by
    have h1 : unvisitedCount uU ⟨ensureParents o.leafNodes o.adj, []⟩ ≤ uU.length :=
      unvisitedCount_le_length uU _
    have h2 : uU.length = (ensureParents o.leafNodes o.adj).length +
        (pcAllIds o.adj.pc).length := by
      rw [huU, List.length_append]
      congr 1
      unfold keysOf
      exact List.length_map _ _
    unfold fuelOf
    omega
  have hDone0 : ∀ v ∈ (⟨ensureParents o.leafNodes o.adj, []⟩ : WSt).visited,
      DoneAt o.adj.pc ⟨ensureParents o.leafNodes o.adj, []⟩ v := by
    intro v hv
    simp at hv
  rw [hfin]
  by_cases hr : (rootsOf o.adj).isEmpty
  · rw [if_pos hr]
    obtain ⟨_, hD, hF, _⟩ := fbFold_done o.adj.pc o.adj.plabels o.topCount
      (fuelOf (ensureParents o.leafNodes o.adj) o.adj.pc) uU hacyc hclosed
      ((ensureParents o.leafNodes o.adj).map Prod.fst) ⟨ensureParents o.leafNodes o.adj, []⟩
      (fun k hk => List.mem_append_left _ hk) (fun k hk => hk) hcount0 h0 hDone0
    exact ⟨hD, fun k hk => hF k hk⟩
  · rw [if_neg hr]
    obtain ⟨_, hD, hF, _⟩ := runRoots_done o.adj.pc o.adj.plabels o.topCount
      (fuelOf (ensureParents o.leafNodes o.adj) o.adj.pc) uU hacyc hclosed
      (rootsOf o.adj) ⟨ensureParents o.leafNodes o.adj, []⟩
      (fun r hrm => List.mem_append_right _
        (by
          rcases List.mem_map.mp (rootsOf_parents o.adj r hrm) with ⟨q, hq, hq1⟩
          exact hq1 ▸ mem_pcAllIds_parent o.adj.pc q hq))
      hcount0 h0 hDone0
    exact ⟨hD, fun k hk => hF k hk⟩

/-- C1 (amended): every node's stored size is its final registry size, which
is non-negative; a node with adjacency children whose walk completed (its id
is in the visited set, and the adjacency is acyclic) has size equal to the sum
of its children's final sizes; a node without adjacency children keeps its
pre-walk size — which, by the leaf-size rule, is the max of the reported and
observed counts and can exceed the document count, so size = len(docs) does
not hold in general (see the counterexample). -/
theorem c1_sizes_amended (inp : BuildInput) (o : BuildOut)
    (hok : buildCore inp = Except.ok o) (hacyc : Acyclic o.adj.pc) :
    ∀ nd ∈ o.topics,
      nd.size = sizeAt o.finalSt nd.topicId ∧
      (childrenOf o.adj.pc nd.topicId ≠ [] → nd.topicId ∈ o.finalSt.visited →
        nd.size = sumSizes o.finalSt (childrenOf o.adj.pc nd.topicId)) ∧
      (childrenOf o.adj.pc nd.topicId = [] →
        nd.size = sizeAt ⟨ensureParents o.leafNodes o.adj, []⟩ nd.topicId) ∧
      0 ≤ nd.size := by
  obtain ⟨hw, _⟩ := finalSt_props inp o hok
  obtain ⟨hDone, hFrame⟩ := finalSt_done inp o hok hacyc
  obtain ⟨_, _, _, _, _, _, _, htop, _⟩ := buildCore_ok_parts inp o hok
  intro nd hnd
  rw [htop, mem_stableSort] at hnd
  rcases List.mem_map.mp hnd with ⟨kv, hkv, rfl⟩
  have hkey : kv.2.topicId = kv.1 := hw.keyed kv hkv
  have hget : alGet o.finalSt.nodes kv.1 = some kv.2 := alGet_of_mem_nodup hw.nodup hkv
  have hsz : sizeAt o.finalSt kv.2.topicId = kv.2.size := by
    rw [hkey, sizeAt_eq, hget]
    rfl
  refine ⟨hsz.symm, ?_, ?_, hw.sizes kv hkv⟩
  · intro hne hvis
    have hd := hDone kv.2.topicId hvis
    rw [← hsz]
    exact hd.2 hne
  · intro hnil
    rw [← hsz]
    exact hFrame kv.2.topicId hnil

set_option maxRecDepth 100000 in
/-- C1 witness: the single-leaf build, where the general size theorem applies
with the empty (hence acyclic) merge adjacency. -/
theorem c1_witness :
    buildCore c1WitIn = Except.ok c1WitOut ∧
    Acyclic c1WitOut.adj.pc ∧
    ∀ nd ∈ c1WitOut.topics,
      nd.size = sizeAt c1WitOut.finalSt nd.topicId ∧
      (childrenOf c1WitOut.adj.pc nd.topicId ≠ [] →
        nd.topicId ∈ c1WitOut.finalSt.visited →
        nd.size = sumSizes c1WitOut.finalSt (childrenOf c1WitOut.adj.pc nd.topicId)) ∧
      (childrenOf c1WitOut.adj.pc nd.topicId = [] →
        nd.size = sizeAt ⟨ensureParents c1WitOut.leafNodes c1WitOut.adj, []⟩ nd.topicId) ∧
      0 ≤ nd.size := by
  have hok : buildCore c1WitIn = Except.ok c1WitOut := by decide
  have hac : Acyclic c1WitOut.adj.pc := by
    intro a b hedge hreach
    have hb : b ∈ childrenOf ([] : List (ℤ × List ℤ)) a := hedge
    simp [childrenOf, alGet] at hb
  exact ⟨hok, hac, c1_sizes_amended c1WitIn c1WitOut hok hac⟩

end TB
